import Mathlib

/-!
# Enrichment of intersection points (Boost.Geometry overlay)

A shallow embedding of
`include/boost/geometry/algorithms/detail/overlay/enrich_intersection_points.hpp`.

The turn container is a `List turn_info`; every access `turn_points[i]` or
`operations[j]` that would be out of range in the C++ code makes the embedded
function return `none`.  The collaborators whose headers are not part of the
sources (`handle_colocations`, `std::sort` with `less_by_segment_ratio`, and
`sort_by_side::side_sorter`) are fields of `Strategies`.
-/

namespace Enrich

/-! ## Data model -/

/-- Modelled from the spec: the operation kind of `overlay/turn_info.hpp`
(contributes-to-union, contributes-to-intersection, blocked, none); the header
is not among the sources. -/
inductive operation_type where
  | operation_none
  | operation_union
  | operation_intersection
  | operation_blocked
  deriving DecidableEq, Repr

/-- Modelled from the spec: the classification method of a turn
(crossing / touching / equal / collinear-overlap / isolated). -/
inductive method_type where
  | method_crosses
  | method_touch
  | method_equal
  | method_collinear
  | method_disjoint
  deriving DecidableEq, Repr

/-- Modelled from the spec: segment identity, the composite key
(source-geometry index, multi-part index, ring index, segment-within-ring
index) of `segment_identifier.hpp`. -/
structure segment_identifier where
  source_index : Int
  multi_index : Int
  ring_index : Int
  segment_index : Int
  deriving DecidableEq, Repr

/-- Modelled from the spec: ring identifier (source-geometry index, multi-part
index, ring index) of `detail/ring_identifier.hpp`. -/
structure ring_identifier where
  source_index : Int
  multi_index : Int
  ring_index : Int
  deriving DecidableEq, Repr

/-- Modelled from the spec: the enrichment outputs of an operation, each
initially empty (`none`). -/
structure enrichment_info where
  travels_to_vertex_index : Option Int
  travels_to_ip_index : Option Int
  next_ip_index : Option Int
  deriving DecidableEq, Repr

/-- Modelled from the spec: one geometry's role at one turn; the fraction is an
exact rational. -/
structure turn_operation where
  operation : operation_type
  seg_id : segment_identifier
  fraction : ℚ
  enriched : enrichment_info
  deriving DecidableEq, Repr

/-- Modelled from the spec: a turn point with its location, method, discard
flag and exactly two operations (`operations[0]`, `operations[1]`). -/
structure turn_info where
  point : Int × Int
  method : method_type
  discarded : Bool
  operations : turn_operation × turn_operation
  deriving DecidableEq, Repr

/-- Modelled from the spec: `turn.both(t)`, both operations have kind `t`. -/
def turn_info.both (turn : turn_info) (t : operation_type) : Bool :=
  decide (turn.operations.1.operation = t) && decide (turn.operations.2.operation = t)

/-- Modelled from the spec: `turn.has(t)`, the turn has an operation of kind `t`. -/
def turn_info.has (turn : turn_info) (t : operation_type) : Bool :=
  decide (turn.operations.1.operation = t) || decide (turn.operations.2.operation = t)

/-- The access `turn.operations[j]`; `none` when `j` is not 0 or 1. -/
def turn_info.op (turn : turn_info) (j : Nat) : Option turn_operation :=
  if j = 0 then some turn.operations.1
  else if j = 1 then some turn.operations.2
  else none

/-- Assignment through the reference `turn.operations[j]`. -/
def turn_info.set_op (turn : turn_info) (j : Nat) (o : turn_operation) : Option turn_info :=
  if j = 0 then some { turn with operations := (o, turn.operations.2) }
  else if j = 1 then some { turn with operations := (turn.operations.1, o) }
  else none

/-- The access `turn_points[i].operations[j]`. -/
def get_op (turn_points : List turn_info) (i j : Nat) : Option turn_operation :=
  match turn_points[i]? with
  | none => none
  | some turn => turn.op j

/-- Assignment through the reference `turn_points[i].operations[j]`. -/
def set_op (turn_points : List turn_info) (i j : Nat) (o : turn_operation) :
    Option (List turn_info) :=
  match turn_points[i]? with
  | none => none
  | some turn =>
    match turn.set_op j o with
    | none => none
    | some turn1 => some (turn_points.set i turn1)

/-! ## The discard loop of `enrich_intersection_points` (lines 350-368) -/

/-- Body of the loop "Iterate through turns and discard uu". -/
def discard_turn (it : turn_info) : turn_info :=
  if it.both operation_type.operation_union then
    { it with discarded := true }
  else if it.both operation_type.operation_none then
    { it with discarded := true }
  else it

/-- The discard loop over the whole turn container. -/
def discard_pass (turn_points : List turn_info) : List turn_info :=
  turn_points.map discard_turn

/-- The discard predicate of the spec: both operations union, or both none. -/
def discard_predicate (turn : turn_info) : Prop :=
  (turn.operations.1.operation = operation_type.operation_union ∧
    turn.operations.2.operation = operation_type.operation_union) ∨
  (turn.operations.1.operation = operation_type.operation_none ∧
    turn.operations.2.operation = operation_type.operation_none)

instance (turn : turn_info) : Decidable (discard_predicate turn) := by
  unfold discard_predicate; infer_instance

/-! ## Indexed operations and the per-ring map -/

/-- Modelled from the spec: the indexed operation reference of
`less_by_segment_ratio.hpp`: turn index, operation index, skip mark, the
segment identity of the other operation of the turn, and a snapshot of the
operation itself. -/
structure indexed_turn_operation where
  turn_index : Nat
  operation_index : Nat
  skip : Bool
  other_seg_id : segment_identifier
  subject : turn_operation
  deriving DecidableEq, Repr

/-- The constructor call `IndexedType(ti, oi, sub, oid)`; the skip mark starts
false. -/
def IndexedType (ti oi : Nat) (sub : turn_operation) (oid : segment_identifier) :
    indexed_turn_operation :=
  { turn_index := ti, operation_index := oi, skip := false, other_seg_id := oid, subject := sub }

/-- The ring identifier built in `create_map` from a segment identity
(lines 286-291). -/
def ring_of (seg_id : segment_identifier) : ring_identifier :=
  { source_index := seg_id.source_index
    multi_index := seg_id.multi_index
    ring_index := seg_id.ring_index }

/-- Modelled from the spec: the key order of the ring map, ring identifiers
compared as the tuple (source, multi, ring); `detail/ring_identifier.hpp` is not
among the sources.  It fixes the order in which the rings are visited. -/
def ring_identifier.less (a b : ring_identifier) : Prop :=
  a.source_index < b.source_index ∨
  (a.source_index = b.source_index ∧
    (a.multi_index < b.multi_index ∨
      (a.multi_index = b.multi_index ∧ a.ring_index < b.ring_index)))

instance (a b : ring_identifier) : Decidable (a.less b) := by
  unfold ring_identifier.less; infer_instance

/-- The type `std::map<ring_identifier, std::vector<indexed_turn_operation>>`,
as the list of its entries in key order. -/
abbrev mapped_vector_type := List (ring_identifier × List indexed_turn_operation)

/-- The statement `mapped_vector[ring_id].push_back(x)` on a map kept in key
order: the entry is created at its place when the key is new. -/
def map_push_back : mapped_vector_type → ring_identifier → indexed_turn_operation →
    mapped_vector_type
  | [], ring_id, x => [(ring_id, [x])]
  | (k, v) :: rest, ring_id, x =>
    if ring_id = k then (k, v ++ [x]) :: rest
    else if ring_id.less k then (ring_id, [x]) :: (k, v) :: rest
    else (k, v) :: map_push_back rest ring_id x

/-- The bucket stored for a ring; empty when the map has no entry for it. -/
def map_bucket : mapped_vector_type → ring_identifier → List indexed_turn_operation
  | [], _ => []
  | (k, v) :: rest, ring_id => if ring_id = k then v else map_bucket rest ring_id

/-- The test of `create_map` (lines 263-274) that skips a whole turn. -/
def create_map_skips (for_operation : operation_type) (turn : turn_info) : Bool :=
  turn.discarded ||
    (decide (for_operation ≠ operation_type.operation_union)
      && turn.has operation_type.operation_blocked
      && !turn.has for_operation)

/-- The inner loop of `create_map` (lines 276-297) over the two operations of
the turn at position `index`. -/
def create_map_operations (index : Nat) (turn : turn_info) (mapped_vector : mapped_vector_type) :
    mapped_vector_type :=
  let m1 := map_push_back mapped_vector (ring_of turn.operations.1.seg_id)
    (IndexedType index 0 turn.operations.1 turn.operations.2.seg_id)
  map_push_back m1 (ring_of turn.operations.2.seg_id)
    (IndexedType index 1 turn.operations.2 turn.operations.1.seg_id)

/-- The outer loop of `create_map` from position `index` on. -/
def create_map_loop (for_operation : operation_type) :
    Nat → List turn_info → mapped_vector_type → mapped_vector_type
  | _, [], mapped_vector => mapped_vector
  | index, turn :: rest, mapped_vector =>
    if turn.discarded then
      create_map_loop for_operation (index + 1) rest mapped_vector
    else if decide (for_operation ≠ operation_type.operation_union)
        && turn.has operation_type.operation_blocked
        && !turn.has for_operation then
      create_map_loop for_operation (index + 1) rest mapped_vector
    else
      create_map_loop for_operation (index + 1) rest
        (create_map_operations index turn mapped_vector)

/-- The function `create_map` (lines 247-299), filling `mapped_vector`. -/
def create_map (turn_points : List turn_info) (for_operation : operation_type)
    (mapped_vector : mapped_vector_type) : mapped_vector_type :=
  create_map_loop for_operation 0 turn_points mapped_vector

/-- The two references of the turn at position `index`, operation 0 first. -/
def turn_references (index : Nat) (turn : turn_info) : List indexed_turn_operation :=
  [IndexedType index 0 turn.operations.1 turn.operations.2.seg_id,
   IndexedType index 1 turn.operations.2 turn.operations.1.seg_id]

/-- Every reference of the container, in increasing turn index, operation 0
before operation 1. -/
def all_references (turn_points : List turn_info) : List indexed_turn_operation :=
  turn_points.enum.flatMap fun p => turn_references p.1 p.2

/-- The selection of the reference definition of `create_map`, in the words of
the spec: the turn of the reference is not discarded; it is not the case that
the target is not union and the turn has a blocked operation and no operation
equal to the target; and the ring identifier of the operation is `ring_id`. -/
def in_ring_bucket (turn_points : List turn_info) (for_operation : operation_type)
    (ring_id : ring_identifier) (r : indexed_turn_operation) : Bool :=
  match turn_points[r.turn_index]? with
  | none => false
  | some turn =>
    decide (turn.discarded = false ∧
      ¬ (for_operation ≠ operation_type.operation_union ∧
          turn.has operation_type.operation_blocked = true ∧
          turn.has for_operation = false) ∧
      ring_of r.subject.seg_id = ring_id)

/-- The reference definition of the bucket of `ring_id`, following the spec. -/
def create_map_reference (turn_points : List turn_info) (for_operation : operation_type)
    (ring_id : ring_identifier) : List indexed_turn_operation :=
  (all_references turn_points).filter (in_ring_bucket turn_points for_operation ring_id)

/-- The keys of the ring map are strictly increasing. -/
def map_sorted (m : mapped_vector_type) : Prop :=
  (m.map Prod.fst).Pairwise ring_identifier.less

/-- How often the slot (turn `i`, operation `j`) is referenced in a bucket. -/
def slot_count (bucket : List indexed_turn_operation) (i j : Nat) : Nat :=
  bucket.countP (fun r => decide (r.turn_index = i ∧ r.operation_index = j))

/-- The number of references to operation `j` that a turn puts on ring
`ring_id`: one when the turn is not skipped by `create_map` and the operation
lies on that ring, none otherwise. -/
def turn_slot_count (for_operation : operation_type) (ring_id : ring_identifier)
    (turn : turn_info) (j : Nat) : Nat :=
  match turn.op j with
  | none => 0
  | some o =>
    if create_map_skips for_operation turn = false ∧ ring_of o.seg_id = ring_id then 1 else 0

/-! ## Collaborators -/

/-- The collaborators whose code is not among the sources, taken as parameters:
`handle_colocations` (an in-place transform of the turn container),
`std::sort` with the comparator `less_by_segment_ratio` built from the turn
container and the target operation, and the verdict `is_b_independent()` of
`sort_by_side::side_sorter` after `apply(cluster_op, cluster_other_op, op,
other_op, geometry1, geometry2)`. -/
structure Strategies where
  handle_colocations : List turn_info → operation_type → List turn_info
  sort : List turn_info → operation_type → List indexed_turn_operation →
    List indexed_turn_operation
  is_b_independent : turn_operation → turn_operation → turn_operation → turn_operation → Bool

/-! ## `skip_after_ii` (lines 60-110) -/

/-- The predicate `skip_operation` (lines 48-55). -/
def skip_operation (toi : indexed_turn_operation) : Bool := toi.skip

/-- The loop of `skip_after_ii` (lines 75-109) over the references after the
first; `cluster_toi` is the current cluster anchor.  The result is the scanned
part of the bucket with the skip marks set. -/
def skip_after_ii_loop (S : Strategies) (turn_points : List turn_info) :
    indexed_turn_operation → List indexed_turn_operation →
      Option (List indexed_turn_operation)
  | _, [] => some []
  | cluster_toi, it :: rest => do
    let cluster_turn ← turn_points[cluster_toi.turn_index]?
    let cluster_op ← cluster_turn.op cluster_toi.operation_index
    let cluster_other_op ← cluster_turn.op (1 - cluster_toi.operation_index)
    let both_ii := cluster_turn.both operation_type.operation_intersection
    let turn ← turn_points[it.turn_index]?
    let op ← turn.op it.operation_index
    if both_ii && decide (cluster_op.seg_id = op.seg_id)
        && decide (cluster_op.fraction = op.fraction) then do
      let other_op ← turn.op (1 - it.operation_index)
      let it1 := if S.is_b_independent cluster_op cluster_other_op op other_op
        then { it with skip := true } else it
      let rest1 ← skip_after_ii_loop S turn_points cluster_toi rest
      some (it1 :: rest1)
    else do
      let rest1 ← skip_after_ii_loop S turn_points it rest
      some (it :: rest1)

/-- The function `skip_after_ii`; dereferencing `begin` of an empty bucket
(line 74) has no defined result. -/
def skip_after_ii (S : Strategies) (turn_points : List turn_info)
    (operations : List indexed_turn_operation) : Option (List indexed_turn_operation) :=
  match operations with
  | [] => none
  | cluster_toi :: rest => do
    let rest1 ← skip_after_ii_loop S turn_points cluster_toi rest
    some (cluster_toi :: rest1)

/-! ## `enrich_sort` (lines 128-163) -/

/-- The function `enrich_sort`: sort, mark with `skip_after_ii`, erase the
marked references. -/
def enrich_sort (S : Strategies) (operations : List indexed_turn_operation)
    (turn_points : List turn_info) (for_operation : operation_type) :
    Option (List indexed_turn_operation) := do
  let sorted := S.sort turn_points for_operation operations
  let marked ← skip_after_ii S turn_points sorted
  some (marked.filter (fun toi => !skip_operation toi))

/-! ## `enrich_assign` (lines 175-244) -/

/-- The body of the loop of `enrich_assign` (lines 197-212): the writes through
`prev_op`.  The cast of `it->turn_index` to `signed_size_type` is the identity,
a container index being far below the range of the signed type. -/
def enrich_assign_step (first : Bool) (prev it : indexed_turn_operation)
    (turn_points : List turn_info) : Option (List turn_info) := do
  let prev_op ← get_op turn_points prev.turn_index prev.operation_index
  let op ← get_op turn_points it.turn_index it.operation_index
  let e1 : enrichment_info :=
    { prev_op.enriched with
      travels_to_ip_index := some (it.turn_index : Int)
      travels_to_vertex_index := some it.subject.seg_id.segment_index }
  let e2 : enrichment_info :=
    if !first && decide (prev_op.seg_id.segment_index = op.seg_id.segment_index) then
      { e1 with next_ip_index := some (it.turn_index : Int) }
    else e1
  set_op turn_points prev.turn_index prev.operation_index { prev_op with enriched := e2 }

/-- The loop of `enrich_assign` (lines 193-213) from the iterator position
`it` on, with the current values of `first` and `prev`. -/
def enrich_assign_loop : Bool → indexed_turn_operation → List indexed_turn_operation →
    List turn_info → Option (List turn_info)
  | _, _, [], turn_points => some turn_points
  | first, prev, it :: rest, turn_points => do
    let turn_points1 ← enrich_assign_step first prev it turn_points
    enrich_assign_loop false it rest turn_points1

/-- The function `enrich_assign`; `prev` starts at the last reference. -/
def enrich_assign (operations : List indexed_turn_operation)
    (turn_points : List turn_info) : Option (List turn_info) :=
  if operations.length > 0 then do
    let prev ← operations[operations.length - 1]?
    enrich_assign_loop true prev operations turn_points
  else some turn_points

/-! ## `enrich_intersection_points` (lines 331-414) -/

/-- The loop of lines 382-395: `enrich_sort` on every bucket of the map. -/
def enrich_sort_all (S : Strategies) (turn_points : List turn_info)
    (for_operation : operation_type) : mapped_vector_type → Option mapped_vector_type
  | [] => some []
  | (ring_id, operations) :: rest => do
    let operations1 ← enrich_sort S operations turn_points for_operation
    let rest1 ← enrich_sort_all S turn_points for_operation rest
    some ((ring_id, operations1) :: rest1)

/-- The loop of lines 397-408: `enrich_assign` on every bucket of the map. -/
def enrich_assign_all : mapped_vector_type → List turn_info → Option (List turn_info)
  | [], turn_points => some turn_points
  | (_, operations) :: rest, turn_points => do
    let turn_points1 ← enrich_assign operations turn_points
    enrich_assign_all rest turn_points1

/-- The turn container as `create_map` sees it: after the discard loop and
`handle_colocations`. -/
def prepared_turns (S : Strategies) (turn_points : List turn_info)
    (for_operation : operation_type) : List turn_info :=
  S.handle_colocations (discard_pass turn_points) for_operation

/-- The map after the sequencing loop (lines 374-395). -/
def sequenced_map (S : Strategies) (turn_points : List turn_info)
    (for_operation : operation_type) : Option mapped_vector_type :=
  enrich_sort_all S (prepared_turns S turn_points for_operation) for_operation
    (create_map (prepared_turns S turn_points for_operation) for_operation [])

/-- The function `enrich_intersection_points`, returning the enriched turn
container. -/
def enrich_intersection_points (S : Strategies) (turn_points : List turn_info)
    (for_operation : operation_type) : Option (List turn_info) := do
  let mapped_vector ← sequenced_map S turn_points for_operation
  enrich_assign_all mapped_vector (prepared_turns S turn_points for_operation)

/-! ## Auxiliary notions for the proofs about `enrich_assign` -/

/-- The operation stored through `prev_op` by one pass of the loop body of
`enrich_assign`, given the segment index read through `op`. -/
def assigned_operation (first : Bool) (prev_op : turn_operation) (segment_index : Int)
    (it : indexed_turn_operation) : turn_operation :=
  { prev_op with
    enriched :=
      { travels_to_vertex_index := some it.subject.seg_id.segment_index
        travels_to_ip_index := some (it.turn_index : Int)
        next_ip_index :=
          if !first && decide (prev_op.seg_id.segment_index = segment_index) then
            some (it.turn_index : Int)
          else prev_op.enriched.next_ip_index } }

/-- One pass of the loop of `enrich_assign`: the value of `first` and the
references `prev` and `it`. -/
structure assign_pass where
  first : Bool
  prev : indexed_turn_operation
  it : indexed_turn_operation

/-- The passes of the loop of `enrich_assign`, in order. -/
def assign_passes : Bool → indexed_turn_operation → List indexed_turn_operation →
    List assign_pass
  | _, _, [] => []
  | first, prev, it :: rest =>
    { first := first, prev := prev, it := it } :: assign_passes false it rest

/-- Running a list of passes of the loop body. -/
def run_passes : List assign_pass → List turn_info → Option (List turn_info)
  | [], turn_points => some turn_points
  | w :: ws, turn_points =>
    match enrich_assign_step w.first w.prev w.it turn_points with
    | none => none
    | some turn_points1 => run_passes ws turn_points1

/-- The slot (turn index, operation index) a reference points to. -/
def slot_of (r : indexed_turn_operation) : Nat × Nat := (r.turn_index, r.operation_index)

/-- The fields of an operation that `enrich_assign` only reads. -/
def op_static (o : turn_operation) : operation_type × segment_identifier × ℚ :=
  (o.operation, o.seg_id, o.fraction)

/-- Two containers have the same slots with the same kinds, segment identities
and fractions. -/
def same_static (turn_points turn_points1 : List turn_info) : Prop :=
  ∀ i j : Nat, (get_op turn_points1 i j).map op_static = (get_op turn_points i j).map op_static

/-- Both slots a pass touches exist in the container. -/
def pass_valid (turn_points : List turn_info) (w : assign_pass) : Prop :=
  (get_op turn_points w.prev.turn_index w.prev.operation_index).isSome = true ∧
  (get_op turn_points w.it.turn_index w.it.operation_index).isSome = true

/-- The slots written by a list of passes. -/
def pass_targets (ws : List assign_pass) : List (Nat × Nat) :=
  ws.map (fun w => slot_of w.prev)

/-! ## Auxiliary notions for the proofs about `skip_after_ii` -/

/-- The test of lines 86-88 for the anchor `cluster_toi` and the reference `it`:
the anchor's turn is a both-intersection turn and the two operations have the
same segment identity and the same fraction. -/
def ii_match (turn_points : List turn_info) (cluster_toi it : indexed_turn_operation) : Bool :=
  match turn_points[cluster_toi.turn_index]?,
      get_op turn_points cluster_toi.turn_index cluster_toi.operation_index,
      get_op turn_points it.turn_index it.operation_index with
  | some cluster_turn, some cluster_op, some op =>
    cluster_turn.both operation_type.operation_intersection
      && decide (cluster_op.seg_id = op.seg_id)
      && decide (cluster_op.fraction = op.fraction)
  | _, _, _ => false

/-- The verdict of the side sorter of lines 92-98 for the anchor and the
reference `it`. -/
def side_independent (S : Strategies) (turn_points : List turn_info)
    (cluster_toi it : indexed_turn_operation) : Bool :=
  match get_op turn_points cluster_toi.turn_index cluster_toi.operation_index,
      get_op turn_points cluster_toi.turn_index (1 - cluster_toi.operation_index),
      get_op turn_points it.turn_index it.operation_index,
      get_op turn_points it.turn_index (1 - it.operation_index) with
  | some cluster_op, some cluster_other_op, some op, some other_op =>
    S.is_b_independent cluster_op cluster_other_op op other_op
  | _, _, _, _ => false

/-- The scan of `skip_after_ii` as a total function: the references after the
anchor with their skip marks. -/
def skip_marks (S : Strategies) (turn_points : List turn_info) :
    indexed_turn_operation → List indexed_turn_operation → List indexed_turn_operation
  | _, [] => []
  | cluster_toi, it :: rest =>
    if ii_match turn_points cluster_toi it then
      (if side_independent S turn_points cluster_toi it then { it with skip := true } else it)
        :: skip_marks S turn_points cluster_toi rest
    else it :: skip_marks S turn_points it rest

/-- The slot of a reference exists in the container. -/
def slot_exists (turn_points : List turn_info) (r : indexed_turn_operation) : Prop :=
  (get_op turn_points r.turn_index r.operation_index).isSome = true

instance (turn_points : List turn_info) (r : indexed_turn_operation) :
    Decidable (slot_exists turn_points r) := by
  unfold slot_exists; infer_instance

/-- The sort of the strategies returns a permutation of its input. -/
def sort_permutes (S : Strategies) : Prop :=
  ∀ (turn_points : List turn_info) (for_operation : operation_type)
    (operations : List indexed_turn_operation),
    (S.sort turn_points for_operation operations).Perm operations

/-- All slots referenced by the buckets of a map, bucket after bucket. -/
def all_slots (m : mapped_vector_type) : List (Nat × Nat) :=
  m.flatMap (fun e => e.2.map slot_of)

/-- The entry `e1` of the sequenced map comes from the entry `e` of the map of
`create_map`: same ring, and its bucket is the result of `enrich_sort` on the
bucket of `e`, a sublist of a permutation of it. -/
def sequenced_from (S : Strategies) (turn_points : List turn_info)
    (for_operation : operation_type)
    (e e1 : ring_identifier × List indexed_turn_operation) : Prop :=
  e1.1 = e.1 ∧ enrich_sort S e.2 turn_points for_operation = some e1.2 ∧
    e1.2.Sublist (S.sort turn_points for_operation e.2)

/-- The cluster anchor of `skip_after_ii` after scanning the references `l`
starting with the anchor `cluster_toi`. -/
def anchor_after (turn_points : List turn_info) :
    indexed_turn_operation → List indexed_turn_operation → indexed_turn_operation
  | cluster_toi, [] => cluster_toi
  | cluster_toi, it :: rest =>
    anchor_after turn_points (if ii_match turn_points cluster_toi it then cluster_toi else it) rest

/-- An operation with empty enrichment, used to write concrete turns. -/
def mk_op (k : operation_type) (src multi ring seg : Int) (f : ℚ) : turn_operation :=
  { operation := k
    seg_id := { source_index := src, multi_index := multi, ring_index := ring, segment_index := seg }
    fraction := f
    enriched := { travels_to_vertex_index := none, travels_to_ip_index := none, next_ip_index := none } }

/-- A crossing turn at the origin with the given discard flag and operations. -/
def mk_turn (d : Bool) (o0 o1 : turn_operation) : turn_info :=
  { point := (0, 0), method := method_type.method_crosses, discarded := d, operations := (o0, o1) }

/-- Two square rings crossing at two points: turn 0 joins segment 0 of ring A
with segment 3 of ring B, turn 1 joins segment 1 of ring A with segment 0 of
ring B. -/
def two_crossings : List turn_info :=
  [mk_turn false (mk_op operation_type.operation_intersection 0 0 (-1) 0 (mkRat 1 2))
      (mk_op operation_type.operation_union 1 0 (-1) 3 (mkRat 1 2)),
   mk_turn false (mk_op operation_type.operation_union 0 0 (-1) 1 (mkRat 1 2))
      (mk_op operation_type.operation_intersection 1 0 (-1) 0 (mkRat 1 2))]

/-- The exterior ring of the first geometry. -/
def ring_a : ring_identifier := { source_index := 0, multi_index := 0, ring_index := -1 }

/-- The exterior ring of the second geometry. -/
def ring_b : ring_identifier := { source_index := 1, multi_index := 0, ring_index := -1 }

/-- An order by segment identity, then fraction, standing for
`less_by_segment_ratio` in the examples. -/
def by_segment_ratio (a b : indexed_turn_operation) : Prop :=
  a.subject.seg_id.segment_index < b.subject.seg_id.segment_index ∨
  (a.subject.seg_id.segment_index = b.subject.seg_id.segment_index ∧
    a.subject.fraction ≤ b.subject.fraction)

instance : DecidableRel by_segment_ratio := fun a b => by
  unfold by_segment_ratio; infer_instance

/-- Concrete collaborators for the examples: no colocation adjustment, an
insertion sort by segment and fraction, and a side sorter with a constant
verdict. -/
def example_strategies (independent : Bool) : Strategies :=
  { handle_colocations := fun turn_points _ => turn_points
    sort := fun _ _ operations => operations.insertionSort by_segment_ratio
    is_b_independent := fun _ _ _ _ => independent }

/-- The bucket of ring A in the two-crossings scenario, as `create_map` builds
it for a union. -/
def bucket_a : List indexed_turn_operation :=
  map_bucket (create_map two_crossings operation_type.operation_union []) ring_a

/-- Ring A crossed twice on its segment 0: turn 0 at fraction 1/4 (with segment
0 of ring B), turn 1 at fraction 3/4 (with segment 2 of ring B). -/
def same_segment_crossings : List turn_info :=
  [mk_turn false (mk_op operation_type.operation_intersection 0 0 (-1) 0 (mkRat 1 4))
      (mk_op operation_type.operation_union 1 0 (-1) 0 (mkRat 1 2)),
   mk_turn false (mk_op operation_type.operation_union 0 0 (-1) 0 (mkRat 3 4))
      (mk_op operation_type.operation_intersection 1 0 (-1) 2 (mkRat 1 2))]

/-- The bucket of ring A for `same_segment_crossings`. -/
def bucket_same_segment : List indexed_turn_operation :=
  map_bucket (create_map same_segment_crossings operation_type.operation_union []) ring_a

/-- The operation in slot (`i`, `j`) has a `travels_to_ip_index` that is set
and is the index of an existing turn. -/
def has_valid_link (turn_points : List turn_info) (i j : Nat) : Bool :=
  match get_op turn_points i j with
  | none => false
  | some o =>
    match o.enriched.travels_to_ip_index with
    | none => false
    | some k => decide (0 ≤ k ∧ k < (turn_points.length : Int))

/-- Two both-intersection turns colocated on segment 0 of ring A at fraction
1/2; on ring B they lie on different segments (the end of segment 0 and the
start of segment 1). -/
def colocated_ii : List turn_info :=
  [mk_turn false (mk_op operation_type.operation_intersection 0 0 (-1) 0 (mkRat 1 2))
      (mk_op operation_type.operation_intersection 1 0 (-1) 0 1),
   mk_turn false (mk_op operation_type.operation_intersection 0 0 (-1) 0 (mkRat 1 2))
      (mk_op operation_type.operation_intersection 1 0 (-1) 1 0)]

/-- Following `travels_to_ip_index` from the operation referenced by `r`: the
references of the bucket that belong to the turn travelled to. -/
def travel_next (turn_points : List turn_info) (bucket : List indexed_turn_operation)
    (r : indexed_turn_operation) : List indexed_turn_operation :=
  match get_op turn_points r.turn_index r.operation_index with
  | none => []
  | some o =>
    match o.enriched.travels_to_ip_index with
    | none => []
    | some t => bucket.filter (fun r2 => decide ((r2.turn_index : Int) = t))

/-- The references reached from `r` by following the link exactly `k` times. -/
def travel_reach (turn_points : List turn_info) (bucket : List indexed_turn_operation) :
    Nat → indexed_turn_operation → List indexed_turn_operation
  | 0, r => [r]
  | k + 1, r => (travel_reach turn_points bucket k r).flatMap (travel_next turn_points bucket)

/-- A ring crossing itself: segment 0 meets segment 2 of the same ring, so both
operations of the turn lie on ring A. -/
def self_crossing : List turn_info :=
  [mk_turn false (mk_op operation_type.operation_intersection 0 0 (-1) 0 (mkRat 1 2))
      (mk_op operation_type.operation_union 0 0 (-1) 2 (mkRat 1 2))]

/-- The bucket of ring A for `colocated_ii`, as `create_map` builds it for an
intersection. -/
def bucket_colocated : List indexed_turn_operation :=
  map_bucket (create_map colocated_ii operation_type.operation_intersection []) ring_a

/-- The reference to operation 0 of turn 0 of `colocated_ii`. -/
def colocated_first : indexed_turn_operation :=
  IndexedType 0 0 (mk_op operation_type.operation_intersection 0 0 (-1) 0 (mkRat 1 2))
    (mk_op operation_type.operation_intersection 1 0 (-1) 0 1).seg_id

/-- The reference to operation 0 of turn 1 of `colocated_ii`. -/
def colocated_second : indexed_turn_operation :=
  IndexedType 1 0 (mk_op operation_type.operation_intersection 0 0 (-1) 0 (mkRat 1 2))
    (mk_op operation_type.operation_intersection 1 0 (-1) 1 0).seg_id

/-- Three both-intersection turns at one point: segment 0 of ring A passes
through it (fraction 1/2), segment 2 of ring A starts there; segment 0 of ring B
ends there and segment 1 of ring B starts there.  Turn 2 shares its position on
ring A with turn 0 and its position on ring B with turn 1. -/
def three_colocated : List turn_info :=
  [mk_turn false (mk_op operation_type.operation_intersection 0 0 (-1) 0 (mkRat 1 2))
      (mk_op operation_type.operation_intersection 1 0 (-1) 0 1),
   mk_turn false (mk_op operation_type.operation_intersection 0 0 (-1) 2 0)
      (mk_op operation_type.operation_intersection 1 0 (-1) 1 0),
   mk_turn false (mk_op operation_type.operation_intersection 0 0 (-1) 0 (mkRat 1 2))
      (mk_op operation_type.operation_intersection 1 0 (-1) 1 0)]

/-- The fields of a turn outside its two operations. -/
def turn_frame (turn : turn_info) : (Int × Int) × method_type × Bool :=
  (turn.point, turn.method, turn.discarded)

/-- The container `same_segment_crossings` after `enrich_assign` on the bucket
of ring A. -/
def assigned_same_segment : List turn_info :=
  (enrich_assign bucket_same_segment same_segment_crossings).getD []

/-- The skip condition in the words of the spec: the anchor's turn and the
current reference's own turn are both both-intersection turns, the two
operations have identical segment identity and identical fraction, and the side
sorter reports the current one independent. -/
def skip_condition_spec (S : Strategies) (turn_points : List turn_info)
    (cluster_toi it : indexed_turn_operation) : Bool :=
  match turn_points[cluster_toi.turn_index]?, turn_points[it.turn_index]? with
  | some cluster_turn, some turn =>
    cluster_turn.both operation_type.operation_intersection
      && turn.both operation_type.operation_intersection
      && ii_match turn_points cluster_toi it
      && side_independent S turn_points cluster_toi it
  | _, _ => false

/-- A both-intersection turn followed, at the same place of segment 0 of ring A,
by a turn that is intersection on ring A and union on ring B. -/
def colocated_iu : List turn_info :=
  [mk_turn false (mk_op operation_type.operation_intersection 0 0 (-1) 0 (mkRat 1 2))
      (mk_op operation_type.operation_intersection 1 0 (-1) 0 1),
   mk_turn false (mk_op operation_type.operation_intersection 0 0 (-1) 0 (mkRat 1 2))
      (mk_op operation_type.operation_union 1 0 (-1) 1 0)]

/-- The reference to operation 0 of turn 0 of `colocated_iu`. -/
def iu_first : indexed_turn_operation :=
  IndexedType 0 0 (mk_op operation_type.operation_intersection 0 0 (-1) 0 (mkRat 1 2))
    (mk_op operation_type.operation_intersection 1 0 (-1) 0 1).seg_id

/-- The reference to operation 0 of turn 1 of `colocated_iu`. -/
def iu_second : indexed_turn_operation :=
  IndexedType 1 0 (mk_op operation_type.operation_intersection 0 0 (-1) 0 (mkRat 1 2))
    (mk_op operation_type.operation_union 1 0 (-1) 1 0).seg_id

/-- The reference `y` is the reference `x`, possibly with its skip mark set. -/
def marked_from (x y : indexed_turn_operation) : Prop :=
  y = x ∨ y = { x with skip := true }

/-! ## The link condition in the words of the spec -/

/-- The loop body of the Link Assigner as the spec words it: the same-segment
link is written when `prev` is not the wrap-around predecessor and
`prev.segmentIdentity == cur.segmentIdentity` (the whole segment identity). -/
def enrich_assign_step_by_identity (first : Bool) (prev it : indexed_turn_operation)
    (turn_points : List turn_info) : Option (List turn_info) := do
  let prev_op ← get_op turn_points prev.turn_index prev.operation_index
  let op ← get_op turn_points it.turn_index it.operation_index
  let e1 : enrichment_info :=
    { prev_op.enriched with
      travels_to_ip_index := some (it.turn_index : Int)
      travels_to_vertex_index := some it.subject.seg_id.segment_index }
  let e2 : enrichment_info :=
    if !first && decide (prev_op.seg_id = op.seg_id) then
      { e1 with next_ip_index := some (it.turn_index : Int) }
    else e1
  set_op turn_points prev.turn_index prev.operation_index { prev_op with enriched := e2 }

/-- The loop of the Link Assigner with the spec's link condition. -/
def enrich_assign_loop_by_identity : Bool → indexed_turn_operation →
    List indexed_turn_operation → List turn_info → Option (List turn_info)
  | _, _, [], turn_points => some turn_points
  | first, prev, it :: rest, turn_points => do
    let turn_points1 ← enrich_assign_step_by_identity first prev it turn_points
    enrich_assign_loop_by_identity false it rest turn_points1

/-- The Link Assigner with the spec's link condition. -/
def enrich_assign_by_identity (operations : List indexed_turn_operation)
    (turn_points : List turn_info) : Option (List turn_info) :=
  if operations.length > 0 then do
    let prev ← operations[operations.length - 1]?
    enrich_assign_loop_by_identity true prev operations turn_points
  else some turn_points

/-- A link value is set, is the index of an existing turn of the container, and
that turn is not discarded. -/
def points_at_kept_turn (turn_points : List turn_info) (link : Option Int) : Bool :=
  match link with
  | none => false
  | some k =>
    decide (0 ≤ k) &&
      (match turn_points[k.toNat]? with
        | none => false
        | some turn => !turn.discarded)

/-- Modelled from the spec: the contract of the side sorter
(`sort_by_side::side_sorter`, whose code is not part of this file) as far as the
redundancy elimination relies on it.  In the words of §4.6 a verdict of
independence means that the candidate turn "will be reachable through its own
(other-geometry) ring sequence and is safe to drop from the current ring's
sequence".  The turn stays in the sequence of its other ring only if the sorter
does not drop it there as well: when the sorter reports the operation `op` of a
turn of the container (with other operation `other_op`) independent of some
cluster, it reports the same turn seen from its other ring, the candidate
`other_op` with other operation `op`, independent of no cluster. -/
def side_sorter_contract (S : Strategies) (turn_points : List turn_info) : Prop :=
  ∀ (i j : Nat) (op other_op : turn_operation),
    get_op turn_points i j = some op → get_op turn_points i (1 - j) = some other_op →
    ∀ cluster_op cluster_other_op : turn_operation,
      S.is_b_independent cluster_op cluster_other_op op other_op = true →
      ∀ cluster_op2 cluster_other_op2 : turn_operation,
        S.is_b_independent cluster_op2 cluster_other_op2 other_op op = false

/-- The reference to operation 0 of turn 2 of `three_colocated`, on ring A. -/
def third_on_a : indexed_turn_operation :=
  IndexedType 2 0 (mk_op operation_type.operation_intersection 0 0 (-1) 0 (mkRat 1 2))
    (mk_op operation_type.operation_intersection 1 0 (-1) 1 0).seg_id

theorem discard_turn_operations (it : turn_info) :
    (discard_turn it).operations = it.operations ∧ (discard_turn it).point = it.point ∧
      (discard_turn it).method = it.method := by
  unfold discard_turn
  split
  · exact ⟨rfl, rfl, rfl⟩
  · split
    · exact ⟨rfl, rfl, rfl⟩
    · exact ⟨rfl, rfl, rfl⟩

theorem discard_turn_discarded (it : turn_info) :
    (discard_turn it).discarded = true ↔ (it.discarded = true ∨ discard_predicate it) := by
  unfold discard_turn discard_predicate turn_info.both
  by_cases h1 : it.operations.1.operation = operation_type.operation_union <;>
  by_cases h2 : it.operations.2.operation = operation_type.operation_union <;>
  by_cases h3 : it.operations.1.operation = operation_type.operation_none <;>
  by_cases h4 : it.operations.2.operation = operation_type.operation_none <;>
  simp_all

/-- C1 (counterexample): a turn with two intersection operations that is already
flagged on entry is still flagged after the discard loop, although it does not
match the discard predicate. -/
theorem C1_discard_iff_counterexample :
    ¬ (∀ (turn_points : List turn_info) (i : Nat) (turn : turn_info),
        (discard_pass turn_points)[i]? = some turn →
          (turn.discarded = true ↔ discard_predicate turn)) := by
  intro h
  have h1 := h [mk_turn true (mk_op operation_type.operation_intersection 0 0 0 0 0)
      (mk_op operation_type.operation_intersection 1 0 0 0 0)] 0 _ rfl
  revert h1
  decide

/-- C1 (amended): after the discard loop alone, the turn at every index is
flagged exactly when it was flagged on entry or both of its operations are union
or both are none; in particular, for a turn that was not flagged on entry,
flagged iff the discard predicate holds.  The operations are untouched. -/
theorem C1_discard_pass_flag (turn_points : List turn_info) (i : Nat) (turn0 : turn_info)
    (h0 : turn_points[i]? = some turn0) :
    ∃ turn : turn_info, (discard_pass turn_points)[i]? = some turn ∧
      turn.operations = turn0.operations ∧
      (turn.discarded = true ↔ (turn0.discarded = true ∨ discard_predicate turn)) ∧
      (turn0.discarded = false → (turn.discarded = true ↔ discard_predicate turn)) := by
  refine ⟨discard_turn turn0, by simp [discard_pass, h0], (discard_turn_operations turn0).1, ?_, ?_⟩
  · rw [discard_turn_discarded]
    unfold discard_predicate
    rw [(discard_turn_operations turn0).1]
  · intro hf
    rw [discard_turn_discarded]
    unfold discard_predicate
    rw [(discard_turn_operations turn0).1]
    simp [hf]

/-- C1 witness: the amended statement at a container holding one union/union turn. -/
theorem C1_discard_pass_flag_witness :
    ∃ turn : turn_info,
      (discard_pass [mk_turn false (mk_op operation_type.operation_union 0 0 0 0 0)
        (mk_op operation_type.operation_union 1 0 0 0 0)])[0]? = some turn ∧
      turn.operations = (mk_turn false (mk_op operation_type.operation_union 0 0 0 0 0)
        (mk_op operation_type.operation_union 1 0 0 0 0)).operations ∧
      (turn.discarded = true ↔ ((mk_turn false (mk_op operation_type.operation_union 0 0 0 0 0)
        (mk_op operation_type.operation_union 1 0 0 0 0)).discarded = true ∨
          discard_predicate turn)) ∧
      ((mk_turn false (mk_op operation_type.operation_union 0 0 0 0 0)
        (mk_op operation_type.operation_union 1 0 0 0 0)).discarded = false →
          (turn.discarded = true ↔ discard_predicate turn)) :=
  C1_discard_pass_flag _ 0 _ rfl

/-! ### The ring map -/

theorem ring_less_irrefl (a : ring_identifier) : ¬ a.less a := by
  unfold ring_identifier.less; omega

theorem ring_less_trans {a b c : ring_identifier} (h1 : a.less b) (h2 : b.less c) : a.less c := by
  unfold ring_identifier.less at *; omega

theorem ring_less_total {a b : ring_identifier} (h1 : ¬ a.less b) (h2 : a ≠ b) : b.less a := by
  cases a with
  | mk s1 m1 r1 =>
    cases b with
    | mk s2 m2 r2 =>
      unfold ring_identifier.less at *
      simp only [ne_eq, ring_identifier.mk.injEq] at h2
      simp only at h1 ⊢
      omega

theorem map_bucket_of_less (m : mapped_vector_type) (k : ring_identifier)
    (h : ∀ k1 ∈ m.map Prod.fst, k.less k1) : map_bucket m k = [] := by
  induction m with
  | nil => rfl
  | cons e rest ih =>
    obtain ⟨k1, v⟩ := e
    have hk : k ≠ k1 := by
      intro heq
      have := h k1 (by simp)
      rw [heq] at this
      exact ring_less_irrefl k1 this
    simp only [map_bucket, hk, if_false]
    exact ih (fun k2 hk2 => h k2 (by simp at hk2 ⊢; exact Or.inr hk2))

theorem map_push_back_keys (m : mapped_vector_type) (k : ring_identifier)
    (x : indexed_turn_operation) :
    ∀ k1 ∈ (map_push_back m k x).map Prod.fst, k1 = k ∨ k1 ∈ m.map Prod.fst := by
  induction m with
  | nil => intro k1 h; simp [map_push_back] at h; exact Or.inl h
  | cons e rest ih =>
    obtain ⟨k0, v⟩ := e
    intro k1 h
    unfold map_push_back at h
    split at h
    · simp at h ⊢; tauto
    · split at h
      · simp at h ⊢; tauto
      · simp only [List.map_cons, List.mem_cons] at h ⊢
        rcases h with h | h
        · exact Or.inr (Or.inl h)
        · rcases ih k1 h with h1 | h1
          · exact Or.inl h1
          · exact Or.inr (Or.inr h1)

theorem map_push_back_sorted (m : mapped_vector_type) (k : ring_identifier)
    (x : indexed_turn_operation) (hs : map_sorted m) : map_sorted (map_push_back m k x) := by
  induction m with
  | nil => simp [map_push_back, map_sorted]
  | cons e rest ih =>
    obtain ⟨k0, v⟩ := e
    unfold map_sorted at hs
    simp only [List.map_cons, List.pairwise_cons] at hs
    unfold map_push_back
    split
    · unfold map_sorted
      simp only [List.map_cons, List.pairwise_cons]
      exact hs
    · rename_i hne
      split
      · rename_i hlt
        unfold map_sorted
        simp only [List.map_cons, List.pairwise_cons, List.mem_cons]
        refine ⟨?_, hs⟩
        intro k1 hk1
        rcases hk1 with hk1 | hk1
        · rw [hk1]; exact hlt
        · exact ring_less_trans hlt (hs.1 k1 hk1)
      · rename_i hnlt
        unfold map_sorted
        simp only [List.map_cons, List.pairwise_cons]
        refine ⟨?_, ih hs.2⟩
        intro k1 hk1
        rcases map_push_back_keys rest k x k1 hk1 with h1 | h1
        · rw [h1]; exact ring_less_total hnlt hne
        · exact hs.1 k1 h1

theorem map_bucket_push_back (m : mapped_vector_type) (k : ring_identifier)
    (x : indexed_turn_operation) (hs : map_sorted m) (ring_id : ring_identifier) :
    map_bucket (map_push_back m k x) ring_id =
      if ring_id = k then map_bucket m ring_id ++ [x] else map_bucket m ring_id := by
  induction m with
  | nil =>
    by_cases h : ring_id = k <;> simp [map_push_back, map_bucket, h]
  | cons e rest ih =>
    obtain ⟨k0, v⟩ := e
    unfold map_sorted at hs
    simp only [List.map_cons, List.pairwise_cons] at hs
    unfold map_push_back
    split
    · rename_i heq
      subst heq
      by_cases h : ring_id = k <;> simp [map_bucket, h]
    · rename_i hne
      split
      · rename_i hlt
        by_cases h : ring_id = k
        · subst h
          have hnil : map_bucket ((k0, v) :: rest) ring_id = [] := by
            apply map_bucket_of_less
            intro k1 hk1
            simp only [List.map_cons, List.mem_cons] at hk1
            rcases hk1 with hk1 | hk1
            · rw [hk1]; exact hlt
            · exact ring_less_trans hlt (hs.1 k1 hk1)
          rw [hnil]
          simp [map_bucket]
        · simp only [h, if_false]
          conv => lhs; unfold map_bucket
          simp only [h, if_false]
      · by_cases h0 : ring_id = k0
        · have hk : ring_id ≠ k := by
            intro h; apply hne; rw [← h, h0]
          have hk0 : ¬ k0 = k := fun h => hne h.symm
          simp [map_bucket, h0, hk0]
        · conv => lhs; unfold map_bucket
          simp only [h0, if_false]
          rw [ih hs.2]
          by_cases h : ring_id = k
          · subst h
            simp [map_bucket, h0]
          · simp [map_bucket, h, h0]

/-! ### `create_map` -/

theorem create_map_operations_sorted (index : Nat) (turn : turn_info) (m : mapped_vector_type)
    (hs : map_sorted m) : map_sorted (create_map_operations index turn m) := by
  unfold create_map_operations
  exact map_push_back_sorted _ _ _ (map_push_back_sorted _ _ _ hs)

theorem create_map_operations_bucket (index : Nat) (turn : turn_info) (m : mapped_vector_type)
    (hs : map_sorted m) (ring_id : ring_identifier) :
    map_bucket (create_map_operations index turn m) ring_id =
      map_bucket m ring_id ++
        (turn_references index turn).filter (fun r => decide (ring_of r.subject.seg_id = ring_id)) := by
  unfold create_map_operations
  simp only []
  rw [map_bucket_push_back _ _ _ (map_push_back_sorted _ _ _ hs), map_bucket_push_back _ _ _ hs]
  unfold turn_references
  simp only [List.filter_cons, IndexedType, List.filter_nil, @eq_comm _ ring_id,
    decide_eq_true_eq]
  split_ifs <;> simp

/-- The references one turn contributes to the bucket of `ring_id`. -/
theorem create_map_loop_spec (for_operation : operation_type) (turn_points : List turn_info) :
    ∀ (index : Nat) (m : mapped_vector_type), map_sorted m →
      map_sorted (create_map_loop for_operation index turn_points m) ∧
      ∀ ring_id : ring_identifier,
        map_bucket (create_map_loop for_operation index turn_points m) ring_id =
          map_bucket m ring_id ++
            (turn_points.enumFrom index).flatMap (fun p =>
              (if create_map_skips for_operation p.2 then []
                else turn_references p.1 p.2).filter
                  (fun r => decide (ring_of r.subject.seg_id = ring_id))) := by
  induction turn_points with
  | nil => intro index m hs; exact ⟨hs, fun _ => by simp [create_map_loop]⟩
  | cons turn rest ih =>
    intro index m hs
    unfold create_map_loop
    by_cases hd : turn.discarded = true
    · rw [if_pos hd]
      refine ⟨(ih (index + 1) m hs).1, fun ring_id => ?_⟩
      rw [(ih (index + 1) m hs).2]
      simp [create_map_skips, hd]
    · rw [if_neg hd]
      by_cases hb : (decide (for_operation ≠ operation_type.operation_union)
          && turn.has operation_type.operation_blocked && !turn.has for_operation) = true
      · rw [if_pos hb]
        refine ⟨(ih (index + 1) m hs).1, fun ring_id => ?_⟩
        rw [(ih (index + 1) m hs).2]
        have hsk : create_map_skips for_operation turn = true := by
          simp only [create_map_skips, hb, Bool.or_true]
        simp [hsk]
      · rw [if_neg hb]
        have hs1 := create_map_operations_sorted index turn m hs
        refine ⟨(ih (index + 1) _ hs1).1, fun ring_id => ?_⟩
        rw [(ih (index + 1) _ hs1).2, create_map_operations_bucket _ _ _ hs]
        have hsk : create_map_skips for_operation turn = false := by
          simp only [create_map_skips]
          simp only [Bool.not_eq_true] at hd hb
          rw [hd, hb]; rfl
        simp [hsk]

theorem in_ring_bucket_of_turn (turn_points : List turn_info) (for_operation : operation_type)
    (ring_id : ring_identifier) (i : Nat) (turn : turn_info) (h : turn_points[i]? = some turn)
    (r : indexed_turn_operation) (hr : r.turn_index = i) :
    in_ring_bucket turn_points for_operation ring_id r =
      (!create_map_skips for_operation turn && decide (ring_of r.subject.seg_id = ring_id)) := by
  unfold in_ring_bucket create_map_skips
  rw [hr, h]
  simp only []
  by_cases hd : turn.discarded = true <;>
  by_cases hu : for_operation = operation_type.operation_union <;>
  by_cases hb : turn.has operation_type.operation_blocked = true <;>
  by_cases hf : turn.has for_operation = true <;>
  by_cases hR : ring_of r.subject.seg_id = ring_id <;>
  simp_all

theorem create_map_reference_eq (turn_points : List turn_info) (for_operation : operation_type)
    (ring_id : ring_identifier) :
    create_map_reference turn_points for_operation ring_id =
      (turn_points.enumFrom 0).flatMap (fun p =>
        (if create_map_skips for_operation p.2 then []
          else turn_references p.1 p.2).filter
            (fun r => decide (ring_of r.subject.seg_id = ring_id))) := by
  unfold create_map_reference all_references
  rw [List.filter_flatMap]
  apply List.flatMap_congr
  intro p hp
  obtain ⟨i, turn⟩ := p
  have hget : turn_points[i]? = some turn := List.mk_mem_enum_iff_getElem?.mp hp
  simp only []
  by_cases hsk : create_map_skips for_operation turn = true
  · simp only [hsk, if_true, List.filter_nil]
    apply List.filter_eq_nil_iff.mpr
    intro r hr
    have hti : r.turn_index = i := by
      simp [turn_references, IndexedType] at hr
      rcases hr with hr | hr <;> rw [hr]
    rw [in_ring_bucket_of_turn _ _ _ i turn hget r hti, hsk]
    simp
  · simp only [hsk, if_false]
    apply List.filter_congr
    intro r hr
    have hti : r.turn_index = i := by
      simp [turn_references, IndexedType] at hr
      rcases hr with hr | hr <;> rw [hr]
    rw [in_ring_bucket_of_turn _ _ _ i turn hget r hti]
    simp only [Bool.not_eq_true] at hsk
    rw [hsk]
    simp

theorem map_sorted_nil : map_sorted [] := by
  simp [map_sorted]

theorem create_map_bucket_eq (turn_points : List turn_info) (for_operation : operation_type)
    (ring_id : ring_identifier) :
    map_bucket (create_map turn_points for_operation []) ring_id =
      create_map_reference turn_points for_operation ring_id := by
  unfold create_map
  rw [(create_map_loop_spec for_operation turn_points 0 [] map_sorted_nil).2,
    create_map_reference_eq]
  simp [map_bucket]

/-- C2: for every turn container, target operation and ring identifier, the
bucket that `create_map` (started on the empty map) stores for the ring is
exactly the reference list: all references in increasing turn index, operation 0
before operation 1, whose turn is not discarded, is not a blocked turn without
the target operation when the target is not union, and whose operation lies on
that ring. -/
theorem C2_create_map_refines_reference (turn_points : List turn_info)
    (for_operation : operation_type) (ring_id : ring_identifier) :
    map_bucket (create_map turn_points for_operation []) ring_id =
      create_map_reference turn_points for_operation ring_id :=
  create_map_bucket_eq turn_points for_operation ring_id

/-! ### Ring disjointness -/

theorem slot_count_turn_references (for_operation : operation_type) (ring_id : ring_identifier)
    (index : Nat) (turn : turn_info) (i j : Nat) :
    slot_count ((if create_map_skips for_operation turn then []
        else turn_references index turn).filter
          (fun r => decide (ring_of r.subject.seg_id = ring_id))) i j =
      if index = i then turn_slot_count for_operation ring_id turn j else 0 := by
  unfold slot_count turn_slot_count turn_info.op turn_references IndexedType
  by_cases hsk : create_map_skips for_operation turn = true
  · simp only [hsk, if_true, List.filter_nil, List.countP_nil]
    split_ifs <;> simp
  · simp only [Bool.not_eq_true] at hsk
    simp only [hsk, Bool.false_eq_true, if_false, List.filter_cons, List.filter_nil,
      decide_eq_true_eq, true_and]
    by_cases h1 : ring_of turn.operations.1.seg_id = ring_id <;>
    by_cases h2 : ring_of turn.operations.2.seg_id = ring_id <;>
    by_cases hi : index = i <;>
    by_cases hj0 : j = 0 <;>
    by_cases hj1 : j = 1 <;>
    simp [h1, h2, hi, hj0, hj1, List.countP_cons] <;> omega

theorem slot_count_enumFrom (for_operation : operation_type) (ring_id : ring_identifier)
    (i j : Nat) (turn_points : List turn_info) :
    ∀ index : Nat,
      slot_count ((turn_points.enumFrom index).flatMap (fun p =>
          (if create_map_skips for_operation p.2 then []
            else turn_references p.1 p.2).filter
              (fun r => decide (ring_of r.subject.seg_id = ring_id)))) i j =
        if index ≤ i then
          match turn_points[i - index]? with
          | none => 0
          | some turn => turn_slot_count for_operation ring_id turn j
        else 0 := by
  induction turn_points with
  | nil => intro index; simp [slot_count]
  | cons turn rest ih =>
    intro index
    have hsplit : ∀ l1 l2 : List indexed_turn_operation,
        slot_count (l1 ++ l2) i j = slot_count l1 i j + slot_count l2 i j := by
      intro l1 l2; simp [slot_count, List.countP_append]
    rw [List.enumFrom_cons, List.flatMap_cons, hsplit, ih (index + 1),
      slot_count_turn_references]
    by_cases h1 : index = i
    · subst h1
      simp
    · by_cases h2 : index ≤ i
      · have h3 : index + 1 ≤ i := by omega
        have h4 : i - index = (i - (index + 1)) + 1 := by omega
        simp only [h1, h2, h3, if_true, if_false, Nat.zero_add]
        rw [h4, List.getElem?_cons_succ]
      · have h3 : ¬ index + 1 ≤ i := by omega
        simp [h1, h2, h3]

theorem create_map_slot_count (turn_points : List turn_info) (for_operation : operation_type)
    (ring_id : ring_identifier) (i j : Nat) :
    slot_count (map_bucket (create_map turn_points for_operation []) ring_id) i j =
      match turn_points[i]? with
      | none => 0
      | some turn => turn_slot_count for_operation ring_id turn j := by
  rw [create_map_bucket_eq, create_map_reference_eq, slot_count_enumFrom]
  simp

theorem mem_all_references (turn_points : List turn_info) (r : indexed_turn_operation)
    (h : r ∈ all_references turn_points) :
    ∃ turn : turn_info, turn_points[r.turn_index]? = some turn ∧ r.skip = false ∧
      ((r.operation_index = 0 ∧ r.subject = turn.operations.1 ∧
          r.other_seg_id = turn.operations.2.seg_id) ∨
       (r.operation_index = 1 ∧ r.subject = turn.operations.2 ∧
          r.other_seg_id = turn.operations.1.seg_id)) := by
  unfold all_references at h
  rw [List.mem_flatMap] at h
  obtain ⟨p, hp, hr⟩ := h
  obtain ⟨i, turn⟩ := p
  have hget : turn_points[i]? = some turn := List.mk_mem_enum_iff_getElem?.mp hp
  simp only [turn_references, IndexedType, List.mem_cons, List.mem_singleton,
    List.not_mem_nil, or_false] at hr
  rcases hr with hr | hr
  · subst hr
    exact ⟨turn, hget, rfl, Or.inl ⟨rfl, rfl, rfl⟩⟩
  · subst hr
    exact ⟨turn, hget, rfl, Or.inr ⟨rfl, rfl, rfl⟩⟩

/-- What is known of a reference found in a bucket of `create_map`. -/
theorem mem_create_map_bucket (turn_points : List turn_info) (for_operation : operation_type)
    (ring_id : ring_identifier) (r : indexed_turn_operation)
    (h : r ∈ map_bucket (create_map turn_points for_operation []) ring_id) :
    ∃ turn : turn_info, turn_points[r.turn_index]? = some turn ∧
      create_map_skips for_operation turn = false ∧
      turn.op r.operation_index = some r.subject ∧
      r.skip = false ∧ ring_of r.subject.seg_id = ring_id ∧
      ∃ other : turn_operation, turn.op (1 - r.operation_index) = some other ∧
        r.other_seg_id = other.seg_id := by
  rw [create_map_bucket_eq] at h
  unfold create_map_reference at h
  rw [List.mem_filter] at h
  obtain ⟨hall, hin⟩ := h
  obtain ⟨turn, hget, hskip, hop⟩ := mem_all_references turn_points r hall
  rw [in_ring_bucket_of_turn _ _ _ r.turn_index turn hget r rfl] at hin
  simp only [Bool.and_eq_true, Bool.not_eq_true', decide_eq_true_eq] at hin
  refine ⟨turn, hget, hin.1, ?_, hskip, hin.2, ?_⟩
  · rcases hop with ⟨h0, hs, _⟩ | ⟨h1, hs, _⟩
    · simp [turn_info.op, h0, hs]
    · simp [turn_info.op, h1, hs]
  · rcases hop with ⟨h0, _, ho⟩ | ⟨h1, _, ho⟩
    · exact ⟨turn.operations.2, by simp [turn_info.op, h0], ho⟩
    · exact ⟨turn.operations.1, by simp [turn_info.op, h1], ho⟩

/-- C3: the buckets of `create_map` partition the surviving (turn, operation)
pairs.  A pair of a turn that is not skipped occurs exactly once in the bucket
of the ring of its operation and in no other bucket; no pair occurs twice in a
bucket, none occurs in two different buckets, and every reference found in a
bucket is a pair of a turn that is not skipped. -/
theorem C3_ring_buckets_partition (turn_points : List turn_info)
    (for_operation : operation_type) :
    (∀ (i j : Nat) (turn : turn_info) (o : turn_operation),
      turn_points[i]? = some turn → create_map_skips for_operation turn = false →
      turn.op j = some o →
        slot_count (map_bucket (create_map turn_points for_operation []) (ring_of o.seg_id)) i j = 1
        ∧ ∀ ring_id : ring_identifier, ring_id ≠ ring_of o.seg_id →
          slot_count (map_bucket (create_map turn_points for_operation []) ring_id) i j = 0) ∧
    (∀ (ring_id : ring_identifier) (i j : Nat),
      slot_count (map_bucket (create_map turn_points for_operation []) ring_id) i j ≤ 1) ∧
    (∀ (ring_id ring_id2 : ring_identifier) (i j : Nat), ring_id ≠ ring_id2 →
      0 < slot_count (map_bucket (create_map turn_points for_operation []) ring_id) i j →
      slot_count (map_bucket (create_map turn_points for_operation []) ring_id2) i j = 0) ∧
    (∀ (ring_id : ring_identifier) (r : indexed_turn_operation),
      r ∈ map_bucket (create_map turn_points for_operation []) ring_id →
        ∃ turn : turn_info, turn_points[r.turn_index]? = some turn ∧
          create_map_skips for_operation turn = false ∧
          turn.op r.operation_index = some r.subject) := by
  refine ⟨?_, ?_, ?_, ?_⟩
  · intro i j turn o hget hsk hop
    refine ⟨?_, fun ring_id hne => ?_⟩
    · rw [create_map_slot_count, hget]
      simp [turn_slot_count, hop, hsk]
    · rw [create_map_slot_count, hget]
      simp only [turn_slot_count, hop, hsk, true_and]
      rw [if_neg (fun h => hne h.symm)]
  · intro ring_id i j
    rw [create_map_slot_count]
    cases turn_points[i]? with
    | none => simp
    | some turn =>
      simp only [turn_slot_count]
      cases turn.op j with
      | none => simp
      | some o => simp only []; split_ifs <;> simp
  · intro ring_id ring_id2 i j hne hpos
    rw [create_map_slot_count] at hpos ⊢
    cases hget : turn_points[i]? with
    | none => simp
    | some turn =>
      rw [hget] at hpos
      simp only [turn_slot_count] at hpos ⊢
      cases hop : turn.op j with
      | none => simp
      | some o =>
        rw [hop] at hpos
        simp only [] at hpos ⊢
        by_cases h1 : create_map_skips for_operation turn = false ∧ ring_of o.seg_id = ring_id
        · have h2 : ¬ (create_map_skips for_operation turn = false ∧ ring_of o.seg_id = ring_id2) := by
            intro h; apply hne; rw [← h1.2, ← h.2]
          rw [if_neg h2]
        · rw [if_neg h1] at hpos
          exact absurd hpos (by decide)
  · intro ring_id r hr
    obtain ⟨turn, hget, hsk, hop, _⟩ := mem_create_map_bucket turn_points for_operation ring_id r hr
    exact ⟨turn, hget, hsk, hop⟩

/-- C3 witness: in the two-crossings scenario, operation 0 of turn 0 occurs once
in the bucket of ring A and not at all in the bucket of ring B. -/
theorem C3_ring_buckets_partition_witness :
    slot_count (map_bucket (create_map two_crossings operation_type.operation_union []) ring_a) 0 0 = 1
    ∧ slot_count (map_bucket (create_map two_crossings operation_type.operation_union []) ring_b) 0 0 = 0 := by
  have h := (C3_ring_buckets_partition two_crossings operation_type.operation_union).1 0 0
    (mk_turn false (mk_op operation_type.operation_intersection 0 0 (-1) 0 (mkRat 1 2))
      (mk_op operation_type.operation_union 1 0 (-1) 3 (mkRat 1 2)))
    (mk_op operation_type.operation_intersection 0 0 (-1) 0 (mkRat 1 2)) rfl rfl rfl
  exact ⟨h.1, h.2 ring_b (by decide)⟩

/-! ### Reading and writing slots -/

theorem get_op_set_op_same (turn_points turn_points1 : List turn_info) (i j : Nat)
    (o : turn_operation) (h : set_op turn_points i j o = some turn_points1) :
    get_op turn_points1 i j = some o := by
  unfold set_op at h
  cases hget : turn_points[i]? with
  | none => rw [hget] at h; simp at h
  | some turn =>
    rw [hget] at h
    simp only [] at h
    have hi : i < turn_points.length := by
      rcases List.getElem?_eq_some_iff.mp hget with ⟨hlt, _⟩
      exact hlt
    cases hset : turn.set_op j o with
    | none => rw [hset] at h; simp at h
    | some turn1 =>
      rw [hset] at h
      simp only [Option.some.injEq] at h
      subst h
      unfold get_op
      rw [List.getElem?_set_self hi]
      simp only []
      unfold turn_info.set_op at hset
      unfold turn_info.op
      by_cases h0 : j = 0
      · simp only [h0, if_true, Option.some.injEq] at hset ⊢
        rw [← hset]
      · by_cases h1 : j = 1
        · subst h1
          simp only [if_neg (by decide : ¬ (1 : Nat) = 0), if_true, Option.some.injEq] at hset ⊢
          rw [← hset]
        · simp [h0, h1] at hset

theorem get_op_set_op_other (turn_points turn_points1 : List turn_info) (i j : Nat)
    (o : turn_operation) (h : set_op turn_points i j o = some turn_points1)
    (i1 j1 : Nat) (hne : (i1, j1) ≠ (i, j)) :
    get_op turn_points1 i1 j1 = get_op turn_points i1 j1 := by
  unfold set_op at h
  cases hget : turn_points[i]? with
  | none => rw [hget] at h; simp at h
  | some turn =>
    rw [hget] at h
    simp only [] at h
    cases hset : turn.set_op j o with
    | none => rw [hset] at h; simp at h
    | some turn1 =>
      rw [hset] at h
      simp only [Option.some.injEq] at h
      subst h
      unfold get_op
      by_cases hi : i1 = i
      · subst hi
        have hj : j1 ≠ j := fun hj => hne (by rw [hj])
        have hlt : i1 < turn_points.length := by
          rcases List.getElem?_eq_some_iff.mp hget with ⟨hlt, _⟩
          exact hlt
        rw [List.getElem?_set_self hlt, hget]
        simp only []
        unfold turn_info.set_op at hset
        unfold turn_info.op
        by_cases h0 : j = 0
        · simp only [h0, if_true, Option.some.injEq] at hset
          rw [← hset]
          have : j1 ≠ 0 := fun h => hj (by rw [h, h0])
          simp [this]
        · by_cases h1 : j = 1
          · subst h1
            simp only [if_neg (by decide : ¬ (1 : Nat) = 0), if_true, Option.some.injEq] at hset
            rw [← hset]
            simp [hj]
          · simp [h0, h1] at hset
      · rw [List.getElem?_set_ne (fun h => hi h.symm)]

theorem set_op_of_get_op (turn_points : List turn_info) (i j : Nat) (o0 o : turn_operation)
    (h : get_op turn_points i j = some o0) :
    ∃ turn_points1, set_op turn_points i j o = some turn_points1 := by
  unfold get_op at h
  unfold set_op
  cases hget : turn_points[i]? with
  | none => rw [hget] at h; simp at h
  | some turn =>
    rw [hget] at h
    simp only [] at h ⊢
    unfold turn_info.op at h
    unfold turn_info.set_op
    by_cases h0 : j = 0
    · simp [h0]
    · by_cases h1 : j = 1
      · simp [h1]
      · simp [h0, h1] at h

theorem get_op_index_lt (turn_points : List turn_info) (i j : Nat) (o : turn_operation)
    (h : get_op turn_points i j = some o) : i < turn_points.length ∧ j < 2 := by
  unfold get_op at h
  cases hget : turn_points[i]? with
  | none => rw [hget] at h; simp at h
  | some turn =>
    rw [hget] at h
    simp only [] at h
    refine ⟨(List.getElem?_eq_some_iff.mp hget).1, ?_⟩
    unfold turn_info.op at h
    by_cases h0 : j = 0
    · omega
    · by_cases h1 : j = 1
      · omega
      · simp [h0, h1] at h

/-! ### One pass of the loop of `enrich_assign` -/

theorem enrich_assign_step_spec (first : Bool) (prev it : indexed_turn_operation)
    (turn_points : List turn_info) (a b : turn_operation)
    (ha : get_op turn_points prev.turn_index prev.operation_index = some a)
    (hb : get_op turn_points it.turn_index it.operation_index = some b) :
    ∃ turn_points1, enrich_assign_step first prev it turn_points = some turn_points1 ∧
      get_op turn_points1 prev.turn_index prev.operation_index =
        some (assigned_operation first a b.seg_id.segment_index it) ∧
      ∀ i j : Nat, (i, j) ≠ (prev.turn_index, prev.operation_index) →
        get_op turn_points1 i j = get_op turn_points i j := by
  obtain ⟨turn_points1, h1⟩ := set_op_of_get_op turn_points prev.turn_index prev.operation_index a
    (assigned_operation first a b.seg_id.segment_index it) ha
  have hstep : enrich_assign_step first prev it turn_points = some turn_points1 := by
    unfold enrich_assign_step
    simp only [ha, hb, Option.bind_eq_bind, Option.some_bind]
    rw [← h1]
    congr 1
    unfold assigned_operation
    by_cases hc : (!first && decide (a.seg_id.segment_index = b.seg_id.segment_index)) = true
    · simp only [hc, if_true]
    · simp only [hc, if_false]
      rfl
  exact ⟨turn_points1, hstep, get_op_set_op_same _ _ _ _ _ h1,
    fun i j hne => get_op_set_op_other _ _ _ _ _ h1 i j hne⟩

theorem same_static_refl (turn_points : List turn_info) : same_static turn_points turn_points :=
  fun _ _ => rfl

theorem same_static_trans {t1 t2 t3 : List turn_info} (h12 : same_static t1 t2)
    (h23 : same_static t2 t3) : same_static t1 t3 :=
  fun i j => (h23 i j).trans (h12 i j)

theorem same_static_get {t1 t2 : List turn_info} (h : same_static t1 t2) (i j : Nat)
    (o : turn_operation) (ho : get_op t1 i j = some o) :
    ∃ o2, get_op t2 i j = some o2 ∧ o2.operation = o.operation ∧ o2.seg_id = o.seg_id ∧
      o2.fraction = o.fraction := by
  have h1 := h i j
  rw [ho] at h1
  cases h2 : get_op t2 i j with
  | none => rw [h2] at h1; simp at h1
  | some o2 =>
    rw [h2] at h1
    simp only [Option.map_some', Option.some.injEq, op_static, Prod.mk.injEq] at h1
    exact ⟨o2, rfl, h1.1, h1.2.1, h1.2.2⟩

theorem same_static_get_back {t1 t2 : List turn_info} (h : same_static t1 t2) (i j : Nat)
    (o2 : turn_operation) (ho : get_op t2 i j = some o2) :
    ∃ o, get_op t1 i j = some o ∧ o2.operation = o.operation ∧ o2.seg_id = o.seg_id ∧
      o2.fraction = o.fraction := by
  have h1 := h i j
  rw [ho] at h1
  cases h2 : get_op t1 i j with
  | none => rw [h2] at h1; simp at h1
  | some o =>
    rw [h2] at h1
    simp only [Option.map_some', Option.some.injEq, op_static, Prod.mk.injEq] at h1
    exact ⟨o, rfl, h1.1, h1.2.1, h1.2.2⟩

theorem same_static_isSome {t1 t2 : List turn_info} (h : same_static t1 t2) (i j : Nat) :
    (get_op t2 i j).isSome = (get_op t1 i j).isSome := by
  have h1 := h i j
  cases h2 : get_op t2 i j <;> cases h3 : get_op t1 i j <;> rw [h2, h3] at h1 <;> simp at h1 ⊢

theorem same_static_length {t1 t2 : List turn_info} (h : same_static t1 t2) :
    t2.length = t1.length := by
  have key : ∀ (u v : List turn_info), same_static u v → v.length ≤ u.length := by
    intro u v huv
    by_contra hlt
    have hlt2 : u.length < v.length := by omega
    have h1 := huv u.length 0
    have h2 : get_op u u.length 0 = none := by
      unfold get_op
      rw [List.getElem?_eq_none (Nat.le_refl _)]
    have h3 : (get_op v u.length 0).isSome = true := by
      unfold get_op
      rw [List.getElem?_eq_getElem hlt2]
      simp [turn_info.op]
    rw [h2] at h1
    cases h4 : get_op v u.length 0 with
    | none => rw [h4] at h3; simp at h3
    | some o => rw [h4] at h1; simp at h1
  have h1 := key t1 t2 h
  have h2 := key t2 t1 (fun i j => (h i j).symm)
  omega

theorem enrich_assign_step_static (first : Bool) (prev it : indexed_turn_operation)
    (turn_points turn_points1 : List turn_info) (a : turn_operation)
    (ha : get_op turn_points prev.turn_index prev.operation_index = some a) (seg : Int)
    (h1 : get_op turn_points1 prev.turn_index prev.operation_index =
      some (assigned_operation first a seg it))
    (h2 : ∀ i j : Nat, (i, j) ≠ (prev.turn_index, prev.operation_index) →
        get_op turn_points1 i j = get_op turn_points i j) :
    same_static turn_points turn_points1 := by
  intro i j
  by_cases hij : (i, j) = (prev.turn_index, prev.operation_index)
  · simp only [Prod.mk.injEq] at hij
    rw [hij.1, hij.2, h1, ha]
    rfl
  · rw [h2 i j hij]

/-! ### A list of passes -/

theorem run_passes_spec (ws : List assign_pass) :
    ∀ turn_points : List turn_info, (∀ w ∈ ws, pass_valid turn_points w) →
      ∃ turn_points2, run_passes ws turn_points = some turn_points2 ∧
        same_static turn_points turn_points2 ∧
        (∀ i j : Nat, (i, j) ∉ pass_targets ws →
          get_op turn_points2 i j = get_op turn_points i j) ∧
        ((pass_targets ws).Nodup → ∀ w ∈ ws, ∃ a b : turn_operation,
          get_op turn_points w.prev.turn_index w.prev.operation_index = some a ∧
          get_op turn_points w.it.turn_index w.it.operation_index = some b ∧
          get_op turn_points2 w.prev.turn_index w.prev.operation_index =
            some (assigned_operation w.first a b.seg_id.segment_index w.it)) ∧
        (∀ i j : Nat, (i, j) ∈ pass_targets ws → ∃ (o : turn_operation) (w : assign_pass),
          w ∈ ws ∧ get_op turn_points2 i j = some o ∧
          o.enriched.travels_to_ip_index = some (w.it.turn_index : Int)) := by
  induction ws with
  | nil =>
    intro turn_points _
    refine ⟨turn_points, rfl, same_static_refl _, fun _ _ _ => rfl, ?_, ?_⟩
    · intro _ w hw; simp at hw
    · intro i j hij; simp [pass_targets] at hij
  | cons w ws ih =>
    intro turn_points hvalid
    have hw := hvalid w (by simp)
    obtain ⟨a, ha⟩ := Option.isSome_iff_exists.mp hw.1
    obtain ⟨b, hb⟩ := Option.isSome_iff_exists.mp hw.2
    obtain ⟨turn_points1, hstep, h1, h2⟩ :=
      enrich_assign_step_spec w.first w.prev w.it turn_points a b ha hb
    have hst01 : same_static turn_points turn_points1 :=
      enrich_assign_step_static w.first w.prev w.it turn_points turn_points1 a ha _ h1 h2
    have hvalid1 : ∀ w1 ∈ ws, pass_valid turn_points1 w1 := by
      intro w1 hw1
      have hv := hvalid w1 (by simp [hw1])
      unfold pass_valid at hv ⊢
      rw [same_static_isSome hst01, same_static_isSome hst01]
      exact hv
    obtain ⟨turn_points2, hrun, hst12, hframe, hnodup, htravel⟩ := ih turn_points1 hvalid1
    have htargets : pass_targets (w :: ws) = slot_of w.prev :: pass_targets ws := rfl
    refine ⟨turn_points2, ?_, same_static_trans hst01 hst12, ?_, ?_, ?_⟩
    · unfold run_passes
      rw [hstep]
      exact hrun
    · intro i j hij
      rw [htargets, List.mem_cons, not_or] at hij
      rw [hframe i j hij.2, h2 i j hij.1]
    · intro hnd w1 hw1
      rw [htargets, List.nodup_cons] at hnd
      rw [List.mem_cons] at hw1
      rcases hw1 with hw1 | hw1
      · subst hw1
        refine ⟨a, b, ha, hb, ?_⟩
        rw [hframe _ _ hnd.1, h1]
      · obtain ⟨a1, b1, ha1, hb1, hfin⟩ := hnodup hnd.2 w1 hw1
        have hmem : slot_of w1.prev ∈ pass_targets ws :=
          List.mem_map.mpr ⟨w1, hw1, rfl⟩
        have hne : (w1.prev.turn_index, w1.prev.operation_index) ≠
            (w.prev.turn_index, w.prev.operation_index) := by
          intro heq
          apply hnd.1
          have : slot_of w.prev = slot_of w1.prev := by
            unfold slot_of; exact heq.symm
          rw [this]; exact hmem
        rw [h2 _ _ hne] at ha1
        obtain ⟨b0, hb0, _, hseg, _⟩ := same_static_get_back hst01 _ _ b1 hb1
        refine ⟨a1, b0, ha1, hb0, ?_⟩
        rw [hfin, hseg]
    · intro i j hij
      by_cases hin : (i, j) ∈ pass_targets ws
      · obtain ⟨o, w1, hw1, ho, htr⟩ := htravel i j hin
        exact ⟨o, w1, by simp [hw1], ho, htr⟩
      · rw [htargets, List.mem_cons] at hij
        rcases hij with hij | hij
        · refine ⟨assigned_operation w.first a b.seg_id.segment_index w.it, w, by simp, ?_, rfl⟩
          rw [hframe i j hin]
          simp only [slot_of, Prod.mk.injEq] at hij
          rw [hij.1, hij.2, h1]
        · exact absurd hij hin

theorem enrich_assign_loop_eq (operations : List indexed_turn_operation) :
    ∀ (first : Bool) (prev : indexed_turn_operation) (turn_points : List turn_info),
      enrich_assign_loop first prev operations turn_points =
        run_passes (assign_passes first prev operations) turn_points := by
  induction operations with
  | nil => intro first prev turn_points; rfl
  | cons it rest ih =>
    intro first prev turn_points
    unfold enrich_assign_loop assign_passes run_passes
    simp only [Option.bind_eq_bind]
    cases enrich_assign_step first prev it turn_points with
    | none => rfl
    | some turn_points1 => exact ih false it turn_points1

/-! ### The passes made over one bucket -/

theorem assign_passes_targets (operations : List indexed_turn_operation) :
    ∀ (first : Bool) (prev : indexed_turn_operation),
      pass_targets (assign_passes first prev operations) =
        ((prev :: operations).dropLast).map slot_of := by
  induction operations with
  | nil => intro first prev; rfl
  | cons it rest ih =>
    intro first prev
    have h := ih false it
    unfold pass_targets at h ⊢
    simp only [assign_passes, List.map_cons, List.dropLast_cons₂]
    rw [h]

theorem assign_passes_mem (operations : List indexed_turn_operation) :
    ∀ (first : Bool) (prev : indexed_turn_operation) (w : assign_pass),
      w ∈ assign_passes first prev operations →
        w.it ∈ operations ∧ (w.prev = prev ∨ w.prev ∈ operations) := by
  induction operations with
  | nil => intro first prev w hw; simp [assign_passes] at hw
  | cons it rest ih =>
    intro first prev w hw
    simp only [assign_passes, List.mem_cons] at hw
    rcases hw with hw | hw
    · subst hw
      exact ⟨by simp, Or.inl rfl⟩
    · obtain ⟨h1, h2⟩ := ih false it w hw
      refine ⟨by simp [h1], Or.inr ?_⟩
      rcases h2 with h2 | h2
      · simp [h2]
      · simp [h2]

theorem assign_passes_head (first : Bool) (prev it : indexed_turn_operation)
    (rest : List indexed_turn_operation) :
    ({ first := first, prev := prev, it := it } : assign_pass) ∈
      assign_passes first prev (it :: rest) := by
  simp [assign_passes]

theorem assign_passes_succ (operations : List indexed_turn_operation) :
    ∀ (first : Bool) (prev : indexed_turn_operation) (k : Nat) (x y : indexed_turn_operation),
      operations[k]? = some x → operations[k + 1]? = some y →
        ({ first := false, prev := x, it := y } : assign_pass) ∈
          assign_passes first prev operations := by
  induction operations with
  | nil => intro first prev k x y hx; simp at hx
  | cons it rest ih =>
    intro first prev k x y hx hy
    rw [List.getElem?_cons_succ] at hy
    cases k with
    | zero =>
      simp only [List.getElem?_cons_zero, Option.some.injEq] at hx
      subst hx
      cases rest with
      | nil => simp at hy
      | cons y1 rest1 =>
        simp only [List.getElem?_cons_zero, Option.some.injEq] at hy
        subst hy
        simp [assign_passes]
    | succ k =>
      rw [List.getElem?_cons_succ] at hx
      have := ih false it k x y hx hy
      simp only [assign_passes, List.mem_cons]
      exact Or.inr this

theorem last_targets_perm (operations : List indexed_turn_operation)
    (last : indexed_turn_operation) (hlast : operations[operations.length - 1]? = some last) :
    (pass_targets (assign_passes true last operations)).Perm (operations.map slot_of) := by
  rw [assign_passes_targets]
  have hl : last ∈ operations.getLast? := by
    rw [List.getLast?_eq_getElem?]; exact hlast
  have hsplit := List.dropLast_append_getLast? last hl
  have h1 : (last :: operations).dropLast = last :: operations.dropLast := by
    cases operations with
    | nil => simp at hlast
    | cons x xs => simp
  rw [h1]
  conv => rhs; rw [← hsplit]
  rw [List.map_append, List.map_cons, List.map_cons, List.map_nil]
  show ([slot_of last] ++ List.map slot_of operations.dropLast).Perm _
  exact List.perm_append_comm

/-! ### `enrich_assign` on one bucket -/

theorem enrich_assign_nil (turn_points : List turn_info) :
    enrich_assign [] turn_points = some turn_points := by
  unfold enrich_assign
  simp

theorem enrich_assign_spec (operations : List indexed_turn_operation)
    (turn_points : List turn_info)
    (hex : ∀ r ∈ operations,
      (get_op turn_points r.turn_index r.operation_index).isSome = true) :
    ∃ turn_points2, enrich_assign operations turn_points = some turn_points2 ∧
      same_static turn_points turn_points2 ∧
      (∀ i j : Nat, (i, j) ∉ operations.map slot_of →
        get_op turn_points2 i j = get_op turn_points i j) ∧
      (∀ r ∈ operations, ∃ (o : turn_operation) (r2 : indexed_turn_operation),
        r2 ∈ operations ∧ get_op turn_points2 r.turn_index r.operation_index = some o ∧
        o.enriched.travels_to_ip_index = some (r2.turn_index : Int)) ∧
      ((operations.map slot_of).Nodup →
        ∀ (i : Nat) (cur next : indexed_turn_operation), operations[i]? = some cur →
          operations[(i + 1) % operations.length]? = some next →
          ∃ a b : turn_operation,
            get_op turn_points cur.turn_index cur.operation_index = some a ∧
            get_op turn_points next.turn_index next.operation_index = some b ∧
            get_op turn_points2 cur.turn_index cur.operation_index =
              some (assigned_operation (decide (i + 1 = operations.length)) a
                b.seg_id.segment_index next)) := by
  by_cases hempty : operations = []
  · subst hempty
    refine ⟨turn_points, enrich_assign_nil _, same_static_refl _, fun _ _ _ => rfl, ?_, ?_⟩
    · intro r hr; simp at hr
    · intro _ i cur next hcur; simp at hcur
  · have hpos : 0 < operations.length := List.length_pos.mpr hempty
    have hlt : operations.length - 1 < operations.length := by omega
    obtain ⟨last, hlast⟩ : ∃ last, operations[operations.length - 1]? = some last :=
      ⟨operations[operations.length - 1], List.getElem?_eq_getElem hlt⟩
    have hlast_mem : last ∈ operations := List.getElem?_mem hlast
    have hvalid : ∀ w ∈ assign_passes true last operations, pass_valid turn_points w := by
      intro w hw
      obtain ⟨h1, h2⟩ := assign_passes_mem operations true last w hw
      refine ⟨?_, hex _ h1⟩
      rcases h2 with h2 | h2
      · rw [h2]; exact hex _ hlast_mem
      · exact hex _ h2
    obtain ⟨turn_points2, hrun, hst, hframe, hnodup, htravel⟩ :=
      run_passes_spec (assign_passes true last operations) turn_points hvalid
    have hperm := last_targets_perm operations last hlast
    refine ⟨turn_points2, ?_, hst, ?_, ?_, ?_⟩
    · unfold enrich_assign
      rw [if_pos hpos, hlast]
      simp only [Option.bind_eq_bind, Option.some_bind]
      rw [enrich_assign_loop_eq]
      exact hrun
    · intro i j hij
      exact hframe i j (fun h => hij (hperm.mem_iff.mp h))
    · intro r hr
      have hmem : slot_of r ∈ pass_targets (assign_passes true last operations) :=
        hperm.mem_iff.mpr (List.mem_map.mpr ⟨r, hr, rfl⟩)
      obtain ⟨o, w, hw, ho, htr⟩ := htravel r.turn_index r.operation_index hmem
      exact ⟨o, w.it, (assign_passes_mem operations true last w hw).1, ho, htr⟩
    · intro hnd i cur next hcur hnext
      have hnd2 := hperm.nodup_iff.mpr hnd
      have hi : i < operations.length := (List.getElem?_eq_some_iff.mp hcur).1
      by_cases hwrap : i + 1 = operations.length
      · have hmod : (i + 1) % operations.length = 0 := by rw [hwrap]; exact Nat.mod_self _
        rw [hmod] at hnext
        have hcl : cur = last := by
          have : i = operations.length - 1 := by omega
          rw [this, hlast] at hcur
          exact (Option.some.inj hcur).symm
        subst hcl
        have hw : ({ first := true, prev := cur, it := next } : assign_pass) ∈
            assign_passes true cur operations := by
          cases operations with
          | nil => simp at hcur
          | cons x xs =>
            simp only [List.getElem?_cons_zero, Option.some.injEq] at hnext
            subst hnext
            exact assign_passes_head true cur x xs
        obtain ⟨a, b, ha, hb, hfin⟩ := hnodup hnd2 _ hw
        refine ⟨a, b, ha, hb, ?_⟩
        rw [hfin]
        simp [hwrap]
      · have hlt2 : i + 1 < operations.length := by omega
        rw [Nat.mod_eq_of_lt hlt2] at hnext
        have hw := assign_passes_succ operations true last i cur next hcur hnext
        obtain ⟨a, b, ha, hb, hfin⟩ := hnodup hnd2 _ hw
        refine ⟨a, b, ha, hb, ?_⟩
        rw [hfin]
        simp [hwrap]

theorem create_map_bucket_get_op (turn_points : List turn_info)
    (for_operation : operation_type) (ring_id : ring_identifier) (r : indexed_turn_operation)
    (h : r ∈ map_bucket (create_map turn_points for_operation []) ring_id) :
    get_op turn_points r.turn_index r.operation_index = some r.subject := by
  obtain ⟨turn, hget, _, hop, _⟩ := mem_create_map_bucket turn_points for_operation ring_id r h
  unfold get_op
  rw [hget]
  exact hop

theorem seg_id_eq_of_ring (a b : segment_identifier) (hr : ring_of a = ring_of b)
    (hs : a.segment_index = b.segment_index) : a = b := by
  cases a; cases b
  simp only [ring_of, ring_identifier.mk.injEq] at hr
  simp only at hs
  simp only [segment_identifier.mk.injEq]
  exact ⟨hr.1, hr.2.1, hr.2.2, hs⟩

/-- C4: for a bucket of references to pairwise distinct slots, each a genuine
reference (its slot exists and its snapshot carries the segment identity of the
operation in the slot), `enrich_assign` returns a container in which, for every
position `i`, the operation referenced by `bucket[i]` travels to the turn index
of `bucket[(i+1) mod N]` and to the segment index of the operation referenced by
`bucket[(i+1) mod N]`. -/
theorem C4_enrich_assign_links (operations : List indexed_turn_operation)
    (turn_points : List turn_info)
    (hnd : (operations.map slot_of).Nodup)
    (href : ∀ r ∈ operations, ∃ o : turn_operation,
      get_op turn_points r.turn_index r.operation_index = some o ∧ r.subject.seg_id = o.seg_id) :
    ∃ turn_points2, enrich_assign operations turn_points = some turn_points2 ∧
      ∀ i : Nat, i < operations.length →
        ∃ (cur next : indexed_turn_operation) (o o_next : turn_operation),
          operations[i]? = some cur ∧
          operations[(i + 1) % operations.length]? = some next ∧
          get_op turn_points2 cur.turn_index cur.operation_index = some o ∧
          get_op turn_points2 next.turn_index next.operation_index = some o_next ∧
          o.enriched.travels_to_ip_index = some (next.turn_index : Int) ∧
          o.enriched.travels_to_vertex_index = some o_next.seg_id.segment_index := by
  have hex : ∀ r ∈ operations,
      (get_op turn_points r.turn_index r.operation_index).isSome = true := by
    intro r hr
    obtain ⟨o, ho, _⟩ := href r hr
    rw [ho]; rfl
  obtain ⟨turn_points2, hrun, hst, _, _, hpos⟩ := enrich_assign_spec operations turn_points hex
  refine ⟨turn_points2, hrun, ?_⟩
  intro i hi
  have hmod : (i + 1) % operations.length < operations.length := Nat.mod_lt _ (by omega)
  have hcur : operations[i]? = some operations[i] := List.getElem?_eq_getElem hi
  have hnext : operations[(i + 1) % operations.length]? =
      some operations[(i + 1) % operations.length] := List.getElem?_eq_getElem hmod
  obtain ⟨a, b, _, hb, hfin⟩ := hpos hnd i _ _ hcur hnext
  obtain ⟨o_next, hon, _, hseg, _⟩ := same_static_get hst _ _ b hb
  obtain ⟨b1, hb1, hsub⟩ := href _ (List.getElem?_mem hnext)
  rw [hb] at hb1
  have hbb : b = b1 := Option.some.inj hb1
  refine ⟨_, _, _, o_next, hcur, hnext, hfin, hon, rfl, ?_⟩
  simp only [assigned_operation]
  rw [hsub, hseg, hbb]

/-- C4 witness: the bucket of ring A of the two-crossings scenario. -/
theorem C4_enrich_assign_links_witness :
    ∃ turn_points2, enrich_assign bucket_a two_crossings = some turn_points2 ∧
      ∀ i : Nat, i < bucket_a.length →
        ∃ (cur next : indexed_turn_operation) (o o_next : turn_operation),
          bucket_a[i]? = some cur ∧
          bucket_a[(i + 1) % bucket_a.length]? = some next ∧
          get_op turn_points2 cur.turn_index cur.operation_index = some o ∧
          get_op turn_points2 next.turn_index next.operation_index = some o_next ∧
          o.enriched.travels_to_ip_index = some (next.turn_index : Int) ∧
          o.enriched.travels_to_vertex_index = some o_next.seg_id.segment_index :=
  C4_enrich_assign_links bucket_a two_crossings (by decide)
    (fun r hr => ⟨r.subject, create_map_bucket_get_op _ _ _ r hr, rfl⟩)

/-- C10: on a bucket of size 0, `enrich_assign` returns the turn container
unchanged, whatever the container is (also the empty one, where every access
would be out of range). -/
theorem C10_enrich_assign_empty_bucket (turn_points : List turn_info) :
    enrich_assign [] turn_points = some turn_points :=
  enrich_assign_nil turn_points

/-- The same-segment link after `enrich_assign` on a ring bucket. -/
theorem same_segment_link_core (operations : List indexed_turn_operation)
    (turn_points : List turn_info) (ring_id : ring_identifier)
    (hempty : ∀ (i j : Nat) (o : turn_operation), get_op turn_points i j = some o →
      o.enriched.next_ip_index = none)
    (hnd : (operations.map slot_of).Nodup)
    (hring : ∀ r ∈ operations, ∃ o : turn_operation,
      get_op turn_points r.turn_index r.operation_index = some o ∧ ring_of o.seg_id = ring_id) :
    ∃ turn_points2, enrich_assign operations turn_points = some turn_points2 ∧
      ∀ (i : Nat) (cur : indexed_turn_operation), operations[i]? = some cur →
        ∃ x : turn_operation,
          get_op turn_points2 cur.turn_index cur.operation_index = some x ∧
          (x.enriched.next_ip_index ≠ none ↔
            ∃ (next : indexed_turn_operation) (y : turn_operation),
              operations[i + 1]? = some next ∧
              get_op turn_points2 next.turn_index next.operation_index = some y ∧
              y.seg_id = x.seg_id) ∧
          (∀ (next : indexed_turn_operation) (y : turn_operation),
              operations[i + 1]? = some next →
              get_op turn_points2 next.turn_index next.operation_index = some y →
              y.seg_id = x.seg_id →
              x.enriched.next_ip_index = some (next.turn_index : Int)) ∧
          (i + 1 = operations.length → x.enriched.next_ip_index = none) := by
  have hex : ∀ r ∈ operations,
      (get_op turn_points r.turn_index r.operation_index).isSome = true := by
    intro r hr
    obtain ⟨o, ho, _⟩ := hring r hr
    rw [ho]; rfl
  obtain ⟨turn_points2, hrun, hst, _, _, hpos⟩ := enrich_assign_spec operations turn_points hex
  refine ⟨turn_points2, hrun, ?_⟩
  intro i cur hcur
  have hi : i < operations.length := (List.getElem?_eq_some_iff.mp hcur).1
  have hmod : (i + 1) % operations.length < operations.length := Nat.mod_lt _ (by omega)
  obtain ⟨nx, hnext⟩ : ∃ nx, operations[(i + 1) % operations.length]? = some nx :=
    ⟨_, List.getElem?_eq_getElem hmod⟩
  obtain ⟨a, b, ha, hb, hfin⟩ := hpos hnd i cur nx hcur hnext
  have hanone : a.enriched.next_ip_index = none := hempty _ _ a ha
  obtain ⟨a1, ha1, hra⟩ := hring cur (List.getElem?_mem hcur)
  rw [ha] at ha1
  have haa : a = a1 := Option.some.inj ha1
  subst haa
  obtain ⟨b1, hb1, hrb⟩ := hring nx (List.getElem?_mem hnext)
  rw [hb] at hb1
  have hbb : b = b1 := Option.some.inj hb1
  subst hbb
  obtain ⟨y0, hy0, _, hy0seg, _⟩ := same_static_get hst _ _ b hb
  refine ⟨_, hfin, ?_, ?_, ?_⟩
  · constructor
    · intro hne
      by_cases hwrap : i + 1 = operations.length
      · exfalso
        apply hne
        simp [assigned_operation, hwrap, hanone]
      · have hlt : i + 1 < operations.length := by omega
        rw [Nat.mod_eq_of_lt hlt] at hnext
        by_cases hseg : a.seg_id.segment_index = b.seg_id.segment_index
        · refine ⟨nx, y0, hnext, hy0, ?_⟩
          rw [hy0seg]
          simp only [assigned_operation]
          exact (seg_id_eq_of_ring a.seg_id b.seg_id (by rw [hra, hrb]) hseg).symm
        · exfalso
          apply hne
          simp [assigned_operation, hseg, hanone]
    · rintro ⟨next, y, hn, hy, hseg⟩
      have hlt : i + 1 < operations.length := (List.getElem?_eq_some_iff.mp hn).1
      rw [Nat.mod_eq_of_lt hlt] at hnext
      rw [hnext] at hn
      have hnn := Option.some.inj hn
      rw [← hnn, hy0] at hy
      have hyy := Option.some.inj hy
      rw [← hyy, hy0seg] at hseg
      simp only [assigned_operation] at hseg
      have hne : ¬ i + 1 = operations.length := by omega
      simp [assigned_operation, hne, hseg]
  · intro next y hn hy hseg
    have hlt : i + 1 < operations.length := (List.getElem?_eq_some_iff.mp hn).1
    rw [Nat.mod_eq_of_lt hlt] at hnext
    rw [hnext] at hn
    have hnn := Option.some.inj hn
    rw [← hnn, hy0] at hy
    have hyy := Option.some.inj hy
    rw [← hyy, hy0seg] at hseg
    simp only [assigned_operation] at hseg
    have hne : ¬ i + 1 = operations.length := by omega
    rw [← hnn]
    simp [assigned_operation, hne, hseg]
  · intro hwrap
    simp [assigned_operation, hwrap, hanone]

/-- C6: on a container whose `next_ip_index` fields are all empty and a ring
bucket of references to pairwise distinct slots, after `enrich_assign` the
operation `x` at bucket position `i` has a non-empty `next_ip_index` if and only
if `i` is not the last position and the operation at position `i + 1` has
exactly the segment identity of `x`; the value is then the turn index of
`bucket[i + 1]`, and the last entry gets none from the wrap-around. -/
theorem C6_same_segment_link (operations : List indexed_turn_operation)
    (turn_points : List turn_info) (ring_id : ring_identifier)
    (hempty : ∀ (i j : Nat) (o : turn_operation), get_op turn_points i j = some o →
      o.enriched.next_ip_index = none)
    (hnd : (operations.map slot_of).Nodup)
    (hring : ∀ r ∈ operations, ∃ o : turn_operation,
      get_op turn_points r.turn_index r.operation_index = some o ∧ ring_of o.seg_id = ring_id) :
    ∃ turn_points2, enrich_assign operations turn_points = some turn_points2 ∧
      ∀ (i : Nat) (cur : indexed_turn_operation), operations[i]? = some cur →
        ∃ x : turn_operation,
          get_op turn_points2 cur.turn_index cur.operation_index = some x ∧
          (x.enriched.next_ip_index ≠ none ↔
            ∃ (next : indexed_turn_operation) (y : turn_operation),
              operations[i + 1]? = some next ∧
              get_op turn_points2 next.turn_index next.operation_index = some y ∧
              y.seg_id = x.seg_id) ∧
          (∀ (next : indexed_turn_operation) (y : turn_operation),
              operations[i + 1]? = some next →
              get_op turn_points2 next.turn_index next.operation_index = some y →
              y.seg_id = x.seg_id →
              x.enriched.next_ip_index = some (next.turn_index : Int)) ∧
          (i + 1 = operations.length → x.enriched.next_ip_index = none) :=
  same_segment_link_core operations turn_points ring_id hempty hnd hring

theorem same_segment_crossings_empty (i j : Nat) (o : turn_operation)
    (h : get_op same_segment_crossings i j = some o) : o.enriched.next_ip_index = none := by
  obtain ⟨hi, hj⟩ := get_op_index_lt _ _ _ _ h
  have hi2 : i < 2 := hi
  interval_cases i <;> interval_cases j <;>
    (simp only [get_op, same_segment_crossings, turn_info.op] at h
     simp at h
     subst h
     rfl)

/-- C6 witness: ring A crossed twice on one segment; the first operation gets
the same-segment link, the last one does not. -/
theorem C6_same_segment_link_witness :
    ∃ turn_points2, enrich_assign bucket_same_segment same_segment_crossings = some turn_points2 ∧
      ∀ (i : Nat) (cur : indexed_turn_operation), bucket_same_segment[i]? = some cur →
        ∃ x : turn_operation,
          get_op turn_points2 cur.turn_index cur.operation_index = some x ∧
          (x.enriched.next_ip_index ≠ none ↔
            ∃ (next : indexed_turn_operation) (y : turn_operation),
              bucket_same_segment[i + 1]? = some next ∧
              get_op turn_points2 next.turn_index next.operation_index = some y ∧
              y.seg_id = x.seg_id) ∧
          (∀ (next : indexed_turn_operation) (y : turn_operation),
              bucket_same_segment[i + 1]? = some next →
              get_op turn_points2 next.turn_index next.operation_index = some y →
              y.seg_id = x.seg_id →
              x.enriched.next_ip_index = some (next.turn_index : Int)) ∧
          (i + 1 = bucket_same_segment.length → x.enriched.next_ip_index = none) :=
  C6_same_segment_link bucket_same_segment same_segment_crossings ring_a
    same_segment_crossings_empty (by decide)
    (fun r hr => ⟨r.subject, create_map_bucket_get_op _ _ _ r hr,
      (mem_create_map_bucket _ _ _ r hr).choose_spec.2.2.2.2.1⟩)

/-! ### `skip_after_ii` -/

theorem slot_exists_other (turn_points : List turn_info) (i j : Nat)
    (h : (get_op turn_points i j).isSome = true) :
    ∃ turn o other, turn_points[i]? = some turn ∧ turn.op j = some o ∧
      turn.op (1 - j) = some other ∧ get_op turn_points i j = some o ∧
      get_op turn_points i (1 - j) = some other := by
  obtain ⟨o, ho⟩ := Option.isSome_iff_exists.mp h
  obtain ⟨_, hj⟩ := get_op_index_lt _ _ _ _ ho
  unfold get_op at ho ⊢
  cases hget : turn_points[i]? with
  | none => rw [hget] at ho; simp at ho
  | some turn =>
    rw [hget] at ho
    simp only [] at ho ⊢
    have hother : ∃ other, turn.op (1 - j) = some other := by
      unfold turn_info.op
      have : j = 0 ∨ j = 1 := by omega
      rcases this with h0 | h1
      · subst h0; simp
      · subst h1; simp
    obtain ⟨other, hother⟩ := hother
    exact ⟨turn, o, other, rfl, ho, hother, ho, hother⟩

theorem skip_after_ii_loop_eq (S : Strategies) (turn_points : List turn_info)
    (rest : List indexed_turn_operation) :
    ∀ cluster_toi : indexed_turn_operation, slot_exists turn_points cluster_toi →
      (∀ r ∈ rest, slot_exists turn_points r) →
      skip_after_ii_loop S turn_points cluster_toi rest =
        some (skip_marks S turn_points cluster_toi rest) := by
  induction rest with
  | nil => intro _ _ _; rfl
  | cons it rest ih =>
    intro cluster_toi hc hrest
    have hit : slot_exists turn_points it := hrest it (by simp)
    have hrest2 : ∀ r ∈ rest, slot_exists turn_points r := fun r hr => hrest r (by simp [hr])
    obtain ⟨cturn, cop, cother, hc1, hc2, hc3, hc4, hc5⟩ := slot_exists_other _ _ _ hc
    obtain ⟨turn, op, other, ht1, ht2, ht3, ht4, ht5⟩ := slot_exists_other _ _ _ hit
    unfold skip_after_ii_loop skip_marks
    simp only [hc1, hc2, hc3, ht1, ht2, ht3, Option.bind_eq_bind, Option.some_bind]
    have hm : ii_match turn_points cluster_toi it =
        (cturn.both operation_type.operation_intersection
          && decide (cop.seg_id = op.seg_id) && decide (cop.fraction = op.fraction)) := by
      simp only [ii_match, hc1, hc4, ht4]
    have hs : side_independent S turn_points cluster_toi it =
        S.is_b_independent cop cother op other := by
      simp only [side_independent, hc4, hc5, ht4, ht5]
    rw [hm, hs]
    by_cases hcond : (cturn.both operation_type.operation_intersection
          && decide (cop.seg_id = op.seg_id) && decide (cop.fraction = op.fraction)) = true
    · rw [if_pos hcond, if_pos hcond, ih cluster_toi hc hrest2]
      simp
    · rw [if_neg hcond, if_neg hcond, ih it hit hrest2]
      simp

theorem skip_marks_filter_sublist (S : Strategies) (turn_points : List turn_info)
    (rest : List indexed_turn_operation) :
    ∀ cluster_toi : indexed_turn_operation,
      ((skip_marks S turn_points cluster_toi rest).filter
        (fun toi => !skip_operation toi)).Sublist rest := by
  induction rest with
  | nil => intro _; simp [skip_marks]
  | cons it rest ih =>
    intro cluster_toi
    unfold skip_marks
    by_cases hm : ii_match turn_points cluster_toi it = true
    · rw [if_pos hm]
      by_cases hs : side_independent S turn_points cluster_toi it = true
      · rw [if_pos hs, List.filter_cons_of_neg (by simp [skip_operation])]
        exact List.Sublist.cons _ (ih cluster_toi)
      · rw [if_neg hs]
        by_cases hk : it.skip = true
        · rw [List.filter_cons_of_neg (by simp [skip_operation, hk])]
          exact List.Sublist.cons _ (ih cluster_toi)
        · rw [List.filter_cons_of_pos (by simp [skip_operation, hk])]
          exact List.Sublist.cons₂ _ (ih cluster_toi)
    · rw [if_neg hm]
      by_cases hk : it.skip = true
      · rw [List.filter_cons_of_neg (by simp [skip_operation, hk])]
        exact List.Sublist.cons _ (ih it)
      · rw [List.filter_cons_of_pos (by simp [skip_operation, hk])]
        exact List.Sublist.cons₂ _ (ih it)

/-- The result of `enrich_sort` on a bucket whose slots exist, in terms of the
total scan. -/
theorem enrich_sort_eq (S : Strategies) (hS : sort_permutes S)
    (operations : List indexed_turn_operation) (turn_points : List turn_info)
    (for_operation : operation_type)
    (hex : ∀ r ∈ operations, slot_exists turn_points r)
    (cluster_toi : indexed_turn_operation) (rest : List indexed_turn_operation)
    (hsort : S.sort turn_points for_operation operations = cluster_toi :: rest) :
    enrich_sort S operations turn_points for_operation =
      some ((cluster_toi :: skip_marks S turn_points cluster_toi rest).filter
        (fun toi => !skip_operation toi)) := by
  have hperm := hS turn_points for_operation operations
  rw [hsort] at hperm
  have hc : slot_exists turn_points cluster_toi := hex _ (hperm.mem_iff.mp (by simp))
  have hr : ∀ r ∈ rest, slot_exists turn_points r :=
    fun r hr => hex _ (hperm.mem_iff.mp (by simp [hr]))
  unfold enrich_sort skip_after_ii
  simp only [hsort, Option.bind_eq_bind]
  rw [skip_after_ii_loop_eq S turn_points rest cluster_toi hc hr]
  simp

theorem enrich_sort_some (S : Strategies) (hS : sort_permutes S)
    (operations : List indexed_turn_operation) (turn_points : List turn_info)
    (for_operation : operation_type)
    (hex : ∀ r ∈ operations, slot_exists turn_points r) (hne : operations ≠ []) :
    ∃ result, enrich_sort S operations turn_points for_operation = some result ∧
      result.Sublist (S.sort turn_points for_operation operations) := by
  have hperm := hS turn_points for_operation operations
  cases hsort : S.sort turn_points for_operation operations with
  | nil =>
    rw [hsort] at hperm
    exact absurd (List.Perm.eq_nil hperm.symm) hne
  | cons cluster_toi rest =>
    refine ⟨_, enrich_sort_eq S hS operations turn_points for_operation hex cluster_toi rest hsort,
      ?_⟩
    have hsub := skip_marks_filter_sublist S turn_points rest cluster_toi
    by_cases hk : cluster_toi.skip = true
    · rw [List.filter_cons_of_neg (by simp [skip_operation, hk])]
      exact List.Sublist.cons _ hsub
    · rw [List.filter_cons_of_pos (by simp [skip_operation, hk])]
      exact List.Sublist.cons₂ _ hsub

/-! ### The entries of the ring map -/

theorem map_push_back_nonempty (m : mapped_vector_type) (k : ring_identifier)
    (x : indexed_turn_operation) (h : ∀ e ∈ m, e.2 ≠ []) :
    ∀ e ∈ map_push_back m k x, e.2 ≠ [] := by
  induction m with
  | nil => intro e he; simp [map_push_back] at he; subst he; simp
  | cons e0 rest ih =>
    obtain ⟨k0, v⟩ := e0
    intro e he
    unfold map_push_back at he
    split at he
    · simp only [List.mem_cons] at he
      rcases he with he | he
      · subst he; simp
      · exact h e (by simp [he])
    · split at he
      · simp only [List.mem_cons] at he
        rcases he with he | he | he
        · subst he; simp
        · subst he; exact h _ (by simp)
        · exact h e (by simp [he])
      · simp only [List.mem_cons] at he
        rcases he with he | he
        · subst he; exact h _ (by simp)
        · exact ih (fun e1 he1 => h e1 (by simp [he1])) e he

theorem create_map_loop_nonempty (for_operation : operation_type) (turn_points : List turn_info) :
    ∀ (index : Nat) (m : mapped_vector_type), (∀ e ∈ m, e.2 ≠ []) →
      ∀ e ∈ create_map_loop for_operation index turn_points m, e.2 ≠ [] := by
  induction turn_points with
  | nil => intro index m h; exact h
  | cons turn rest ih =>
    intro index m h
    unfold create_map_loop
    split
    · exact ih (index + 1) m h
    · split
      · exact ih (index + 1) m h
      · apply ih (index + 1)
        unfold create_map_operations
        exact map_push_back_nonempty _ _ _ (map_push_back_nonempty _ _ _ h)

theorem create_map_sorted (turn_points : List turn_info) (for_operation : operation_type) :
    map_sorted (create_map turn_points for_operation []) :=
  (create_map_loop_spec for_operation turn_points 0 [] map_sorted_nil).1

theorem create_map_nonempty (turn_points : List turn_info) (for_operation : operation_type) :
    ∀ e ∈ create_map turn_points for_operation [], e.2 ≠ [] :=
  create_map_loop_nonempty for_operation turn_points 0 [] (by simp)

theorem map_bucket_of_mem (m : mapped_vector_type) (hs : map_sorted m)
    (e : ring_identifier × List indexed_turn_operation) (he : e ∈ m) :
    map_bucket m e.1 = e.2 := by
  induction m with
  | nil => simp at he
  | cons e0 rest ih =>
    obtain ⟨k0, v⟩ := e0
    unfold map_sorted at hs
    simp only [List.map_cons, List.pairwise_cons] at hs
    simp only [List.mem_cons] at he
    rcases he with he | he
    · subst he
      simp [map_bucket]
    · have hne : e.1 ≠ k0 := by
        intro heq
        have hlt := hs.1 e.1 (List.mem_map.mpr ⟨e, he, rfl⟩)
        rw [heq] at hlt
        exact ring_less_irrefl k0 hlt
      simp only [map_bucket, hne, if_false]
      exact ih hs.2 he

theorem map_sorted_keys_ne (k0 : ring_identifier) (v : List indexed_turn_operation)
    (rest : mapped_vector_type) (hs : map_sorted ((k0, v) :: rest))
    (e : ring_identifier × List indexed_turn_operation) (he : e ∈ rest) : e.1 ≠ k0 := by
  unfold map_sorted at hs
  simp only [List.map_cons, List.pairwise_cons] at hs
  intro heq
  have hlt := hs.1 e.1 (List.mem_map.mpr ⟨e, he, rfl⟩)
  rw [heq] at hlt
  exact ring_less_irrefl k0 hlt

theorem map_sorted_tail (e0 : ring_identifier × List indexed_turn_operation)
    (rest : mapped_vector_type) (hs : map_sorted (e0 :: rest)) : map_sorted rest := by
  unfold map_sorted at hs ⊢
  simp only [List.map_cons, List.pairwise_cons] at hs
  exact hs.2

/-! ### Slots of the buckets -/

theorem slot_count_pos_iff (bucket : List indexed_turn_operation) (i j : Nat) :
    0 < slot_count bucket i j ↔ (i, j) ∈ bucket.map slot_of := by
  unfold slot_count
  rw [List.countP_pos_iff]
  simp only [decide_eq_true_eq, List.mem_map, slot_of, Prod.mk.injEq]

theorem slot_count_cons (r : indexed_turn_operation) (bucket : List indexed_turn_operation)
    (i j : Nat) :
    slot_count (r :: bucket) i j =
      slot_count bucket i j + (if r.turn_index = i ∧ r.operation_index = j then 1 else 0) := by
  unfold slot_count
  rw [List.countP_cons]
  simp

theorem slots_nodup_of_count (bucket : List indexed_turn_operation)
    (h : ∀ i j : Nat, slot_count bucket i j ≤ 1) : (bucket.map slot_of).Nodup := by
  induction bucket with
  | nil => simp
  | cons r rest ih =>
    rw [List.map_cons, List.nodup_cons]
    constructor
    · intro hmem
      have hpos := (slot_count_pos_iff rest r.turn_index r.operation_index).mpr hmem
      have h1 := h r.turn_index r.operation_index
      rw [slot_count_cons] at h1
      simp only [and_self, if_true] at h1
      omega
    · apply ih
      intro i j
      have h1 := h i j
      rw [slot_count_cons] at h1
      omega

theorem create_map_slot_count_le_one (turn_points : List turn_info)
    (for_operation : operation_type) (ring_id : ring_identifier) (i j : Nat) :
    slot_count (map_bucket (create_map turn_points for_operation []) ring_id) i j ≤ 1 := by
  rw [create_map_slot_count]
  cases turn_points[i]? with
  | none => simp
  | some turn =>
    simp only [turn_slot_count]
    cases turn.op j with
    | none => simp
    | some o => simp only []; split_ifs <;> simp

theorem create_map_bucket_slots_nodup (turn_points : List turn_info)
    (for_operation : operation_type) (ring_id : ring_identifier) :
    ((map_bucket (create_map turn_points for_operation []) ring_id).map slot_of).Nodup :=
  slots_nodup_of_count _ (create_map_slot_count_le_one turn_points for_operation ring_id)

theorem create_map_bucket_slots_disjoint (turn_points : List turn_info)
    (for_operation : operation_type) (ring_id ring_id2 : ring_identifier)
    (hne : ring_id ≠ ring_id2) (s : Nat × Nat)
    (h1 : s ∈ (map_bucket (create_map turn_points for_operation []) ring_id).map slot_of) :
    s ∉ (map_bucket (create_map turn_points for_operation []) ring_id2).map slot_of := by
  obtain ⟨i, j⟩ := s
  intro h2
  have hpos := (slot_count_pos_iff _ i j).mpr h1
  have hpos2 := (slot_count_pos_iff _ i j).mpr h2
  rw [create_map_slot_count] at hpos hpos2
  cases hget : turn_points[i]? with
  | none => rw [hget] at hpos; simp at hpos
  | some turn =>
    rw [hget] at hpos hpos2
    simp only [turn_slot_count] at hpos hpos2
    cases hop : turn.op j with
    | none => rw [hop] at hpos; simp at hpos
    | some o =>
      rw [hop] at hpos hpos2
      simp only [] at hpos hpos2
      by_cases hc : create_map_skips for_operation turn = false ∧ ring_of o.seg_id = ring_id
      · have hc2 : ¬ (create_map_skips for_operation turn = false ∧
            ring_of o.seg_id = ring_id2) := by
          intro h; apply hne; rw [← hc.2, ← h.2]
        rw [if_neg hc2] at hpos2; simp at hpos2
      · rw [if_neg hc] at hpos; simp at hpos

theorem all_slots_cons (e : ring_identifier × List indexed_turn_operation)
    (m : mapped_vector_type) : all_slots (e :: m) = e.2.map slot_of ++ all_slots m := by
  simp [all_slots]

theorem mem_all_slots (m : mapped_vector_type) (s : Nat × Nat) :
    s ∈ all_slots m ↔ ∃ e ∈ m, s ∈ e.2.map slot_of := by
  simp [all_slots]

theorem all_slots_nodup (m : mapped_vector_type) (hs : map_sorted m)
    (hA : ∀ e ∈ m, (e.2.map slot_of).Nodup)
    (hB : ∀ e1 ∈ m, ∀ e2 ∈ m, e1.1 ≠ e2.1 → ∀ s, s ∈ e1.2.map slot_of →
      s ∉ e2.2.map slot_of) : (all_slots m).Nodup := by
  induction m with
  | nil => simp [all_slots]
  | cons e0 rest ih =>
    obtain ⟨k0, v⟩ := e0
    rw [all_slots_cons, List.nodup_append]
    refine ⟨hA _ (by simp), ?_, ?_⟩
    · exact ih (map_sorted_tail _ _ hs) (fun e he => hA e (by simp [he]))
        (fun e1 he1 e2 he2 => hB e1 (by simp [he1]) e2 (by simp [he2]))
    · intro s hs1 hs2
      obtain ⟨e2, he2, hs3⟩ := (mem_all_slots rest s).mp hs2
      have hne : e2.1 ≠ k0 := map_sorted_keys_ne k0 v rest hs e2 he2
      exact hB (k0, v) (by simp) e2 (by simp [he2]) (fun h => hne h.symm) s hs1 hs3

theorem create_map_all_slots_nodup (turn_points : List turn_info)
    (for_operation : operation_type) :
    (all_slots (create_map turn_points for_operation [])).Nodup := by
  have hs := create_map_sorted turn_points for_operation
  apply all_slots_nodup _ hs
  · intro e he
    rw [← map_bucket_of_mem _ hs e he]
    exact create_map_bucket_slots_nodup turn_points for_operation e.1
  · intro e1 he1 e2 he2 hne s hs1
    rw [← map_bucket_of_mem _ hs e1 he1] at hs1
    rw [← map_bucket_of_mem _ hs e2 he2]
    exact create_map_bucket_slots_disjoint turn_points for_operation e1.1 e2.1 hne s hs1

/-! ### Sequencing every bucket -/

theorem enrich_sort_all_spec (S : Strategies) (hS : sort_permutes S)
    (turn_points : List turn_info) (for_operation : operation_type) (m : mapped_vector_type)
    (hne : ∀ e ∈ m, e.2 ≠ [])
    (hex : ∀ e ∈ m, ∀ r ∈ e.2, slot_exists turn_points r) :
    ∃ m1, enrich_sort_all S turn_points for_operation m = some m1 ∧
      List.Forall₂ (sequenced_from S turn_points for_operation) m m1 := by
  induction m with
  | nil => exact ⟨[], rfl, List.Forall₂.nil⟩
  | cons e rest ih =>
    obtain ⟨k, v⟩ := e
    obtain ⟨v1, hv1, hsub⟩ := enrich_sort_some S hS v turn_points for_operation
      (hex (k, v) (by simp)) (hne (k, v) (by simp))
    obtain ⟨rest1, hrest1, hall⟩ := ih (fun e he => hne e (by simp [he]))
      (fun e he => hex e (by simp [he]))
    refine ⟨(k, v1) :: rest1, ?_, List.Forall₂.cons ⟨rfl, hv1, hsub⟩ hall⟩
    unfold enrich_sort_all
    simp only [hv1, hrest1, Option.bind_eq_bind, Option.some_bind]

theorem sequenced_from_mem (S : Strategies) (hS : sort_permutes S)
    (turn_points : List turn_info) (for_operation : operation_type)
    (e e1 : ring_identifier × List indexed_turn_operation)
    (h : sequenced_from S turn_points for_operation e e1) (r : indexed_turn_operation)
    (hr : r ∈ e1.2) : r ∈ e.2 :=
  (hS turn_points for_operation e.2).mem_iff.mp (h.2.2.subset hr)

theorem sequenced_from_nodup (S : Strategies) (hS : sort_permutes S)
    (turn_points : List turn_info) (for_operation : operation_type)
    (e e1 : ring_identifier × List indexed_turn_operation)
    (h : sequenced_from S turn_points for_operation e e1)
    (hnd : (e.2.map slot_of).Nodup) : (e1.2.map slot_of).Nodup := by
  have hperm := (hS turn_points for_operation e.2).map slot_of
  exact (hperm.nodup_iff.mpr hnd).sublist (h.2.2.map slot_of)

theorem sequenced_all_slots (S : Strategies) (hS : sort_permutes S)
    (turn_points : List turn_info) (for_operation : operation_type)
    (m m1 : mapped_vector_type)
    (h : List.Forall₂ (sequenced_from S turn_points for_operation) m m1) :
    (∀ s ∈ all_slots m1, s ∈ all_slots m) ∧
    ((all_slots m).Nodup → (all_slots m1).Nodup) ∧
    (∀ e1 ∈ m1, ∃ e ∈ m, sequenced_from S turn_points for_operation e e1) := by
  induction h with
  | nil => exact ⟨fun s hs => hs, fun hn => hn, fun e1 he1 => by simp at he1⟩
  | @cons e e1 rest rest1 hhead _ ih =>
    obtain ⟨ih1, ih2, ih3⟩ := ih
    have hsubset : ∀ s ∈ e1.2.map slot_of, s ∈ e.2.map slot_of := by
      intro s hs
      obtain ⟨r, hr, hrs⟩ := List.mem_map.mp hs
      exact List.mem_map.mpr ⟨r, sequenced_from_mem S hS _ _ e e1 hhead r hr, hrs⟩
    refine ⟨?_, ?_, ?_⟩
    · intro s hs
      rw [all_slots_cons, List.mem_append] at hs ⊢
      rcases hs with hs | hs
      · exact Or.inl (hsubset s hs)
      · exact Or.inr (ih1 s hs)
    · intro hnd
      rw [all_slots_cons, List.nodup_append] at hnd ⊢
      refine ⟨sequenced_from_nodup S hS _ _ e e1 hhead hnd.1, ih2 hnd.2.1, ?_⟩
      intro s hs1 hs2
      exact hnd.2.2 (hsubset s hs1) (ih1 s hs2)
    · intro e2 he2
      rw [List.mem_cons] at he2
      rcases he2 with he2 | he2
      · subst he2
        exact ⟨e, by simp, hhead⟩
      · obtain ⟨e0, he0, hseq⟩ := ih3 e2 he2
        exact ⟨e0, by simp [he0], hseq⟩

/-! ### Assigning every bucket -/

theorem enrich_assign_all_spec (m1 : mapped_vector_type) :
    ∀ turn_points : List turn_info,
      (∀ e ∈ m1, ∀ r ∈ e.2, slot_exists turn_points r) → (all_slots m1).Nodup →
      ∃ turn_points2, enrich_assign_all m1 turn_points = some turn_points2 ∧
        same_static turn_points turn_points2 ∧
        (∀ i j : Nat, (i, j) ∉ all_slots m1 →
          get_op turn_points2 i j = get_op turn_points i j) ∧
        (∀ e ∈ m1, ∀ (i : Nat) (cur next : indexed_turn_operation), e.2[i]? = some cur →
          e.2[(i + 1) % e.2.length]? = some next →
          ∃ a b : turn_operation,
            get_op turn_points cur.turn_index cur.operation_index = some a ∧
            get_op turn_points next.turn_index next.operation_index = some b ∧
            get_op turn_points2 cur.turn_index cur.operation_index =
              some (assigned_operation (decide (i + 1 = e.2.length)) a
                b.seg_id.segment_index next)) := by
  induction m1 with
  | nil =>
    intro turn_points _ _
    exact ⟨turn_points, rfl, same_static_refl _, fun _ _ _ => rfl,
      fun e he => by simp at he⟩
  | cons e rest ih =>
    intro turn_points hex hnd
    obtain ⟨k, v⟩ := e
    rw [all_slots_cons, List.nodup_append] at hnd
    obtain ⟨hndA, hndB, hdisj⟩ := hnd
    obtain ⟨turn_points1, hrun1, hst01, hframe1, _, hpos1⟩ :=
      enrich_assign_spec v turn_points (hex (k, v) (by simp))
    have hex1 : ∀ e ∈ rest, ∀ r ∈ e.2, slot_exists turn_points1 r := by
      intro e he r hr
      unfold slot_exists
      rw [same_static_isSome hst01]
      exact hex e (by simp [he]) r hr
    obtain ⟨turn_points2, hrun2, hst12, hframe2, hpos2⟩ := ih turn_points1 hex1 hndB
    refine ⟨turn_points2, ?_, same_static_trans hst01 hst12, ?_, ?_⟩
    · unfold enrich_assign_all
      simp only [hrun1, Option.bind_eq_bind, Option.some_bind]
      exact hrun2
    · intro i j hij
      rw [all_slots_cons, List.mem_append, not_or] at hij
      rw [hframe2 i j hij.2, hframe1 i j hij.1]
    · intro e he i cur next hcur hnext
      rw [List.mem_cons] at he
      rcases he with he | he
      · subst he
        obtain ⟨a, b, ha, hb, hfin⟩ := hpos1 hndA i cur next hcur hnext
        refine ⟨a, b, ha, hb, ?_⟩
        have hmem : slot_of cur ∈ List.map slot_of v :=
          List.mem_map.mpr ⟨cur, List.getElem?_mem hcur, rfl⟩
        rw [hframe2 _ _ (fun h => hdisj hmem h)]
        exact hfin
      · obtain ⟨a1, b1, ha1, hb1, hfin⟩ := hpos2 e he i cur next hcur hnext
        have hmem : slot_of cur ∈ all_slots rest :=
          (mem_all_slots rest _).mpr ⟨e, he, List.mem_map.mpr ⟨cur, List.getElem?_mem hcur, rfl⟩⟩
        rw [hframe1 _ _ (fun h => hdisj h hmem)] at ha1
        obtain ⟨b0, hb0, _, hseg, _⟩ := same_static_get_back hst01 _ _ b1 hb1
        refine ⟨a1, b0, ha1, hb0, ?_⟩
        rw [hfin, hseg]

/-! ### The whole of `enrich_intersection_points` -/

theorem create_map_slot_exists (turn_points : List turn_info) (for_operation : operation_type)
    (e : ring_identifier × List indexed_turn_operation)
    (he : e ∈ create_map turn_points for_operation []) (r : indexed_turn_operation)
    (hr : r ∈ e.2) : slot_exists turn_points r := by
  rw [← map_bucket_of_mem _ (create_map_sorted turn_points for_operation) e he] at hr
  unfold slot_exists
  rw [create_map_bucket_get_op _ _ _ r hr]
  rfl

/-- With a sort that permutes its input, `enrich_intersection_points` returns:
the sequencing succeeds on every bucket, the buckets keep pairwise distinct
slots, and every reference that stays in a bucket is written from its circular
successor. -/
theorem enrich_end_to_end (S : Strategies) (hS : sort_permutes S)
    (turn_points : List turn_info) (for_operation : operation_type) :
    ∃ m1 turn_points2,
      sequenced_map S turn_points for_operation = some m1 ∧
      enrich_intersection_points S turn_points for_operation = some turn_points2 ∧
      List.Forall₂ (sequenced_from S (prepared_turns S turn_points for_operation) for_operation)
        (create_map (prepared_turns S turn_points for_operation) for_operation []) m1 ∧
      (all_slots m1).Nodup ∧
      same_static (prepared_turns S turn_points for_operation) turn_points2 ∧
      (∀ i j : Nat, (i, j) ∉ all_slots m1 →
        get_op turn_points2 i j =
          get_op (prepared_turns S turn_points for_operation) i j) ∧
      (∀ e ∈ m1, ∀ (i : Nat) (cur next : indexed_turn_operation), e.2[i]? = some cur →
        e.2[(i + 1) % e.2.length]? = some next →
        ∃ a b : turn_operation,
          get_op (prepared_turns S turn_points for_operation)
            cur.turn_index cur.operation_index = some a ∧
          get_op (prepared_turns S turn_points for_operation)
            next.turn_index next.operation_index = some b ∧
          get_op turn_points2 cur.turn_index cur.operation_index =
            some (assigned_operation (decide (i + 1 = e.2.length)) a
              b.seg_id.segment_index next)) := by
  obtain ⟨m1, hm1, hall⟩ := enrich_sort_all_spec S hS
    (prepared_turns S turn_points for_operation) for_operation
    (create_map (prepared_turns S turn_points for_operation) for_operation [])
    (create_map_nonempty _ _) (create_map_slot_exists _ _)
  obtain ⟨_, hnd, hfrom⟩ := sequenced_all_slots S hS _ _ _ _ hall
  have hex1 : ∀ e ∈ m1, ∀ r ∈ e.2,
      slot_exists (prepared_turns S turn_points for_operation) r := by
    intro e1 he1 r hr
    obtain ⟨e, he, hseq⟩ := hfrom e1 he1
    exact create_map_slot_exists _ _ e he r (sequenced_from_mem S hS _ _ e e1 hseq r hr)
  have hnd1 := hnd (create_map_all_slots_nodup _ _)
  obtain ⟨turn_points2, hrun, hst, hframe, hpos⟩ :=
    enrich_assign_all_spec m1 (prepared_turns S turn_points for_operation) hex1 hnd1
  have hseq : sequenced_map S turn_points for_operation = some m1 := hm1
  refine ⟨m1, turn_points2, hseq, ?_, hall, hnd1, hst, hframe, hpos⟩
  unfold enrich_intersection_points
  simp only [hseq, Option.bind_eq_bind, Option.some_bind]
  exact hrun

theorem example_strategies_permutes (independent : Bool) :
    sort_permutes (example_strategies independent) := by
  intro turn_points for_operation operations
  exact List.perm_insertionSort by_segment_ratio operations

theorem has_valid_link_of_assigned (turn_points2 : List turn_info) (i j : Nat) (first : Bool)
    (a : turn_operation) (seg : Int) (next : indexed_turn_operation)
    (h : get_op turn_points2 i j = some (assigned_operation first a seg next))
    (hlt : next.turn_index < turn_points2.length) : has_valid_link turn_points2 i j = true := by
  unfold has_valid_link
  rw [h]
  simp only [assigned_operation, decide_eq_true_eq]
  omega

/-- C7 (counterexample): with two colocated both-intersection turns and a side
sorter reporting independence, operation 0 of turn 1 is placed by `create_map`
in the bucket of ring A, is removed from it by `skip_after_ii`, and ends without
a `travels_to_ip_index`. -/
theorem C7_placed_operation_without_link :
    ¬ (∀ (S : Strategies) (turn_points turn_points2 : List turn_info)
        (for_operation : operation_type) (ring_id : ring_identifier)
        (r : indexed_turn_operation), sort_permutes S →
        r ∈ map_bucket (create_map (prepared_turns S turn_points for_operation)
          for_operation []) ring_id →
        enrich_intersection_points S turn_points for_operation = some turn_points2 →
        has_valid_link turn_points2 r.turn_index r.operation_index = true) := by
  intro h
  have h1 := h (example_strategies true) colocated_ii
    (Option.get (enrich_intersection_points (example_strategies true) colocated_ii
      operation_type.operation_intersection) (by decide))
    operation_type.operation_intersection
    ring_a (IndexedType 1 0 (mk_op operation_type.operation_intersection 0 0 (-1) 0 (mkRat 1 2))
      (mk_op operation_type.operation_intersection 1 0 (-1) 1 0).seg_id)
    (example_strategies_permutes true) (by decide) (by decide)
  revert h1
  decide

/-- C7 (amended): with a sort that permutes its input, `enrich_intersection_points`
returns, and every operation that `create_map` places in a ring bucket and that
redundancy elimination leaves in it has a `travels_to_ip_index` that is set and
is the index of an existing turn. -/
theorem C7_kept_operations_linked (S : Strategies) (hS : sort_permutes S)
    (turn_points : List turn_info) (for_operation : operation_type) :
    ∃ m1 turn_points2,
      sequenced_map S turn_points for_operation = some m1 ∧
      enrich_intersection_points S turn_points for_operation = some turn_points2 ∧
      ∀ e ∈ m1, ∀ r ∈ e.2,
        r ∈ map_bucket (create_map (prepared_turns S turn_points for_operation)
          for_operation []) e.1 ∧
        has_valid_link turn_points2 r.turn_index r.operation_index = true := by
  obtain ⟨m1, turn_points2, hseq, hrun, hall, _, hst, _, hpos⟩ :=
    enrich_end_to_end S hS turn_points for_operation
  obtain ⟨_, _, hfrom⟩ := sequenced_all_slots S hS _ _ _ _ hall
  refine ⟨m1, turn_points2, hseq, hrun, ?_⟩
  intro e1 he1 r hr
  obtain ⟨e, he, hse⟩ := hfrom e1 he1
  have hmem : ∀ x ∈ e1.2, x ∈ e.2 := fun x hx => sequenced_from_mem S hS _ _ e e1 hse x hx
  constructor
  · rw [hse.1, map_bucket_of_mem _ (create_map_sorted _ _) e he]
    exact hmem r hr
  · obtain ⟨i, hi⟩ := List.mem_iff_getElem?.mp hr
    have hilt : i < e1.2.length := (List.getElem?_eq_some_iff.mp hi).1
    have hmod : (i + 1) % e1.2.length < e1.2.length := Nat.mod_lt _ (by omega)
    obtain ⟨next, hnext⟩ : ∃ next, e1.2[(i + 1) % e1.2.length]? = some next :=
      ⟨_, List.getElem?_eq_getElem hmod⟩
    obtain ⟨a, b, _, hb, hfin⟩ := hpos e1 he1 i r next hi hnext
    have hlt := (get_op_index_lt _ _ _ _ hb).1
    rw [← same_static_length hst] at hlt
    exact has_valid_link_of_assigned _ _ _ _ _ _ _ hfin hlt

/-- C7 witness: the colocated scenario with a side sorter reporting
independence. -/
theorem C7_kept_operations_linked_witness :
    ∃ m1 turn_points2,
      sequenced_map (example_strategies true) colocated_ii
        operation_type.operation_intersection = some m1 ∧
      enrich_intersection_points (example_strategies true) colocated_ii
        operation_type.operation_intersection = some turn_points2 ∧
      ∀ e ∈ m1, ∀ r ∈ e.2,
        r ∈ map_bucket (create_map (prepared_turns (example_strategies true) colocated_ii
          operation_type.operation_intersection) operation_type.operation_intersection []) e.1 ∧
        has_valid_link turn_points2 r.turn_index r.operation_index = true :=
  C7_kept_operations_linked (example_strategies true) (example_strategies_permutes true)
    colocated_ii operation_type.operation_intersection

/-! ### Cycles -/

theorem filter_turn_index_unique (bucket : List indexed_turn_operation)
    (hnd : (bucket.map (fun r => r.turn_index)).Nodup) (x : indexed_turn_operation)
    (hx : x ∈ bucket) :
    bucket.filter (fun r2 => decide ((r2.turn_index : Int) = (x.turn_index : Int))) = [x] := by
  induction bucket with
  | nil => simp at hx
  | cons y rest ih =>
    rw [List.map_cons, List.nodup_cons] at hnd
    rw [List.mem_cons] at hx
    rcases hx with hx | hx
    · subst hx
      rw [List.filter_cons_of_pos (by simp)]
      congr 1
      apply List.filter_eq_nil_iff.mpr
      intro z hz
      simp only [decide_eq_true_eq, Nat.cast_inj]
      intro heq
      apply hnd.1
      rw [← heq]
      exact List.mem_map.mpr ⟨z, hz, rfl⟩
    · have hne : ¬ y.turn_index = x.turn_index := by
        intro heq
        apply hnd.1
        rw [heq]
        exact List.mem_map.mpr ⟨x, hx, rfl⟩
      rw [List.filter_cons_of_neg (by simp [hne])]
      exact ih hnd.2 hx

/-- In a bucket of references to pairwise distinct turns whose operations each
travel to the turn of the circular successor, following the link `k` times from
position `i` leads exactly to position `(i + k) mod N`. -/
theorem travel_reach_of_links (turn_points2 : List turn_info)
    (bucket : List indexed_turn_operation)
    (hnd : (bucket.map (fun r => r.turn_index)).Nodup)
    (hlinks : ∀ (i : Nat) (cur next : indexed_turn_operation), bucket[i]? = some cur →
      bucket[(i + 1) % bucket.length]? = some next →
      ∃ o : turn_operation, get_op turn_points2 cur.turn_index cur.operation_index = some o ∧
        o.enriched.travels_to_ip_index = some (next.turn_index : Int)) :
    ∀ (k i : Nat) (cur : indexed_turn_operation), bucket[i]? = some cur →
      ∃ tgt, bucket[(i + k) % bucket.length]? = some tgt ∧
        travel_reach turn_points2 bucket k cur = [tgt] := by
  intro k
  induction k with
  | zero =>
    intro i cur hcur
    have hi : i < bucket.length := (List.getElem?_eq_some_iff.mp hcur).1
    refine ⟨cur, ?_, rfl⟩
    rw [Nat.add_zero, Nat.mod_eq_of_lt hi]
    exact hcur
  | succ k ih =>
    intro i cur hcur
    have hi : i < bucket.length := (List.getElem?_eq_some_iff.mp hcur).1
    obtain ⟨mid, hmid, hreach⟩ := ih i cur hcur
    have hmod : ((i + k) % bucket.length + 1) % bucket.length < bucket.length :=
      Nat.mod_lt _ (by omega)
    obtain ⟨tgt, htgt⟩ : ∃ tgt, bucket[((i + k) % bucket.length + 1) % bucket.length]? =
        some tgt := ⟨_, List.getElem?_eq_getElem hmod⟩
    obtain ⟨o, ho, htr⟩ := hlinks _ mid tgt hmid htgt
    refine ⟨tgt, ?_, ?_⟩
    · rw [Nat.mod_add_mod] at htgt
      exact htgt
    · unfold travel_reach
      rw [hreach]
      simp only [List.flatMap_cons, List.flatMap_nil, List.append_nil]
      unfold travel_next
      rw [ho]
      simp only [htr]
      exact filter_turn_index_unique bucket hnd tgt (List.getElem?_mem htgt)

theorem cycle_of_links (turn_points2 : List turn_info)
    (bucket : List indexed_turn_operation)
    (hnd : (bucket.map (fun r => r.turn_index)).Nodup)
    (hlinks : ∀ (i : Nat) (cur next : indexed_turn_operation), bucket[i]? = some cur →
      bucket[(i + 1) % bucket.length]? = some next →
      ∃ o : turn_operation, get_op turn_points2 cur.turn_index cur.operation_index = some o ∧
        o.enriched.travels_to_ip_index = some (next.turn_index : Int))
    (r : indexed_turn_operation) (hr : r ∈ bucket) :
    travel_reach turn_points2 bucket bucket.length r = [r] ∧
    (∀ k : Nat, 0 < k → k < bucket.length → r ∉ travel_reach turn_points2 bucket k r) ∧
    (∀ r2 ∈ bucket, ∃ k : Nat, k < bucket.length ∧
      travel_reach turn_points2 bucket k r = [r2]) := by
  obtain ⟨i, hi⟩ := List.mem_iff_getElem?.mp hr
  have hilt : i < bucket.length := (List.getElem?_eq_some_iff.mp hi).1
  have hnd2 : bucket.Nodup := List.Nodup.of_map _ hnd
  refine ⟨?_, ?_, ?_⟩
  · obtain ⟨tgt, htgt, hreach⟩ := travel_reach_of_links turn_points2 bucket hnd hlinks
      bucket.length i r hi
    rw [Nat.add_mod_right, Nat.mod_eq_of_lt hilt, hi] at htgt
    rw [hreach, ← Option.some.inj htgt]
  · intro k hk0 hkN hmem
    obtain ⟨tgt, htgt, hreach⟩ := travel_reach_of_links turn_points2 bucket hnd hlinks k i r hi
    rw [hreach, List.mem_singleton] at hmem
    rw [← hmem, ← hi] at htgt
    have hmodlt : (i + k) % bucket.length < bucket.length := Nat.mod_lt _ (by omega)
    have heq := List.getElem?_inj hmodlt hnd2 htgt
    by_cases hlt : i + k < bucket.length
    · rw [Nat.mod_eq_of_lt hlt] at heq
      omega
    · have hge : bucket.length ≤ i + k := by omega
      rw [Nat.mod_eq_sub_mod hge, Nat.mod_eq_of_lt (by omega)] at heq
      omega
  · intro r2 hr2
    obtain ⟨j, hj⟩ := List.mem_iff_getElem?.mp hr2
    have hjlt : j < bucket.length := (List.getElem?_eq_some_iff.mp hj).1
    by_cases hij : i ≤ j
    · obtain ⟨tgt, htgt, hreach⟩ := travel_reach_of_links turn_points2 bucket hnd hlinks
        (j - i) i r hi
      have h1 : i + (j - i) = j := by omega
      rw [h1, Nat.mod_eq_of_lt hjlt, hj] at htgt
      exact ⟨j - i, by omega, by rw [hreach, ← Option.some.inj htgt]⟩
    · obtain ⟨tgt, htgt, hreach⟩ := travel_reach_of_links turn_points2 bucket hnd hlinks
        (j + bucket.length - i) i r hi
      have h1 : i + (j + bucket.length - i) = j + bucket.length := by omega
      rw [h1, Nat.add_mod_right, Nat.mod_eq_of_lt hjlt, hj] at htgt
      exact ⟨j + bucket.length - i, by omega, by rw [hreach, ← Option.some.inj htgt]⟩

/-- C5 (counterexample): a turn whose two operations lie on the same ring puts
two references of one turn in the bucket; both operations travel to turn 0, so
following the link from operation 0 comes back to operation 0 after one step,
although the bucket has size 2. -/
theorem C5_self_turn_short_cycle :
    ¬ (∀ (S : Strategies) (turn_points turn_points2 : List turn_info)
        (for_operation : operation_type) (m1 : mapped_vector_type)
        (e : ring_identifier × List indexed_turn_operation) (r : indexed_turn_operation),
        sort_permutes S →
        sequenced_map S turn_points for_operation = some m1 →
        enrich_intersection_points S turn_points for_operation = some turn_points2 →
        e ∈ m1 → r ∈ e.2 →
        (r ∈ travel_reach turn_points2 e.2 e.2.length r ∧
          ∀ k : Nat, 0 < k → k < e.2.length → r ∉ travel_reach turn_points2 e.2 k r)) := by
  intro h
  have h1 := h (example_strategies false) self_crossing
    (Option.get (enrich_intersection_points (example_strategies false) self_crossing
      operation_type.operation_union) (by decide))
    operation_type.operation_union
    (Option.get (sequenced_map (example_strategies false) self_crossing
      operation_type.operation_union) (by decide))
    (ring_a,
      [IndexedType 0 0 (mk_op operation_type.operation_intersection 0 0 (-1) 0 (mkRat 1 2))
          (mk_op operation_type.operation_union 0 0 (-1) 2 (mkRat 1 2)).seg_id,
       IndexedType 0 1 (mk_op operation_type.operation_union 0 0 (-1) 2 (mkRat 1 2))
          (mk_op operation_type.operation_intersection 0 0 (-1) 0 (mkRat 1 2)).seg_id])
    (IndexedType 0 0 (mk_op operation_type.operation_intersection 0 0 (-1) 0 (mkRat 1 2))
      (mk_op operation_type.operation_union 0 0 (-1) 2 (mkRat 1 2)).seg_id)
    (example_strategies_permutes false) (by decide) (by decide) (by decide) (by decide)
  have h2 := h1.2 1 (by decide) (by decide)
  revert h2
  decide

/-- C5 (amended): with a sort that permutes its input, `enrich_intersection_points`
returns, and in every sequenced ring bucket whose references belong to pairwise
distinct turns, following `travels_to_ip_index` from any reference exactly `N`
times (`N` the bucket size) leads back to that reference and to nothing else, no
smaller positive number of steps does, and every reference of the bucket is
reached on the way: the bucket forms exactly one cycle. -/
theorem C5_cycle_closure (S : Strategies) (hS : sort_permutes S)
    (turn_points : List turn_info) (for_operation : operation_type) :
    ∃ m1 turn_points2,
      sequenced_map S turn_points for_operation = some m1 ∧
      enrich_intersection_points S turn_points for_operation = some turn_points2 ∧
      ∀ e ∈ m1, (e.2.map (fun r => r.turn_index)).Nodup → ∀ r ∈ e.2,
        travel_reach turn_points2 e.2 e.2.length r = [r] ∧
        (∀ k : Nat, 0 < k → k < e.2.length → r ∉ travel_reach turn_points2 e.2 k r) ∧
        (∀ r2 ∈ e.2, ∃ k : Nat, k < e.2.length ∧
          travel_reach turn_points2 e.2 k r = [r2]) := by
  obtain ⟨m1, turn_points2, hseq, hrun, _, _, _, _, hpos⟩ :=
    enrich_end_to_end S hS turn_points for_operation
  refine ⟨m1, turn_points2, hseq, hrun, ?_⟩
  intro e he hnd r hr
  apply cycle_of_links turn_points2 e.2 hnd _ r hr
  intro i cur next hcur hnext
  obtain ⟨a, b, _, _, hfin⟩ := hpos e he i cur next hcur hnext
  exact ⟨_, hfin, rfl⟩

/-- C5 witness: the two-crossings scenario; both ring buckets hold references to
distinct turns and each is a 2-cycle. -/
theorem C5_cycle_closure_witness :
    ∃ m1 turn_points2,
      sequenced_map (example_strategies true) two_crossings
        operation_type.operation_union = some m1 ∧
      enrich_intersection_points (example_strategies true) two_crossings
        operation_type.operation_union = some turn_points2 ∧
      ∀ e ∈ m1, ∀ r ∈ e.2, (e.2.map (fun r => r.turn_index)).Nodup ∧ e.2.length = 2 ∧
        travel_reach turn_points2 e.2 e.2.length r = [r] ∧
        (∀ k : Nat, 0 < k → k < e.2.length → r ∉ travel_reach turn_points2 e.2 k r) := by
  obtain ⟨m1, turn_points2, h1, h2, h3⟩ :=
    C5_cycle_closure (example_strategies true) (example_strategies_permutes true)
      two_crossings operation_type.operation_union
  refine ⟨m1, turn_points2, h1, h2, ?_⟩
  have hm : m1 = Option.get (sequenced_map (example_strategies true) two_crossings
      operation_type.operation_union) (by decide) := by
    apply Option.some.inj
    rw [← h1]
    decide
  have hall : ∀ e ∈ m1, (e.2.map (fun r => r.turn_index)).Nodup ∧ e.2.length = 2 := by
    rw [hm]
    decide
  intro e he r hr
  exact ⟨(hall e he).1, (hall e he).2, (h3 e he (hall e he).1 r hr).1,
    (h3 e he (hall e he).1 r hr).2.1⟩

/-! ### Clusters in `skip_after_ii` -/

theorem skip_marks_cons_match (S : Strategies) (turn_points : List turn_info)
    (cluster_toi it : indexed_turn_operation) (rest : List indexed_turn_operation)
    (h : ii_match turn_points cluster_toi it = true) :
    skip_marks S turn_points cluster_toi (it :: rest) =
      (if side_independent S turn_points cluster_toi it then { it with skip := true } else it)
        :: skip_marks S turn_points cluster_toi rest := by
  conv => lhs; unfold skip_marks
  rw [if_pos h]

theorem skip_marks_cons_no_match (S : Strategies) (turn_points : List turn_info)
    (cluster_toi it : indexed_turn_operation) (rest : List indexed_turn_operation)
    (h : ¬ ii_match turn_points cluster_toi it = true) :
    skip_marks S turn_points cluster_toi (it :: rest) =
      it :: skip_marks S turn_points it rest := by
  conv => lhs; unfold skip_marks
  rw [if_neg h]

theorem anchor_after_cons_match (turn_points : List turn_info)
    (cluster_toi it : indexed_turn_operation) (rest : List indexed_turn_operation)
    (h : ii_match turn_points cluster_toi it = true) :
    anchor_after turn_points cluster_toi (it :: rest) =
      anchor_after turn_points cluster_toi rest := by
  conv => lhs; unfold anchor_after
  rw [if_pos h]

theorem anchor_after_cons_no_match (turn_points : List turn_info)
    (cluster_toi it : indexed_turn_operation) (rest : List indexed_turn_operation)
    (h : ¬ ii_match turn_points cluster_toi it = true) :
    anchor_after turn_points cluster_toi (it :: rest) = anchor_after turn_points it rest := by
  conv => lhs; unfold anchor_after
  rw [if_neg h]

theorem skip_marks_append (S : Strategies) (turn_points : List turn_info)
    (l1 l2 : List indexed_turn_operation) :
    ∀ cluster_toi : indexed_turn_operation,
      skip_marks S turn_points cluster_toi (l1 ++ l2) =
        skip_marks S turn_points cluster_toi l1 ++
          skip_marks S turn_points (anchor_after turn_points cluster_toi l1) l2 := by
  induction l1 with
  | nil => intro _; rfl
  | cons it rest ih =>
    intro cluster_toi
    rw [List.cons_append]
    by_cases hm : ii_match turn_points cluster_toi it = true
    · rw [skip_marks_cons_match _ _ _ _ _ hm, skip_marks_cons_match _ _ _ _ _ hm,
        anchor_after_cons_match _ _ _ _ hm, ih cluster_toi, List.cons_append]
    · rw [skip_marks_cons_no_match _ _ _ _ _ hm, skip_marks_cons_no_match _ _ _ _ _ hm,
        anchor_after_cons_no_match _ _ _ _ hm, ih it, List.cons_append]

theorem anchor_after_mem (turn_points : List turn_info) (l : List indexed_turn_operation) :
    ∀ cluster_toi : indexed_turn_operation,
      anchor_after turn_points cluster_toi l ∈ cluster_toi :: l := by
  induction l with
  | nil => intro _; simp [anchor_after]
  | cons it rest ih =>
    intro cluster_toi
    by_cases hm : ii_match turn_points cluster_toi it = true
    · rw [anchor_after_cons_match _ _ _ _ hm]
      have := ih cluster_toi
      simp only [List.mem_cons] at this ⊢
      tauto
    · rw [anchor_after_cons_no_match _ _ _ _ hm]
      have := ih it
      simp only [List.mem_cons] at this ⊢
      tauto

theorem skip_marks_cluster (S : Strategies) (turn_points : List turn_info)
    (a : indexed_turn_operation) (cluster post : List indexed_turn_operation)
    (hcl : ∀ x ∈ cluster, ii_match turn_points a x = true) :
    skip_marks S turn_points a (cluster ++ post) =
      cluster.map (fun x => if side_independent S turn_points a x then { x with skip := true }
        else x) ++ skip_marks S turn_points a post := by
  induction cluster with
  | nil => rfl
  | cons x rest ih =>
    have hx := hcl x (by simp)
    rw [List.cons_append, skip_marks_cons_match _ _ _ _ _ hx, List.map_cons, List.cons_append,
      ih (fun y hy => hcl y (by simp [hy]))]

theorem filter_marked_cluster (S : Strategies) (turn_points : List turn_info)
    (a : indexed_turn_operation) (cluster : List indexed_turn_operation)
    (hskip : ∀ x ∈ cluster, x.skip = false) :
    (cluster.map (fun x => if side_independent S turn_points a x then { x with skip := true }
        else x)).filter (fun toi => !skip_operation toi) =
      cluster.filter (fun x => !side_independent S turn_points a x) := by
  induction cluster with
  | nil => rfl
  | cons x rest ih =>
    have hx := hskip x (by simp)
    have ih2 := ih (fun y hy => hskip y (by simp [hy]))
    rw [List.map_cons]
    by_cases hs : side_independent S turn_points a x = true
    · rw [List.filter_cons_of_neg (by simp [skip_operation, hs]),
        List.filter_cons_of_neg (by simp [hs]), ih2]
    · rw [List.filter_cons_of_pos (by simp [skip_operation, hs, hx]),
        List.filter_cons_of_pos (by simp [hs]), ih2]
      simp [hs]

/-- The result of `enrich_sort` around a cluster: `a` is not matched by any
earlier reference, and every reference of `cluster` matches the anchor `a`. -/
theorem enrich_sort_cluster (S : Strategies) (hS : sort_permutes S)
    (operations : List indexed_turn_operation) (turn_points : List turn_info)
    (for_operation : operation_type)
    (pre : List indexed_turn_operation) (a : indexed_turn_operation)
    (cluster post : List indexed_turn_operation)
    (hex : ∀ r ∈ operations, slot_exists turn_points r)
    (hskip : ∀ r ∈ operations, r.skip = false)
    (hsorted : S.sort turn_points for_operation operations = pre ++ a :: (cluster ++ post))
    (hpre : ∀ c ∈ pre, ii_match turn_points c a = false)
    (hcl : ∀ x ∈ cluster, ii_match turn_points a x = true) :
    ∃ kept_pre kept_post : List indexed_turn_operation,
      kept_pre.Sublist pre ∧ kept_post.Sublist post ∧
      enrich_sort S operations turn_points for_operation =
        some (kept_pre ++ a :: (cluster.filter
          (fun x => !side_independent S turn_points a x) ++ kept_post)) := by
  have hperm := hS turn_points for_operation operations
  rw [hsorted] at hperm
  have hsk : ∀ r ∈ pre ++ a :: (cluster ++ post), r.skip = false :=
    fun r hr => hskip r (hperm.mem_iff.mp hr)
  have ha : a.skip = false := hsk a (by simp)
  have hclskip : ∀ x ∈ cluster, x.skip = false := fun x hx => hsk x (by simp [hx])
  have htail : (a :: skip_marks S turn_points a (cluster ++ post)).filter
      (fun toi => !skip_operation toi) =
      a :: (cluster.filter (fun x => !side_independent S turn_points a x) ++
        (skip_marks S turn_points a post).filter (fun toi => !skip_operation toi)) := by
    rw [List.filter_cons_of_pos (by simp [skip_operation, ha]),
      skip_marks_cluster S turn_points a cluster post hcl, List.filter_append,
      filter_marked_cluster S turn_points a cluster hclskip]
  cases pre with
  | nil =>
    refine ⟨[], (skip_marks S turn_points a post).filter (fun toi => !skip_operation toi),
      List.Sublist.refl _, skip_marks_filter_sublist S turn_points post a, ?_⟩
    rw [enrich_sort_eq S hS operations turn_points for_operation hex a (cluster ++ post)
      (by rw [hsorted]; rfl), htail]
    rfl
  | cons p pre1 =>
    have hanchor := anchor_after_mem turn_points pre1 p
    have hnm : ii_match turn_points (anchor_after turn_points p pre1) a = false :=
      hpre _ hanchor
    refine ⟨(p :: skip_marks S turn_points p pre1).filter (fun toi => !skip_operation toi),
      (skip_marks S turn_points a post).filter (fun toi => !skip_operation toi), ?_,
      skip_marks_filter_sublist S turn_points post a, ?_⟩
    · have hsub := skip_marks_filter_sublist S turn_points pre1 p
      have hp : p.skip = false := hsk p (by simp)
      rw [List.filter_cons_of_pos (by simp [skip_operation, hp])]
      exact List.Sublist.cons₂ _ hsub
    · rw [enrich_sort_eq S hS operations turn_points for_operation hex p
        (pre1 ++ a :: (cluster ++ post)) (by rw [hsorted]; rfl),
        skip_marks_append]
      have hstep : skip_marks S turn_points (anchor_after turn_points p pre1)
          (a :: (cluster ++ post)) = a :: skip_marks S turn_points a (cluster ++ post) := by
        exact skip_marks_cons_no_match _ _ _ _ _ (by rw [hnm]; simp)
      rw [hstep, ← List.cons_append, List.filter_append, htail]

/-- C8 (counterexample): two both-intersection turns on the same segment at the
same fraction, and a side sorter that does not report independence: both
references remain in the bucket after `enrich_sort`. -/
theorem C8_both_references_remain :
    ¬ (∀ (S : Strategies) (turn_points : List turn_info) (for_operation : operation_type)
        (operations result : List indexed_turn_operation) (a b : indexed_turn_operation),
        sort_permutes S → a ∈ operations → b ∈ operations → a ≠ b →
        ii_match turn_points a b = true → ii_match turn_points b a = true →
        enrich_sort S operations turn_points for_operation = some result →
        (a ∈ result ∧ b ∉ result) ∨ (a ∉ result ∧ b ∈ result)) := by
  intro h
  have h1 := h (example_strategies false) colocated_ii operation_type.operation_intersection
    bucket_colocated
    (Option.get (enrich_sort (example_strategies false) bucket_colocated colocated_ii
      operation_type.operation_intersection) (by decide))
    colocated_first colocated_second
    (example_strategies_permutes false) (by decide) (by decide) (by decide) (by decide)
    (by decide) (by decide)
  revert h1
  decide

/-- C8 (amended): in a bucket of distinct references with existing slots, let the
sorted bucket be `pre ++ a :: (cluster ++ post)`, where no reference of `pre`
matches `a` and every reference of `cluster` matches the anchor `a` (the turn of
`a` is both-intersection, same segment identity, same fraction).  Then
`enrich_sort` returns, `a` remains, and a reference of `cluster` remains exactly
when the side sorter does not report it independent of `a`; nothing else of the
cluster is removed or added.  For two such turns (`cluster = [b]`) exactly one
remains when `b` is reported independent and both remain otherwise; for three
(`cluster = [b, c]`) likewise for `b` and `c` separately. -/
theorem C8_cluster_survivors (S : Strategies) (hS : sort_permutes S)
    (operations : List indexed_turn_operation) (turn_points : List turn_info)
    (for_operation : operation_type)
    (pre : List indexed_turn_operation) (a : indexed_turn_operation)
    (cluster post : List indexed_turn_operation)
    (hex : ∀ r ∈ operations, slot_exists turn_points r)
    (hskip : ∀ r ∈ operations, r.skip = false)
    (hnd : operations.Nodup)
    (hsorted : S.sort turn_points for_operation operations = pre ++ a :: (cluster ++ post))
    (hpre : ∀ c ∈ pre, ii_match turn_points c a = false)
    (hcl : ∀ x ∈ cluster, ii_match turn_points a x = true) :
    ∃ result : List indexed_turn_operation,
      enrich_sort S operations turn_points for_operation = some result ∧
      a ∈ result ∧
      (∀ x ∈ cluster, (x ∈ result ↔ side_independent S turn_points a x = false)) ∧
      ∃ kept_pre kept_post : List indexed_turn_operation,
        kept_pre.Sublist pre ∧ kept_post.Sublist post ∧
        result = kept_pre ++ a :: (cluster.filter
          (fun x => !side_independent S turn_points a x) ++ kept_post) := by
  obtain ⟨kept_pre, kept_post, hsub1, hsub2, hres⟩ :=
    enrich_sort_cluster S hS operations turn_points for_operation pre a cluster post
      hex hskip hsorted hpre hcl
  refine ⟨_, hres, by simp, ?_, kept_pre, kept_post, hsub1, hsub2, rfl⟩
  have hperm := hS turn_points for_operation operations
  rw [hsorted] at hperm
  have hnd2 : (pre ++ a :: (cluster ++ post)).Nodup := hperm.nodup_iff.mpr hnd
  rw [List.nodup_append] at hnd2
  obtain ⟨_, hnd3, hdisj1⟩ := hnd2
  rw [List.nodup_cons, List.nodup_append] at hnd3
  obtain ⟨hna, _, _, hdisj2⟩ := hnd3
  intro x hx
  have hx_pre : x ∉ kept_pre := fun h => hdisj1 (hsub1.subset h) (by simp [hx])
  have hx_a : x ≠ a := fun h => hna (by rw [← h]; simp [hx])
  have hx_post : x ∉ kept_post := fun h => hdisj2 hx (hsub2.subset h)
  simp only [List.mem_append, List.mem_cons, List.mem_filter, hx_pre, hx_a, hx_post, hx,
    false_or, or_false, true_and, Bool.not_eq_true', Bool.not_eq_eq_eq_not, Bool.not_true]

/-- C8 witness: the colocated scenario with a side sorter reporting
independence; the first reference remains and the second is removed. -/
theorem C8_cluster_survivors_witness :
    ∃ result : List indexed_turn_operation,
      enrich_sort (example_strategies true) bucket_colocated colocated_ii
        operation_type.operation_intersection = some result ∧
      colocated_first ∈ result ∧
      (∀ x ∈ [colocated_second],
        (x ∈ result ↔ side_independent (example_strategies true) colocated_ii
          colocated_first x = false)) ∧
      ∃ kept_pre kept_post : List indexed_turn_operation,
        kept_pre.Sublist [] ∧ kept_post.Sublist [] ∧
        result = kept_pre ++ colocated_first :: ([colocated_second].filter
          (fun x => !side_independent (example_strategies true) colocated_ii
            colocated_first x) ++ kept_post) :=
  C8_cluster_survivors (example_strategies true) (example_strategies_permutes true)
    bucket_colocated colocated_ii operation_type.operation_intersection
    [] colocated_first [colocated_second] []
    (fun r hr => by
      unfold slot_exists
      rw [create_map_bucket_get_op _ _ _ r hr]
      rfl)
    (fun r hr => (mem_create_map_bucket _ _ _ r hr).choose_spec.2.2.2.1)
    (by decide) (by decide) (by decide) (by decide)

/-! ### References that no anchor matches -/

theorem skip_marks_keeps (S : Strategies) (turn_points : List turn_info)
    (x : indexed_turn_operation) (rest : List indexed_turn_operation) :
    ∀ cluster_toi : indexed_turn_operation, x ∈ rest → (cluster_toi :: rest).Nodup →
      (∀ c ∈ cluster_toi :: rest, c ≠ x → ii_match turn_points c x = false) →
      x ∈ skip_marks S turn_points cluster_toi rest := by
  induction rest with
  | nil => intro _ hx; simp at hx
  | cons it rest ih =>
    intro cluster_toi hx hnd hno
    rw [List.mem_cons] at hx
    have hnd_c : (cluster_toi :: rest).Nodup := by
      rw [List.nodup_cons] at hnd ⊢
      exact ⟨fun h => hnd.1 (by simp [h]), (List.nodup_cons.mp hnd.2).2⟩
    have hnd_it : (it :: rest).Nodup := (List.nodup_cons.mp hnd).2
    rcases hx with hx | hx
    · subst hx
      have hne : cluster_toi ≠ x := by
        intro h
        rw [List.nodup_cons] at hnd
        exact hnd.1 (by simp [h])
      have hm : ¬ ii_match turn_points cluster_toi x = true := by
        rw [hno cluster_toi (by simp) hne]; simp
      rw [skip_marks_cons_no_match _ _ _ _ _ hm]
      simp
    · by_cases hm : ii_match turn_points cluster_toi it = true
      · rw [skip_marks_cons_match _ _ _ _ _ hm]
        apply List.mem_cons_of_mem
        exact ih cluster_toi hx hnd_c (fun c hc => hno c (by
          simp only [List.mem_cons] at hc ⊢
          tauto))
      · rw [skip_marks_cons_no_match _ _ _ _ _ hm]
        apply List.mem_cons_of_mem
        exact ih it hx hnd_it (fun c hc => hno c (by
          simp only [List.mem_cons] at hc ⊢
          tauto))

/-- A reference that no other reference of the bucket matches stays in the
bucket through `enrich_sort`. -/
theorem enrich_sort_keeps (S : Strategies) (hS : sort_permutes S)
    (operations : List indexed_turn_operation) (turn_points : List turn_info)
    (for_operation : operation_type)
    (hex : ∀ r ∈ operations, slot_exists turn_points r) (hnd : operations.Nodup)
    (x : indexed_turn_operation) (hx : x ∈ operations) (hxs : x.skip = false)
    (hno : ∀ c ∈ operations, c ≠ x → ii_match turn_points c x = false)
    (result : List indexed_turn_operation)
    (hres : enrich_sort S operations turn_points for_operation = some result) :
    x ∈ result := by
  have hperm := hS turn_points for_operation operations
  cases hsort : S.sort turn_points for_operation operations with
  | nil =>
    rw [hsort] at hperm
    have := hperm.mem_iff.mpr hx
    simp at this
  | cons cluster_toi rest =>
    rw [hsort] at hperm
    rw [enrich_sort_eq S hS operations turn_points for_operation hex cluster_toi rest hsort]
      at hres
    have hres2 := Option.some.inj hres
    rw [← hres2, List.mem_filter]
    refine ⟨?_, by simp [skip_operation, hxs]⟩
    have hx2 : x ∈ cluster_toi :: rest := hperm.mem_iff.mpr hx
    rw [List.mem_cons] at hx2
    rcases hx2 with hx2 | hx2
    · rw [hx2]; simp
    · apply List.mem_cons_of_mem
      exact skip_marks_keeps S turn_points x rest cluster_toi hx2 (hperm.nodup_iff.mpr hnd)
        (fun c hc => hno c (hperm.mem_iff.mp hc))

/-- The side sorter with the constant verdict of independence does not keep the
contract: it reports both operations of a turn independent. -/
theorem constant_sorter_breaks_contract :
    ¬ side_sorter_contract (example_strategies true) three_colocated := by
  intro h
  have h1 := h 2 0 (mk_op operation_type.operation_intersection 0 0 (-1) 0 (mkRat 1 2))
    (mk_op operation_type.operation_intersection 1 0 (-1) 1 0) (by decide) (by decide)
    (mk_op operation_type.operation_intersection 0 0 (-1) 0 (mkRat 1 2))
    (mk_op operation_type.operation_intersection 1 0 (-1) 1 0) rfl
    (mk_op operation_type.operation_intersection 0 0 (-1) 0 (mkRat 1 2))
    (mk_op operation_type.operation_intersection 1 0 (-1) 1 0)
  simp [example_strategies] at h1

/-- The contract of the side sorter cannot be dropped: turn 2 of
`three_colocated` shares its position on ring A with turn 0 and its position on
ring B with turn 1; the side sorter with the constant verdict of independence,
which breaks the contract, has its reference removed from the bucket of ring A
and the reference of its other operation removed from the bucket of ring B, so
no sequenced bucket holds operation 1 of turn 2. -/
theorem sibling_lost_without_contract :
    ¬ (∀ (S : Strategies) (turn_points : List turn_info) (for_operation : operation_type)
        (m1 : mapped_vector_type) (ring_id : ring_identifier) (r : indexed_turn_operation),
        sort_permutes S →
        sequenced_map S turn_points for_operation = some m1 →
        r ∈ map_bucket (create_map (prepared_turns S turn_points for_operation)
          for_operation []) ring_id →
        r ∉ map_bucket m1 ring_id →
        ∃ e2 ∈ m1, ∃ r2 ∈ e2.2, r2.turn_index = r.turn_index ∧
          r2.operation_index = 1 - r.operation_index ∧ r2.skip = false) := by
  intro h
  have h1 := h (example_strategies true) three_colocated operation_type.operation_intersection
    (Option.get (sequenced_map (example_strategies true) three_colocated
      operation_type.operation_intersection) (by decide))
    ring_a third_on_a
    (example_strategies_permutes true) (by decide) (by decide) (by decide)
  revert h1
  decide

theorem create_map_both_slots (turn_points : List turn_info) (for_operation : operation_type)
    (ring_id : ring_identifier) (i : Nat) (turn : turn_info)
    (hget : turn_points[i]? = some turn) :
    (0 < slot_count (map_bucket (create_map turn_points for_operation []) ring_id) i 0 ∧
      0 < slot_count (map_bucket (create_map turn_points for_operation []) ring_id) i 1) ↔
    (create_map_skips for_operation turn = false ∧
      ring_of turn.operations.1.seg_id = ring_id ∧
      ring_of turn.operations.2.seg_id = ring_id) := by
  rw [create_map_slot_count, create_map_slot_count, hget]
  simp only [turn_slot_count, turn_info.op, if_true, if_neg (by decide : ¬ (1 : Nat) = 0)]
  by_cases hsk : create_map_skips for_operation turn = false <;>
  by_cases h1 : ring_of turn.operations.1.seg_id = ring_id <;>
  by_cases h2 : ring_of turn.operations.2.seg_id = ring_id <;>
  simp [hsk, h1, h2]

/-- C11 (counterexample): the turn of `self_crossing` has both operations on
ring A, and `create_map` places both of its references in the bucket of ring
A. -/
theorem C11_two_references_in_one_bucket :
    ¬ (∀ (turn_points : List turn_info) (for_operation : operation_type)
        (ring_id : ring_identifier) (i : Nat),
        ¬ (0 < slot_count (map_bucket (create_map turn_points for_operation []) ring_id) i 0 ∧
          0 < slot_count (map_bucket (create_map turn_points for_operation []) ring_id) i 1)) := by
  intro h
  exact h self_crossing operation_type.operation_union ring_a 0 (by decide)

/-- C11 (amended): the two operations of one turn are both placed by
`create_map` in the bucket of one ring identifier exactly when the turn is not
skipped and both operations lie on that ring; a turn whose two operations lie
on different rings never contributes two references to the same bucket. -/
theorem C11_references_of_one_turn (turn_points : List turn_info)
    (for_operation : operation_type) (ring_id : ring_identifier) (i : Nat) (turn : turn_info)
    (hget : turn_points[i]? = some turn) :
    ((0 < slot_count (map_bucket (create_map turn_points for_operation []) ring_id) i 0 ∧
      0 < slot_count (map_bucket (create_map turn_points for_operation []) ring_id) i 1) ↔
    (create_map_skips for_operation turn = false ∧
      ring_of turn.operations.1.seg_id = ring_id ∧
      ring_of turn.operations.2.seg_id = ring_id)) ∧
    (ring_of turn.operations.1.seg_id ≠ ring_of turn.operations.2.seg_id →
      ¬ (0 < slot_count (map_bucket (create_map turn_points for_operation []) ring_id) i 0 ∧
        0 < slot_count (map_bucket (create_map turn_points for_operation []) ring_id) i 1)) := by
  have hiff := create_map_both_slots turn_points for_operation ring_id i turn hget
  refine ⟨hiff, ?_⟩
  intro hne hboth
  obtain ⟨_, h1, h2⟩ := hiff.mp hboth
  exact hne (by rw [h1, h2])

/-- C11 witness: turn 0 of the two-crossings scenario has its operations on
rings A and B, and only operation 0 is in the bucket of ring A. -/
theorem C11_references_of_one_turn_witness :
    ¬ (0 < slot_count (map_bucket (create_map two_crossings
          operation_type.operation_union []) ring_a) 0 0 ∧
        0 < slot_count (map_bucket (create_map two_crossings
          operation_type.operation_union []) ring_a) 0 1) :=
  (C11_references_of_one_turn two_crossings operation_type.operation_union ring_a 0
    (mk_turn false (mk_op operation_type.operation_intersection 0 0 (-1) 0 (mkRat 1 2))
      (mk_op operation_type.operation_union 1 0 (-1) 3 (mkRat 1 2))) rfl).2 (by decide)

/-! ### The discard loop, again -/

theorem discard_turn_eq (it : turn_info) :
    discard_turn it =
      { it with discarded := it.discarded || decide (discard_predicate it) } := by
  unfold discard_turn discard_predicate turn_info.both
  by_cases h1 : it.operations.1.operation = operation_type.operation_union <;>
  by_cases h2 : it.operations.2.operation = operation_type.operation_union <;>
  by_cases h3 : it.operations.1.operation = operation_type.operation_none <;>
  by_cases h4 : it.operations.2.operation = operation_type.operation_none <;>
  simp_all

theorem discard_turn_idempotent (it : turn_info) :
    discard_turn (discard_turn it) = discard_turn it := by
  rw [discard_turn_eq (discard_turn it), discard_turn_eq it]
  simp only [discard_predicate]
  cases it.discarded <;> simp

/-- C12: running the discard loop twice gives exactly the container obtained by
running it once, and one run changes nothing but the flag: every turn keeps its
point, method and operations, and its flag becomes "flagged before, or both
operations union, or both none". -/
theorem C12_discard_pass_idempotent (turn_points : List turn_info) :
    discard_pass (discard_pass turn_points) = discard_pass turn_points ∧
    discard_pass turn_points =
      turn_points.map (fun it =>
        { point := it.point, method := it.method,
          discarded := it.discarded || decide (discard_predicate it),
          operations := it.operations }) := by
  constructor
  · unfold discard_pass
    rw [List.map_map]
    apply List.map_congr_left
    intro it _
    exact discard_turn_idempotent it
  · unfold discard_pass
    apply List.map_congr_left
    intro it _
    exact discard_turn_eq it

/-! ### The fields of a turn outside its operations -/

theorem turn_set_op_frame (turn turn1 : turn_info) (j : Nat) (o : turn_operation)
    (h : turn.set_op j o = some turn1) : turn_frame turn1 = turn_frame turn := by
  unfold turn_info.set_op at h
  by_cases h0 : j = 0
  · simp only [h0, if_true, Option.some.injEq] at h
    rw [← h]; rfl
  · by_cases h1 : j = 1
    · simp only [h1, if_neg (by decide : ¬ (1 : Nat) = 0), if_true, Option.some.injEq] at h
      rw [← h]; rfl
    · simp [h0, h1] at h

theorem set_op_frame (turn_points turn_points1 : List turn_info) (i j : Nat)
    (o : turn_operation) (h : set_op turn_points i j o = some turn_points1) :
    turn_points1.map turn_frame = turn_points.map turn_frame := by
  unfold set_op at h
  cases hget : turn_points[i]? with
  | none => rw [hget] at h; simp at h
  | some turn =>
    rw [hget] at h
    simp only [] at h
    cases hset : turn.set_op j o with
    | none => rw [hset] at h; simp at h
    | some turn1 =>
      rw [hset] at h
      simp only [Option.some.injEq] at h
      subst h
      have hi : i < turn_points.length := (List.getElem?_eq_some_iff.mp hget).1
      apply List.ext_getElem?
      intro k
      rw [List.getElem?_map, List.getElem?_map]
      by_cases hk : k = i
      · subst hk
        rw [List.getElem?_set_self hi, hget]
        simp only [Option.map_some']
        rw [turn_set_op_frame turn turn1 j o hset]
      · rw [List.getElem?_set_ne (fun h => hk h.symm)]

theorem enrich_assign_step_frame (first : Bool) (prev it : indexed_turn_operation)
    (turn_points turn_points1 : List turn_info)
    (h : enrich_assign_step first prev it turn_points = some turn_points1) :
    turn_points1.map turn_frame = turn_points.map turn_frame := by
  unfold enrich_assign_step at h
  cases ha : get_op turn_points prev.turn_index prev.operation_index with
  | none => rw [ha] at h; simp at h
  | some a =>
    cases hb : get_op turn_points it.turn_index it.operation_index with
    | none => rw [ha, hb] at h; simp at h
    | some b =>
      rw [ha, hb] at h
      simp only [Option.bind_eq_bind, Option.some_bind] at h
      exact set_op_frame _ _ _ _ _ h

theorem run_passes_frame (ws : List assign_pass) :
    ∀ turn_points turn_points2 : List turn_info,
      run_passes ws turn_points = some turn_points2 →
      turn_points2.map turn_frame = turn_points.map turn_frame := by
  induction ws with
  | nil =>
    intro turn_points turn_points2 h
    simp only [run_passes, Option.some.injEq] at h
    rw [h]
  | cons w ws ih =>
    intro turn_points turn_points2 h
    unfold run_passes at h
    cases hstep : enrich_assign_step w.first w.prev w.it turn_points with
    | none => rw [hstep] at h; simp at h
    | some turn_points1 =>
      rw [hstep] at h
      simp only [] at h
      rw [ih turn_points1 turn_points2 h, enrich_assign_step_frame _ _ _ _ _ hstep]

theorem enrich_assign_frame (operations : List indexed_turn_operation)
    (turn_points turn_points2 : List turn_info)
    (h : enrich_assign operations turn_points = some turn_points2) :
    turn_points2.map turn_frame = turn_points.map turn_frame := by
  unfold enrich_assign at h
  by_cases hpos : operations.length > 0
  · rw [if_pos hpos] at h
    cases hlast : operations[operations.length - 1]? with
    | none => rw [hlast] at h; simp at h
    | some last =>
      rw [hlast] at h
      simp only [Option.bind_eq_bind, Option.some_bind] at h
      rw [enrich_assign_loop_eq] at h
      exact run_passes_frame _ _ _ h
  · rw [if_neg hpos] at h
    simp only [Option.some.injEq] at h
    rw [h]

theorem enrich_assign_all_frame (m1 : mapped_vector_type) :
    ∀ turn_points turn_points2 : List turn_info,
      enrich_assign_all m1 turn_points = some turn_points2 →
      turn_points2.map turn_frame = turn_points.map turn_frame := by
  induction m1 with
  | nil =>
    intro turn_points turn_points2 h
    simp only [enrich_assign_all, Option.some.injEq] at h
    rw [h]
  | cons e rest ih =>
    intro turn_points turn_points2 h
    obtain ⟨k, v⟩ := e
    unfold enrich_assign_all at h
    cases h1 : enrich_assign v turn_points with
    | none => rw [h1] at h; simp at h
    | some turn_points1 =>
      rw [h1] at h
      simp only [Option.bind_eq_bind, Option.some_bind] at h
      rw [ih turn_points1 turn_points2 h, enrich_assign_frame _ _ _ h1]

/-- Two containers with the same turn fields and the same operation in every
slot are equal. -/
theorem turn_points_ext (t1 t2 : List turn_info)
    (hframe : t1.map turn_frame = t2.map turn_frame)
    (hops : ∀ i j : Nat, get_op t1 i j = get_op t2 i j) : t1 = t2 := by
  apply List.ext_getElem?
  intro i
  have hf : (t1.map turn_frame)[i]? = (t2.map turn_frame)[i]? := by rw [hframe]
  rw [List.getElem?_map, List.getElem?_map] at hf
  have h0 := hops i 0
  have h1 := hops i 1
  unfold get_op at h0 h1
  cases ha : t1[i]? with
  | none =>
    cases hb : t2[i]? with
    | none => rfl
    | some b => rw [ha, hb] at hf; simp at hf
  | some a =>
    cases hb : t2[i]? with
    | none => rw [ha, hb] at hf; simp at hf
    | some b =>
      rw [ha, hb] at hf h0 h1
      simp only [Option.map_some', Option.some.injEq, turn_frame, Prod.mk.injEq] at hf
      simp only [turn_info.op, if_true, if_neg (by decide : ¬ (1 : Nat) = 0),
        Option.some.injEq] at h0 h1
      congr 1
      cases a with
      | mk pa ma da oa =>
        cases b with
        | mk pb mb db ob =>
          simp only at hf h0 h1
          obtain ⟨hp, hm, hd⟩ := hf
          subst hp hm hd
          congr 1
          exact Prod.ext h0 h1

/-! ### Independence of the rings -/

/-- The operations that `enrich_assign` leaves in the slots of a bucket depend
only on what those slots held and on the segment identities. -/
theorem assign_slot_determined (operations : List indexed_turn_operation)
    (t1 t2 : List turn_info)
    (hex : ∀ r ∈ operations, slot_exists t1 r)
    (hnd : (operations.map slot_of).Nodup)
    (hst : same_static t1 t2)
    (hagree : ∀ r ∈ operations, get_op t2 r.turn_index r.operation_index =
      get_op t1 r.turn_index r.operation_index)
    (u1 u2 : List turn_info)
    (h1 : enrich_assign operations t1 = some u1)
    (h2 : enrich_assign operations t2 = some u2) :
    ∀ r ∈ operations, get_op u2 r.turn_index r.operation_index =
      get_op u1 r.turn_index r.operation_index := by
  have hex2 : ∀ r ∈ operations,
      (get_op t2 r.turn_index r.operation_index).isSome = true := by
    intro r hr
    rw [same_static_isSome hst]
    exact hex r hr
  obtain ⟨v1, hv1, _, _, _, hpos1⟩ := enrich_assign_spec operations t1 hex
  obtain ⟨v2, hv2, _, _, _, hpos2⟩ := enrich_assign_spec operations t2 hex2
  rw [h1] at hv1
  rw [h2] at hv2
  have e1 : u1 = v1 := Option.some.inj hv1
  have e2 : u2 = v2 := Option.some.inj hv2
  subst e1 e2
  intro r hr
  obtain ⟨i, hi⟩ := List.mem_iff_getElem?.mp hr
  have hilt : i < operations.length := (List.getElem?_eq_some_iff.mp hi).1
  have hmod : (i + 1) % operations.length < operations.length := Nat.mod_lt _ (by omega)
  obtain ⟨next, hnext⟩ : ∃ next, operations[(i + 1) % operations.length]? = some next :=
    ⟨_, List.getElem?_eq_getElem hmod⟩
  obtain ⟨a1, b1, ha1, hb1, hfin1⟩ := hpos1 hnd i r next hi hnext
  obtain ⟨a2, b2, ha2, hb2, hfin2⟩ := hpos2 hnd i r next hi hnext
  rw [hagree r hr, ha1] at ha2
  have haa : a1 = a2 := Option.some.inj ha2
  obtain ⟨o2, ho2, _, hseg, _⟩ := same_static_get hst _ _ b1 hb1
  rw [hb2] at ho2
  have hbb : b2 = o2 := Option.some.inj ho2
  rw [hfin1, hfin2, haa, hbb, hseg]

theorem enrich_assign_commute (A B : List indexed_turn_operation)
    (turn_points : List turn_info)
    (hexA : ∀ r ∈ A, slot_exists turn_points r)
    (hexB : ∀ r ∈ B, slot_exists turn_points r)
    (hndA : (A.map slot_of).Nodup) (hndB : (B.map slot_of).Nodup)
    (hdisj : ∀ s ∈ A.map slot_of, s ∉ B.map slot_of) :
    ∃ tA tB tAB : List turn_info,
      enrich_assign A turn_points = some tA ∧
      enrich_assign B turn_points = some tB ∧
      enrich_assign B tA = some tAB ∧
      enrich_assign A tB = some tAB ∧
      (∀ r ∈ B, get_op tA r.turn_index r.operation_index =
        get_op turn_points r.turn_index r.operation_index) ∧
      (∀ r ∈ A, get_op tB r.turn_index r.operation_index =
        get_op turn_points r.turn_index r.operation_index) := by
  obtain ⟨tA, hA, hstA, hfrA, _, _⟩ := enrich_assign_spec A turn_points hexA
  obtain ⟨tB, hB, hstB, hfrB, _, _⟩ := enrich_assign_spec B turn_points hexB
  have hexB2 : ∀ r ∈ B, slot_exists tA r := by
    intro r hr
    unfold slot_exists
    rw [same_static_isSome hstA]
    exact hexB r hr
  have hexA2 : ∀ r ∈ A, slot_exists tB r := by
    intro r hr
    unfold slot_exists
    rw [same_static_isSome hstB]
    exact hexA r hr
  obtain ⟨tAB, hAB, _, hfrAB, _, _⟩ := enrich_assign_spec B tA hexB2
  obtain ⟨tBA, hBA, _, hfrBA, _, _⟩ := enrich_assign_spec A tB hexA2
  have hBkeep : ∀ r ∈ B, get_op tA r.turn_index r.operation_index =
      get_op turn_points r.turn_index r.operation_index := by
    intro r hr
    apply hfrA
    intro hmem
    exact hdisj _ hmem (List.mem_map.mpr ⟨r, hr, rfl⟩)
  have hAkeep : ∀ r ∈ A, get_op tB r.turn_index r.operation_index =
      get_op turn_points r.turn_index r.operation_index := by
    intro r hr
    apply hfrB
    intro hmem
    exact hdisj _ (List.mem_map.mpr ⟨r, hr, rfl⟩) hmem
  have hAslots := assign_slot_determined A turn_points tB hexA hndA hstB hAkeep tA tBA hA hBA
  have hBslots := assign_slot_determined B turn_points tA hexB hndB hstA hBkeep tB tAB hB hAB
  have heq : tBA = tAB := by
    apply turn_points_ext
    · rw [enrich_assign_frame _ _ _ hBA, enrich_assign_frame _ _ _ hB,
        enrich_assign_frame _ _ _ hAB, enrich_assign_frame _ _ _ hA]
    · intro i j
      by_cases hinA : (i, j) ∈ A.map slot_of
      · obtain ⟨r, hr, hrs⟩ := List.mem_map.mp hinA
        simp only [slot_of, Prod.mk.injEq] at hrs
        have hnotB : (i, j) ∉ B.map slot_of := hdisj _ hinA
        rw [hfrAB i j hnotB, ← hrs.1, ← hrs.2]
        exact hAslots r hr
      · by_cases hinB : (i, j) ∈ B.map slot_of
        · obtain ⟨r, hr, hrs⟩ := List.mem_map.mp hinB
          simp only [slot_of, Prod.mk.injEq] at hrs
          rw [hfrBA i j hinA, ← hrs.1, ← hrs.2]
          exact (hBslots r hr).symm
        · rw [hfrBA i j hinA, hfrB i j hinB, hfrAB i j hinB, hfrA i j hinA]
  rw [heq] at hBA
  exact ⟨tA, tB, tAB, hA, hB, hAB, hBA, hBkeep, hAkeep⟩

/-- C14: for two buckets of references to pairwise distinct slots, taken from
the buckets that `create_map` builds for two different rings (the buckets
themselves, or what sorting and redundancy elimination leave of them),
`enrich_assign` on either one returns and leaves every slot referenced by the
other untouched, and assigning the first then the second yields the same turn
container as assigning the second then the first. -/
theorem C14_ring_independence (turn_points : List turn_info) (for_operation : operation_type)
    (ring_id ring_id2 : ring_identifier) (hne : ring_id ≠ ring_id2)
    (A B : List indexed_turn_operation)
    (hA : ∀ r ∈ A, r ∈ map_bucket (create_map turn_points for_operation []) ring_id)
    (hB : ∀ r ∈ B, r ∈ map_bucket (create_map turn_points for_operation []) ring_id2)
    (hndA : (A.map slot_of).Nodup) (hndB : (B.map slot_of).Nodup) :
    ∃ tA tB tAB : List turn_info,
      enrich_assign A turn_points = some tA ∧
      enrich_assign B turn_points = some tB ∧
      enrich_assign B tA = some tAB ∧
      enrich_assign A tB = some tAB ∧
      (∀ r ∈ B, get_op tA r.turn_index r.operation_index =
        get_op turn_points r.turn_index r.operation_index) ∧
      (∀ r ∈ A, get_op tB r.turn_index r.operation_index =
        get_op turn_points r.turn_index r.operation_index) := by
  apply enrich_assign_commute
  · intro r hr
    unfold slot_exists
    rw [create_map_bucket_get_op _ _ _ r (hA r hr)]
    rfl
  · intro r hr
    unfold slot_exists
    rw [create_map_bucket_get_op _ _ _ r (hB r hr)]
    rfl
  · exact hndA
  · exact hndB
  · intro s hs h2
    obtain ⟨r1, hr1, hs1⟩ := List.mem_map.mp hs
    obtain ⟨r2, hr2, hs2⟩ := List.mem_map.mp h2
    exact create_map_bucket_slots_disjoint _ _ ring_id ring_id2 hne s
      (List.mem_map.mpr ⟨r1, hA r1 hr1, hs1⟩) (List.mem_map.mpr ⟨r2, hB r2 hr2, hs2⟩)

/-- C14 witness: the buckets of rings A and B in the two-crossings scenario. -/
theorem C14_ring_independence_witness :
    ∃ tA tB tAB : List turn_info,
      enrich_assign (map_bucket (create_map two_crossings
        operation_type.operation_union []) ring_a) two_crossings = some tA ∧
      enrich_assign (map_bucket (create_map two_crossings
        operation_type.operation_union []) ring_b) two_crossings = some tB ∧
      enrich_assign (map_bucket (create_map two_crossings
        operation_type.operation_union []) ring_b) tA = some tAB ∧
      enrich_assign (map_bucket (create_map two_crossings
        operation_type.operation_union []) ring_a) tB = some tAB ∧
      (∀ r ∈ map_bucket (create_map two_crossings operation_type.operation_union []) ring_b,
        get_op tA r.turn_index r.operation_index =
          get_op two_crossings r.turn_index r.operation_index) ∧
      (∀ r ∈ map_bucket (create_map two_crossings operation_type.operation_union []) ring_a,
        get_op tB r.turn_index r.operation_index =
          get_op two_crossings r.turn_index r.operation_index) :=
  C14_ring_independence two_crossings operation_type.operation_union ring_a ring_b (by decide)
    _ _ (fun _ h => h) (fun _ h => h) (by decide) (by decide)

/-! ### The same-segment link and the other operations of the bucket -/

/-- C13 (counterexample): ring A is crossed twice on its segment 0.  After
`enrich_assign` the operation of the second crossing, the last of the bucket,
has an empty `next_ip_index`, although the operation of the first crossing is
another operation of the same bucket with exactly the same segment identity. -/
theorem C13_last_on_segment_has_no_link :
    ¬ (∀ (operations : List indexed_turn_operation) (turn_points turn_points2 : List turn_info)
        (ring_id : ring_identifier) (i : Nat) (cur : indexed_turn_operation)
        (x : turn_operation),
        (∀ (i j : Nat) (o : turn_operation), get_op turn_points i j = some o →
          o.enriched.next_ip_index = none) →
        (operations.map slot_of).Nodup →
        (∀ r ∈ operations, ∃ o : turn_operation,
          get_op turn_points r.turn_index r.operation_index = some o ∧
          ring_of o.seg_id = ring_id) →
        enrich_assign operations turn_points = some turn_points2 →
        operations[i]? = some cur →
        get_op turn_points2 cur.turn_index cur.operation_index = some x →
        (x.enriched.next_ip_index ≠ none ↔
          ∃ (k : Nat) (other : indexed_turn_operation) (y : turn_operation),
            k ≠ i ∧ operations[k]? = some other ∧
            get_op turn_points2 other.turn_index other.operation_index = some y ∧
            y.seg_id = x.seg_id)) := by
  intro h
  have h1 := h bucket_same_segment same_segment_crossings assigned_same_segment ring_a 1
    (IndexedType 1 0 (mk_op operation_type.operation_union 0 0 (-1) 0 (mkRat 3 4))
      (mk_op operation_type.operation_intersection 1 0 (-1) 2 (mkRat 1 2)).seg_id)
    ((get_op assigned_same_segment 1 0).getD
      (mk_op operation_type.operation_none 0 0 0 0 0))
    same_segment_crossings_empty (by decide)
    (fun r hr => ⟨r.subject, create_map_bucket_get_op _ _ _ r hr,
      (mem_create_map_bucket _ _ _ r hr).choose_spec.2.2.2.2.1⟩)
    (by decide) (by decide) (by decide)
  have h2 := h1.mpr ⟨0,
    IndexedType 0 0 (mk_op operation_type.operation_intersection 0 0 (-1) 0 (mkRat 1 4))
      (mk_op operation_type.operation_union 1 0 (-1) 0 (mkRat 1 2)).seg_id,
    (get_op assigned_same_segment 0 0).getD (mk_op operation_type.operation_none 0 0 0 0 0),
    by decide, by decide, by decide, by decide⟩
  revert h2
  decide

/-- C13 (amended): on a container whose `next_ip_index` fields are all empty and
a ring bucket of references to pairwise distinct slots, after `enrich_assign`
the operation `x` at position `i` has its `next_ip_index` set if and only if the
operation at position `i + 1` (no wrap-around) has exactly the segment identity
of `x`.  So it is set only if another operation of the bucket has the same
segment identity, and, when equal segment identities are contiguous in the
bucket, if and only if such an operation comes later in the bucket; the last
operation on a segment has none. -/
theorem C13_next_link_iff_successor (operations : List indexed_turn_operation)
    (turn_points : List turn_info) (ring_id : ring_identifier)
    (hempty : ∀ (i j : Nat) (o : turn_operation), get_op turn_points i j = some o →
      o.enriched.next_ip_index = none)
    (hnd : (operations.map slot_of).Nodup)
    (hring : ∀ r ∈ operations, ∃ o : turn_operation,
      get_op turn_points r.turn_index r.operation_index = some o ∧ ring_of o.seg_id = ring_id) :
    ∃ turn_points2, enrich_assign operations turn_points = some turn_points2 ∧
      ∀ (i : Nat) (cur : indexed_turn_operation), operations[i]? = some cur →
        ∃ x : turn_operation,
          get_op turn_points2 cur.turn_index cur.operation_index = some x ∧
          (x.enriched.next_ip_index ≠ none ↔
            ∃ (next : indexed_turn_operation) (y : turn_operation),
              operations[i + 1]? = some next ∧
              get_op turn_points2 next.turn_index next.operation_index = some y ∧
              y.seg_id = x.seg_id) ∧
          (x.enriched.next_ip_index ≠ none →
            ∃ (k : Nat) (other : indexed_turn_operation) (y : turn_operation),
              k ≠ i ∧ operations[k]? = some other ∧
              get_op turn_points2 other.turn_index other.operation_index = some y ∧
              y.seg_id = x.seg_id) ∧
          ((∀ (k l : Nat) (b c : indexed_turn_operation) (ob oc : turn_operation),
              i < k → k < l → operations[k]? = some b → operations[l]? = some c →
              get_op turn_points2 b.turn_index b.operation_index = some ob →
              get_op turn_points2 c.turn_index c.operation_index = some oc →
              oc.seg_id = x.seg_id → ob.seg_id = x.seg_id) →
            (x.enriched.next_ip_index ≠ none ↔
              ∃ (k : Nat) (other : indexed_turn_operation) (y : turn_operation),
                i < k ∧ operations[k]? = some other ∧
                get_op turn_points2 other.turn_index other.operation_index = some y ∧
                y.seg_id = x.seg_id)) := by
  obtain ⟨turn_points2, hrun, hcore⟩ :=
    same_segment_link_core operations turn_points ring_id hempty hnd hring
  have hex : ∀ r ∈ operations,
      (get_op turn_points r.turn_index r.operation_index).isSome = true := by
    intro r hr
    obtain ⟨o, ho, _⟩ := hring r hr
    rw [ho]; rfl
  obtain ⟨v, hv, hst, _⟩ := enrich_assign_spec operations turn_points hex
  rw [hrun] at hv
  have hvv : turn_points2 = v := Option.some.inj hv
  subst hvv
  refine ⟨turn_points2, hrun, ?_⟩
  intro i cur hcur
  obtain ⟨x, hx, hiff, _, _⟩ := hcore i cur hcur
  refine ⟨x, hx, hiff, ?_, ?_⟩
  · intro hne
    obtain ⟨next, y, hn, hy, hseg⟩ := hiff.mp hne
    exact ⟨i + 1, next, y, by omega, hn, hy, hseg⟩
  · intro hcont
    constructor
    · intro hne
      obtain ⟨next, y, hn, hy, hseg⟩ := hiff.mp hne
      exact ⟨i + 1, next, y, by omega, hn, hy, hseg⟩
    · rintro ⟨k, other, y, hik, hk, hy, hseg⟩
      apply hiff.mpr
      by_cases hk1 : k = i + 1
      · subst hk1
        exact ⟨other, y, hk, hy, hseg⟩
      · have hklt : k < operations.length := (List.getElem?_eq_some_iff.mp hk).1
        have hlt : i + 1 < operations.length := by omega
        obtain ⟨next, hn⟩ : ∃ next, operations[i + 1]? = some next :=
          ⟨_, List.getElem?_eq_getElem hlt⟩
        obtain ⟨onext, honext⟩ := Option.isSome_iff_exists.mp
          (by rw [same_static_isSome hst]; exact hex next (List.getElem?_mem hn) :
            (get_op turn_points2 next.turn_index next.operation_index).isSome = true)
        exact ⟨next, onext, hn, honext,
          hcont (i + 1) k next other onext y (by omega) (by omega) hn hk honext hy hseg⟩

/-- C13 witness: ring A crossed twice on one segment. -/
theorem C13_next_link_iff_successor_witness :
    ∃ turn_points2, enrich_assign bucket_same_segment same_segment_crossings =
        some turn_points2 ∧
      ∀ (i : Nat) (cur : indexed_turn_operation), bucket_same_segment[i]? = some cur →
        ∃ x : turn_operation,
          get_op turn_points2 cur.turn_index cur.operation_index = some x ∧
          (x.enriched.next_ip_index ≠ none ↔
            ∃ (next : indexed_turn_operation) (y : turn_operation),
              bucket_same_segment[i + 1]? = some next ∧
              get_op turn_points2 next.turn_index next.operation_index = some y ∧
              y.seg_id = x.seg_id) := by
  obtain ⟨turn_points2, h1, h2⟩ :=
    C13_next_link_iff_successor bucket_same_segment same_segment_crossings ring_a
      same_segment_crossings_empty (by decide)
      (fun r hr => ⟨r.subject, create_map_bucket_get_op _ _ _ r hr,
        (mem_create_map_bucket _ _ _ r hr).choose_spec.2.2.2.2.1⟩)
  refine ⟨turn_points2, h1, ?_⟩
  intro i cur hcur
  obtain ⟨x, hx, hiff, _⟩ := h2 i cur hcur
  exact ⟨x, hx, hiff⟩

/-! ### One step of the scan of `skip_after_ii` -/

theorem skip_after_ii_loop_step (S : Strategies) (turn_points : List turn_info)
    (cluster_toi it : indexed_turn_operation) (rest : List indexed_turn_operation)
    (cluster_turn turn : turn_info) (cluster_op cluster_other_op op other_op : turn_operation)
    (hct : turn_points[cluster_toi.turn_index]? = some cluster_turn)
    (hcop : cluster_turn.op cluster_toi.operation_index = some cluster_op)
    (hcother : cluster_turn.op (1 - cluster_toi.operation_index) = some cluster_other_op)
    (ht : turn_points[it.turn_index]? = some turn)
    (hop : turn.op it.operation_index = some op)
    (hother : turn.op (1 - it.operation_index) = some other_op) :
    skip_after_ii_loop S turn_points cluster_toi (it :: rest) =
      (skip_after_ii_loop S turn_points
        (if (cluster_turn.both operation_type.operation_intersection
            && decide (cluster_op.seg_id = op.seg_id)
            && decide (cluster_op.fraction = op.fraction)) = true
          then cluster_toi else it) rest).map
        (fun rest1 =>
          (if (cluster_turn.both operation_type.operation_intersection
              && decide (cluster_op.seg_id = op.seg_id)
              && decide (cluster_op.fraction = op.fraction)
              && S.is_b_independent cluster_op cluster_other_op op other_op) = true
            then { it with skip := true } else it) :: rest1) := by
  conv => lhs; unfold skip_after_ii_loop
  simp only [hct, hcop, hcother, ht, hop, hother, Option.bind_eq_bind, Option.some_bind]
  by_cases hm : (cluster_turn.both operation_type.operation_intersection
      && decide (cluster_op.seg_id = op.seg_id)
      && decide (cluster_op.fraction = op.fraction)) = true
  · rw [if_pos hm, if_pos hm]
    cases skip_after_ii_loop S turn_points cluster_toi rest with
    | none => rfl
    | some rest1 =>
      simp only [Option.some_bind, Option.map_some', hm, Bool.true_and]
  · rw [if_neg hm, if_neg hm]
    simp only [Bool.not_eq_true] at hm
    cases skip_after_ii_loop S turn_points it rest with
    | none => rfl
    | some rest1 =>
      simp only [Option.some_bind, Option.map_some', hm, Bool.false_and,
        Bool.false_eq_true, if_false]

/-- C15 (counterexample): the anchor's turn is both-intersection, the current
reference's own turn is not (its other operation is a union), both operations
lie at the same place of the same segment and the side sorter reports
independence: `skip_after_ii` marks the current reference and keeps the anchor,
although the condition of the claim does not hold. -/
theorem C15_marked_without_both_ii :
    ¬ (∀ (S : Strategies) (turn_points : List turn_info)
        (cluster_toi it : indexed_turn_operation)
        (rest result : List indexed_turn_operation),
        slot_exists turn_points cluster_toi → slot_exists turn_points it → it.skip = false →
        skip_after_ii_loop S turn_points cluster_toi (it :: rest) = some result →
        ∃ (it1 : indexed_turn_operation) (rest1 : List indexed_turn_operation),
          result = it1 :: rest1 ∧
          (it1.skip = true ↔ skip_condition_spec S turn_points cluster_toi it = true)) := by
  intro h
  obtain ⟨it1, rest1, hres, hiff⟩ := h (example_strategies true) colocated_iu iu_first iu_second
    [] [{ iu_second with skip := true }] (by decide) (by decide) (by decide) (by decide)
  simp only [List.cons.injEq] at hres
  rw [← hres.1] at hiff
  revert hiff
  decide

/-- C15 (amended): in one step of the scan, with anchor `cluster_toi` and
current reference `it` (their slots exist), the current reference is marked skip
if and only if the anchor's turn is a both-intersection turn, the anchor's
operation and the current operation have identical segment identity and
identical fraction, and the side sorter reports the current one independent; the
current reference's own turn is not examined.  The scan goes on with the
current reference as anchor exactly when it is not the case that the anchor's
turn is both-intersection with identical segment identity and fraction. -/
theorem C15_skip_condition (S : Strategies) (turn_points : List turn_info)
    (cluster_toi it : indexed_turn_operation) (rest : List indexed_turn_operation)
    (cluster_turn turn : turn_info) (cluster_op cluster_other_op op other_op : turn_operation)
    (hct : turn_points[cluster_toi.turn_index]? = some cluster_turn)
    (hcop : cluster_turn.op cluster_toi.operation_index = some cluster_op)
    (hcother : cluster_turn.op (1 - cluster_toi.operation_index) = some cluster_other_op)
    (ht : turn_points[it.turn_index]? = some turn)
    (hop : turn.op it.operation_index = some op)
    (hother : turn.op (1 - it.operation_index) = some other_op)
    (hskip : it.skip = false)
    (hrest : ∀ r ∈ rest, slot_exists turn_points r) :
    ∃ (it1 : indexed_turn_operation) (rest1 : List indexed_turn_operation),
      skip_after_ii_loop S turn_points cluster_toi (it :: rest) = some (it1 :: rest1) ∧
      (it1.skip = true ↔
        (cluster_turn.both operation_type.operation_intersection = true ∧
          cluster_op.seg_id = op.seg_id ∧ cluster_op.fraction = op.fraction ∧
          S.is_b_independent cluster_op cluster_other_op op other_op = true)) ∧
      (it1.skip = true → it1 = { it with skip := true }) ∧
      (it1.skip = false → it1 = it) ∧
      ((cluster_turn.both operation_type.operation_intersection = true ∧
          cluster_op.seg_id = op.seg_id ∧ cluster_op.fraction = op.fraction) →
        skip_after_ii_loop S turn_points cluster_toi rest = some rest1) ∧
      (¬ (cluster_turn.both operation_type.operation_intersection = true ∧
          cluster_op.seg_id = op.seg_id ∧ cluster_op.fraction = op.fraction) →
        skip_after_ii_loop S turn_points it rest = some rest1) := by
  have hstep := skip_after_ii_loop_step S turn_points cluster_toi it rest cluster_turn turn
    cluster_op cluster_other_op op other_op hct hcop hcother ht hop hother
  have hc : slot_exists turn_points cluster_toi := by
    unfold slot_exists get_op
    rw [hct]; simp only []; rw [hcop]; rfl
  have hi : slot_exists turn_points it := by
    unfold slot_exists get_op
    rw [ht]; simp only []; rw [hop]; rfl
  by_cases hm : (cluster_turn.both operation_type.operation_intersection
      && decide (cluster_op.seg_id = op.seg_id)
      && decide (cluster_op.fraction = op.fraction)) = true
  · have hm2 : cluster_turn.both operation_type.operation_intersection = true ∧
        cluster_op.seg_id = op.seg_id ∧ cluster_op.fraction = op.fraction := by
      simp only [Bool.and_eq_true, decide_eq_true_eq] at hm
      exact ⟨hm.1.1, hm.1.2, hm.2⟩
    rw [if_pos hm, skip_after_ii_loop_eq S turn_points rest cluster_toi hc hrest] at hstep
    simp only [Option.map_some', hm, Bool.true_and] at hstep
    refine ⟨_, _, hstep, ?_, ?_, ?_, ?_, ?_⟩
    · by_cases hs : S.is_b_independent cluster_op cluster_other_op op other_op = true
      · simp [hs, hm2]
      · simp [hs, hskip]
    · by_cases hs : S.is_b_independent cluster_op cluster_other_op op other_op = true
      · simp [hs]
      · simp [hs, hskip]
    · by_cases hs : S.is_b_independent cluster_op cluster_other_op op other_op = true
      · simp [hs]
      · simp [hs]
    · intro _
      exact skip_after_ii_loop_eq S turn_points rest cluster_toi hc hrest
    · intro hn
      exact absurd hm2 hn
  · have hm2 : ¬ (cluster_turn.both operation_type.operation_intersection = true ∧
        cluster_op.seg_id = op.seg_id ∧ cluster_op.fraction = op.fraction) := by
      intro h
      apply hm
      simp only [Bool.and_eq_true, decide_eq_true_eq]
      exact ⟨⟨h.1, h.2.1⟩, h.2.2⟩
    rw [if_neg hm, skip_after_ii_loop_eq S turn_points rest it hi hrest] at hstep
    simp only [Bool.not_eq_true] at hm
    simp only [Option.map_some', hm, Bool.false_and, Bool.false_eq_true, if_false] at hstep
    refine ⟨_, _, hstep, ?_, ?_, ?_, ?_, ?_⟩
    · rw [hskip]
      constructor
      · intro h; simp at h
      · intro h; exact absurd ⟨h.1, h.2.1, h.2.2.1⟩ hm2
    · intro h; rw [hskip] at h; simp at h
    · intro _; rfl
    · intro h; exact absurd h hm2
    · intro _
      exact skip_after_ii_loop_eq S turn_points rest it hi hrest

/-- C15 witness: the step of the counterexample scenario; the current reference
is marked and the anchor is kept. -/
theorem C15_skip_condition_witness :
    ∃ (it1 : indexed_turn_operation) (rest1 : List indexed_turn_operation),
      skip_after_ii_loop (example_strategies true) colocated_iu iu_first [iu_second] =
        some (it1 :: rest1) ∧ it1.skip = true := by
  obtain ⟨it1, rest1, h1, h2, _⟩ := C15_skip_condition (example_strategies true) colocated_iu
    iu_first iu_second []
    (mk_turn false (mk_op operation_type.operation_intersection 0 0 (-1) 0 (mkRat 1 2))
      (mk_op operation_type.operation_intersection 1 0 (-1) 0 1))
    (mk_turn false (mk_op operation_type.operation_intersection 0 0 (-1) 0 (mkRat 1 2))
      (mk_op operation_type.operation_union 1 0 (-1) 1 0))
    (mk_op operation_type.operation_intersection 0 0 (-1) 0 (mkRat 1 2))
    (mk_op operation_type.operation_intersection 1 0 (-1) 0 1)
    (mk_op operation_type.operation_intersection 0 0 (-1) 0 (mkRat 1 2))
    (mk_op operation_type.operation_union 1 0 (-1) 1 0)
    rfl rfl rfl rfl rfl rfl rfl (by simp)
  exact ⟨it1, rest1, h1, h2.mpr (by decide)⟩

/-! ### The result of `enrich_sort` -/

theorem skip_marks_marked_from (S : Strategies) (turn_points : List turn_info)
    (rest : List indexed_turn_operation) :
    ∀ cluster_toi : indexed_turn_operation,
      List.Forall₂ marked_from rest (skip_marks S turn_points cluster_toi rest) := by
  induction rest with
  | nil => intro _; exact List.Forall₂.nil
  | cons it rest ih =>
    intro cluster_toi
    by_cases hm : ii_match turn_points cluster_toi it = true
    · rw [skip_marks_cons_match _ _ _ _ _ hm]
      refine List.Forall₂.cons ?_ (ih cluster_toi)
      by_cases hs : side_independent S turn_points cluster_toi it = true
      · rw [if_pos hs]; exact Or.inr rfl
      · rw [if_neg hs]; exact Or.inl rfl
    · rw [skip_marks_cons_no_match _ _ _ _ _ hm]
      exact List.Forall₂.cons (Or.inl rfl) (ih it)

theorem skip_after_ii_eq (S : Strategies) (turn_points : List turn_info)
    (cluster_toi : indexed_turn_operation) (rest : List indexed_turn_operation)
    (hex : ∀ r ∈ cluster_toi :: rest, slot_exists turn_points r) :
    skip_after_ii S turn_points (cluster_toi :: rest) =
      some (cluster_toi :: skip_marks S turn_points cluster_toi rest) := by
  unfold skip_after_ii
  simp only [Option.bind_eq_bind]
  rw [skip_after_ii_loop_eq S turn_points rest cluster_toi (hex _ (by simp))
    (fun r hr => hex r (by simp [hr]))]
  rfl

/-- C16: on a non-empty bucket whose slots exist, with a sort that permutes its
input, `enrich_sort` returns the sorted bucket with the references marked by
`skip_after_ii` filtered out: the marked list is the sorted bucket with some
skip marks set, the result is what is not marked, a sublist of the sorted bucket
(so in the same relative order), every remaining reference was in the input and
is not marked, every removed one is marked, and any order relation that holds
pairwise in the sorted bucket still holds in the result. -/
theorem C16_enrich_sort_result (S : Strategies) (hS : sort_permutes S)
    (operations : List indexed_turn_operation) (turn_points : List turn_info)
    (for_operation : operation_type)
    (hex : ∀ r ∈ operations, slot_exists turn_points r) (hne : operations ≠ []) :
    ∃ marked result : List indexed_turn_operation,
      skip_after_ii S turn_points (S.sort turn_points for_operation operations) = some marked ∧
      enrich_sort S operations turn_points for_operation = some result ∧
      List.Forall₂ marked_from (S.sort turn_points for_operation operations) marked ∧
      result = marked.filter (fun toi => !skip_operation toi) ∧
      result.Sublist (S.sort turn_points for_operation operations) ∧
      (∀ r ∈ result, r ∈ operations ∧ r.skip = false) ∧
      (∀ r ∈ marked, r ∉ result → r.skip = true) ∧
      (∀ rel : indexed_turn_operation → indexed_turn_operation → Prop,
        (S.sort turn_points for_operation operations).Pairwise rel → result.Pairwise rel) := by
  have hperm := hS turn_points for_operation operations
  obtain ⟨result, hres, hsub⟩ := enrich_sort_some S hS operations turn_points for_operation
    hex hne
  cases hsort : S.sort turn_points for_operation operations with
  | nil =>
    rw [hsort] at hperm
    exact absurd (List.Perm.eq_nil hperm.symm) hne
  | cons cluster_toi rest =>
    have hex2 : ∀ r ∈ cluster_toi :: rest, slot_exists turn_points r := by
      intro r hr
      rw [← hsort] at hr
      exact hex r (hperm.mem_iff.mp hr)
    have hres2 := enrich_sort_eq S hS operations turn_points for_operation hex cluster_toi rest
      hsort
    rw [hres] at hres2
    have hresult := Option.some.inj hres2
    rw [hsort] at hsub
    refine ⟨cluster_toi :: skip_marks S turn_points cluster_toi rest, result,
      skip_after_ii_eq S turn_points cluster_toi rest hex2, hres,
      List.Forall₂.cons (Or.inl rfl) (skip_marks_marked_from S turn_points rest cluster_toi),
      hresult, hsub, ?_, ?_, ?_⟩
    · intro r hr
      refine ⟨?_, ?_⟩
      · rw [← hsort] at hsub
        exact hperm.mem_iff.mp (hsub.subset hr)
      · rw [hresult, List.mem_filter] at hr
        simpa [skip_operation] using hr.2
    · intro r hr hnot
      rw [hresult, List.mem_filter, not_and] at hnot
      have := hnot hr
      simpa [skip_operation] using this
    · intro rel hrel
      exact hrel.sublist hsub

/-- C16 witness: the bucket of the colocated scenario with a side sorter
reporting independence. -/
theorem C16_enrich_sort_result_witness :
    ∃ marked result : List indexed_turn_operation,
      skip_after_ii (example_strategies true) colocated_ii
        ((example_strategies true).sort colocated_ii operation_type.operation_intersection
          bucket_colocated) = some marked ∧
      enrich_sort (example_strategies true) bucket_colocated colocated_ii
        operation_type.operation_intersection = some result ∧
      result = marked.filter (fun toi => !skip_operation toi) ∧
      result.Sublist ((example_strategies true).sort colocated_ii
        operation_type.operation_intersection bucket_colocated) ∧
      (∀ r ∈ result, r ∈ bucket_colocated ∧ r.skip = false) ∧
      (∀ r ∈ marked, r ∉ result → r.skip = true) := by
  obtain ⟨marked, result, h1, h2, _, h4, h5, h6, h7, _⟩ :=
    C16_enrich_sort_result (example_strategies true) (example_strategies_permutes true)
      bucket_colocated colocated_ii operation_type.operation_intersection
      (fun r hr => by
        unfold slot_exists
        rw [create_map_bucket_get_op _ _ _ r hr]
        rfl)
      (by decide)
  exact ⟨marked, result, h1, h2, h4, h5, h6, h7⟩

/-! ### What `enrich_assign` leaves unchanged -/

theorem assign_passes_it (operations : List indexed_turn_operation) :
    ∀ (first : Bool) (prev : indexed_turn_operation), ∀ r ∈ operations,
      ∃ w ∈ assign_passes first prev operations, w.it = r := by
  induction operations with
  | nil => intro _ _ r hr; simp at hr
  | cons it rest ih =>
    intro first prev r hr
    rw [List.mem_cons] at hr
    rcases hr with hr | hr
    · subst hr
      exact ⟨_, assign_passes_head first prev r rest, rfl⟩
    · obtain ⟨w, hw, hwr⟩ := ih false it r hr
      refine ⟨w, ?_, hwr⟩
      simp only [assign_passes, List.mem_cons]
      exact Or.inr hw

theorem enrich_assign_step_some (first : Bool) (prev it : indexed_turn_operation)
    (turn_points turn_points1 : List turn_info)
    (h : enrich_assign_step first prev it turn_points = some turn_points1) :
    (get_op turn_points prev.turn_index prev.operation_index).isSome = true ∧
    (get_op turn_points it.turn_index it.operation_index).isSome = true := by
  unfold enrich_assign_step at h
  cases ha : get_op turn_points prev.turn_index prev.operation_index with
  | none => rw [ha] at h; simp at h
  | some a =>
    cases hb : get_op turn_points it.turn_index it.operation_index with
    | none => rw [ha, hb] at h; simp at h
    | some b => exact ⟨rfl, rfl⟩

theorem run_passes_valid (ws : List assign_pass) :
    ∀ turn_points turn_points2 : List turn_info,
      run_passes ws turn_points = some turn_points2 →
      ∀ w ∈ ws, pass_valid turn_points w := by
  induction ws with
  | nil => intro _ _ _ w hw; simp at hw
  | cons w0 ws ih =>
    intro turn_points turn_points2 h w hw
    unfold run_passes at h
    cases hstep : enrich_assign_step w0.first w0.prev w0.it turn_points with
    | none => rw [hstep] at h; simp at h
    | some turn_points1 =>
      rw [hstep] at h
      simp only [] at h
      have hv0 := enrich_assign_step_some _ _ _ _ _ hstep
      rw [List.mem_cons] at hw
      rcases hw with hw | hw
      · subst hw
        exact hv0
      · have hv := ih turn_points1 turn_points2 h w hw
        obtain ⟨a, ha⟩ := Option.isSome_iff_exists.mp hv0.1
        obtain ⟨b, hb⟩ := Option.isSome_iff_exists.mp hv0.2
        obtain ⟨u, hu, h1, h2⟩ := enrich_assign_step_spec w0.first w0.prev w0.it turn_points
          a b ha hb
        rw [hstep] at hu
        have huu : turn_points1 = u := Option.some.inj hu
        subst huu
        have hst := enrich_assign_step_static w0.first w0.prev w0.it turn_points turn_points1
          a ha _ h1 h2
        unfold pass_valid at hv ⊢
        rw [same_static_isSome hst, same_static_isSome hst] at hv
        exact hv

theorem enrich_assign_slots_exist (operations : List indexed_turn_operation)
    (turn_points turn_points2 : List turn_info)
    (h : enrich_assign operations turn_points = some turn_points2) :
    ∀ r ∈ operations, slot_exists turn_points r := by
  intro r hr
  unfold enrich_assign at h
  have hpos : operations.length > 0 := List.length_pos.mpr (List.ne_nil_of_mem hr)
  rw [if_pos hpos] at h
  cases hlast : operations[operations.length - 1]? with
  | none => rw [hlast] at h; simp at h
  | some last =>
    rw [hlast] at h
    simp only [Option.bind_eq_bind, Option.some_bind] at h
    rw [enrich_assign_loop_eq] at h
    obtain ⟨w, hw, hwr⟩ := assign_passes_it operations true last r hr
    have hv := run_passes_valid _ _ _ h w hw
    rw [← hwr]
    exact hv.2

/-- C17: per-ring processing changes nothing but enrichment fields of
referenced operations.  Whenever `enrich_assign` returns, the container keeps
its length, every turn keeps its point, method and discard flag, every operation
keeps its kind, segment identity and fraction, and every operation not
referenced by the bucket is unchanged altogether.  `enrich_sort` and
`skip_after_ii` are handed the container and return a bucket only: the
assignment loop of `enrich_intersection_points` runs on exactly the container
that `create_map` saw, and through the whole of the sequencing and assignment
loops the same frame holds between that container and the result, the
operations referenced by no sequenced bucket being unchanged. -/
theorem C17_frame_of_ring_processing (S : Strategies) (hS : sort_permutes S)
    (turn_points : List turn_info) (for_operation : operation_type)
    (operations : List indexed_turn_operation) (t1 t2 : List turn_info)
    (hassign : enrich_assign operations t1 = some t2) :
    (t2.length = t1.length ∧
      t2.map turn_frame = t1.map turn_frame ∧
      same_static t1 t2 ∧
      (∀ i j : Nat, (i, j) ∉ operations.map slot_of → get_op t2 i j = get_op t1 i j)) ∧
    (∃ m1 turn_points2,
      sequenced_map S turn_points for_operation = some m1 ∧
      enrich_intersection_points S turn_points for_operation = some turn_points2 ∧
      enrich_assign_all m1 (prepared_turns S turn_points for_operation) = some turn_points2 ∧
      turn_points2.length = (prepared_turns S turn_points for_operation).length ∧
      turn_points2.map turn_frame =
        (prepared_turns S turn_points for_operation).map turn_frame ∧
      same_static (prepared_turns S turn_points for_operation) turn_points2 ∧
      (∀ i j : Nat, (i, j) ∉ all_slots m1 →
        get_op turn_points2 i j =
          get_op (prepared_turns S turn_points for_operation) i j)) := by
  constructor
  · obtain ⟨u, hu, hst, hframe, _⟩ := enrich_assign_spec operations t1
      (enrich_assign_slots_exist operations t1 t2 hassign)
    rw [hassign] at hu
    have huu : t2 = u := Option.some.inj hu
    subst huu
    exact ⟨same_static_length hst, enrich_assign_frame _ _ _ hassign, hst, hframe⟩
  · obtain ⟨m1, turn_points2, hseq, hrun, _, _, hst, hframe, _⟩ :=
      enrich_end_to_end S hS turn_points for_operation
    have hrun2 := hrun
    unfold enrich_intersection_points at hrun2
    simp only [hseq, Option.bind_eq_bind, Option.some_bind] at hrun2
    exact ⟨m1, turn_points2, hseq, hrun, hrun2, same_static_length hst,
      enrich_assign_all_frame m1 _ _ hrun2, hst, hframe⟩

/-- C17 witness: the two-crossings scenario and the bucket of ring A. -/
theorem C17_frame_of_ring_processing_witness :
    ((Option.getD (enrich_assign bucket_a two_crossings) []).length = two_crossings.length ∧
      (Option.getD (enrich_assign bucket_a two_crossings) []).map turn_frame =
        two_crossings.map turn_frame ∧
      same_static two_crossings (Option.getD (enrich_assign bucket_a two_crossings) []) ∧
      (∀ i j : Nat, (i, j) ∉ bucket_a.map slot_of →
        get_op (Option.getD (enrich_assign bucket_a two_crossings) []) i j =
          get_op two_crossings i j)) :=
  (C17_frame_of_ring_processing (example_strategies true) (example_strategies_permutes true)
    two_crossings operation_type.operation_union bucket_a two_crossings
    (Option.getD (enrich_assign bucket_a two_crossings) []) (by decide)).1

/-! ### Segment index against segment identity -/

theorem enrich_assign_step_identity_eq (first : Bool) (prev it : indexed_turn_operation)
    (turn_points : List turn_info) (ring_id : ring_identifier)
    (hprev : ∀ o, get_op turn_points prev.turn_index prev.operation_index = some o →
      ring_of o.seg_id = ring_id)
    (hit : ∀ o, get_op turn_points it.turn_index it.operation_index = some o →
      ring_of o.seg_id = ring_id) :
    enrich_assign_step first prev it turn_points =
      enrich_assign_step_by_identity first prev it turn_points := by
  unfold enrich_assign_step enrich_assign_step_by_identity
  cases ha : get_op turn_points prev.turn_index prev.operation_index with
  | none => rfl
  | some a =>
    cases hb : get_op turn_points it.turn_index it.operation_index with
    | none => rfl
    | some b =>
      simp only [Option.bind_eq_bind, Option.some_bind]
      have hdec : decide (a.seg_id.segment_index = b.seg_id.segment_index) =
          decide (a.seg_id = b.seg_id) := by
        by_cases hs : a.seg_id.segment_index = b.seg_id.segment_index
        · have := seg_id_eq_of_ring a.seg_id b.seg_id (by rw [hprev a ha, hit b hb]) hs
          simp [hs, this]
        · have hne : ¬ a.seg_id = b.seg_id := fun h => hs (by rw [h])
          simp [hs, hne]
      rw [hdec]

theorem enrich_assign_loop_identity_eq (ring_id : ring_identifier)
    (operations : List indexed_turn_operation) :
    ∀ (first : Bool) (prev : indexed_turn_operation) (turn_points : List turn_info),
      (∀ r ∈ prev :: operations, ∀ o,
        get_op turn_points r.turn_index r.operation_index = some o →
        ring_of o.seg_id = ring_id) →
      enrich_assign_loop first prev operations turn_points =
        enrich_assign_loop_by_identity first prev operations turn_points := by
  induction operations with
  | nil => intro _ _ _ _; rfl
  | cons it rest ih =>
    intro first prev turn_points hring
    unfold enrich_assign_loop enrich_assign_loop_by_identity
    rw [← enrich_assign_step_identity_eq first prev it turn_points ring_id
      (hring prev (by simp)) (hring it (by simp))]
    cases hstep : enrich_assign_step first prev it turn_points with
    | none => rfl
    | some turn_points1 =>
      simp only [Option.bind_eq_bind, Option.some_bind]
      apply ih false it turn_points1
      intro r hr o ho
      have hv := enrich_assign_step_some _ _ _ _ _ hstep
      obtain ⟨a, ha⟩ := Option.isSome_iff_exists.mp hv.1
      obtain ⟨b, hb⟩ := Option.isSome_iff_exists.mp hv.2
      obtain ⟨u, hu, h1, h2⟩ := enrich_assign_step_spec first prev it turn_points a b ha hb
      rw [hstep] at hu
      have huu : turn_points1 = u := Option.some.inj hu
      subst huu
      have hst := enrich_assign_step_static first prev it turn_points turn_points1 a ha _ h1 h2
      obtain ⟨o0, ho0, _, hseg, _⟩ := same_static_get_back hst _ _ o ho
      rw [hseg]
      exact hring r (by simp only [List.mem_cons] at hr ⊢; tauto) o0 ho0

theorem enrich_assign_identity_eq (ring_id : ring_identifier)
    (operations : List indexed_turn_operation) (turn_points : List turn_info)
    (hring : ∀ r ∈ operations, ∀ o,
      get_op turn_points r.turn_index r.operation_index = some o →
      ring_of o.seg_id = ring_id) :
    enrich_assign operations turn_points = enrich_assign_by_identity operations turn_points := by
  unfold enrich_assign enrich_assign_by_identity
  by_cases hpos : operations.length > 0
  · rw [if_pos hpos, if_pos hpos]
    cases hlast : operations[operations.length - 1]? with
    | none => rfl
    | some last =>
      simp only [Option.bind_eq_bind, Option.some_bind]
      apply enrich_assign_loop_identity_eq ring_id
      intro r hr o ho
      rw [List.mem_cons] at hr
      rcases hr with hr | hr
      · rw [hr] at ho
        exact hring last (List.getElem?_mem hlast) o ho
      · exact hring r hr o ho
  · rw [if_neg hpos, if_neg hpos]

/-- C18: in a bucket produced by `create_map` all operations share source,
multi and ring index, so for any two references of one bucket the segment
indices are equal if and only if the whole segment identities are equal; hence
on any selection of references from such a bucket, and on any container with
the same segment identities as the one `create_map` saw, `enrich_assign` (which
compares `segment_index` only) does exactly what the Link Assigner with the
spec's condition on the whole segment identity does. -/
theorem C18_segment_index_test_agrees (turn_points : List turn_info)
    (for_operation : operation_type) (ring_id : ring_identifier)
    (operations : List indexed_turn_operation) (t1 : List turn_info)
    (hsel : ∀ r ∈ operations, r ∈ map_bucket (create_map turn_points for_operation []) ring_id)
    (hst : same_static turn_points t1) :
    (∀ r1 ∈ map_bucket (create_map turn_points for_operation []) ring_id,
      ∀ r2 ∈ map_bucket (create_map turn_points for_operation []) ring_id,
        get_op turn_points r1.turn_index r1.operation_index = some r1.subject ∧
        get_op turn_points r2.turn_index r2.operation_index = some r2.subject ∧
        (r1.subject.seg_id.segment_index = r2.subject.seg_id.segment_index ↔
          r1.subject.seg_id = r2.subject.seg_id)) ∧
    enrich_assign operations t1 = enrich_assign_by_identity operations t1 := by
  constructor
  · intro r1 hr1 r2 hr2
    refine ⟨create_map_bucket_get_op _ _ _ r1 hr1, create_map_bucket_get_op _ _ _ r2 hr2, ?_⟩
    have h1 := (mem_create_map_bucket _ _ _ r1 hr1).choose_spec.2.2.2.2.1
    have h2 := (mem_create_map_bucket _ _ _ r2 hr2).choose_spec.2.2.2.2.1
    constructor
    · intro hs
      exact seg_id_eq_of_ring _ _ (by rw [h1, h2]) hs
    · intro h; rw [h]
  · apply enrich_assign_identity_eq ring_id
    intro r hr o ho
    obtain ⟨o0, ho0, _, hseg, _⟩ := same_static_get_back hst _ _ o ho
    rw [create_map_bucket_get_op _ _ _ r (hsel r hr)] at ho0
    have h1 := (mem_create_map_bucket _ _ _ r (hsel r hr)).choose_spec.2.2.2.2.1
    rw [hseg, ← Option.some.inj ho0]
    exact h1

/-- C18 witness: the bucket of ring A crossed twice on one segment. -/
theorem C18_segment_index_test_agrees_witness :
    enrich_assign bucket_same_segment same_segment_crossings =
      enrich_assign_by_identity bucket_same_segment same_segment_crossings :=
  (C18_segment_index_test_agrees same_segment_crossings operation_type.operation_union ring_a
    bucket_same_segment same_segment_crossings (fun _ h => h) (same_static_refl _)).2

/-! ### Targets of the links -/

theorem frame_getElem (t1 t2 : List turn_info) (h : t2.map turn_frame = t1.map turn_frame)
    (k : Nat) (turn : turn_info) (hk : t1[k]? = some turn) :
    ∃ turn2, t2[k]? = some turn2 ∧ turn2.discarded = turn.discarded := by
  have hf : (t2.map turn_frame)[k]? = (t1.map turn_frame)[k]? := by rw [h]
  rw [List.getElem?_map, List.getElem?_map, hk] at hf
  cases h2 : t2[k]? with
  | none => rw [h2] at hf; simp at hf
  | some turn2 =>
    rw [h2] at hf
    simp only [Option.map_some', Option.some.injEq, turn_frame, Prod.mk.injEq] at hf
    exact ⟨turn2, rfl, hf.2.2⟩

theorem points_at_kept_turn_of (turn_points : List turn_info) (k : Nat) (turn : turn_info)
    (hk : turn_points[k]? = some turn) (hd : turn.discarded = false) :
    points_at_kept_turn turn_points (some (k : Int)) = true := by
  unfold points_at_kept_turn
  simp [hk, hd]

/-- C19: with a sort that permutes its input, `enrich_intersection_points`
returns, and for every reference left in a sequenced bucket the operation ends
with a `travels_to_ip_index` that is the index of an existing turn not discarded
when the buckets were built, and not discarded in the result either; its
`next_ip_index` is either what it was before or such an index too.  Operations
referenced by no sequenced bucket are not written at all. -/
theorem C19_links_point_at_kept_turns (S : Strategies) (hS : sort_permutes S)
    (turn_points : List turn_info) (for_operation : operation_type) :
    ∃ m1 turn_points2,
      sequenced_map S turn_points for_operation = some m1 ∧
      enrich_intersection_points S turn_points for_operation = some turn_points2 ∧
      turn_points2.length = (prepared_turns S turn_points for_operation).length ∧
      (∀ e ∈ m1, ∀ r ∈ e.2, ∃ o o0 : turn_operation,
        get_op turn_points2 r.turn_index r.operation_index = some o ∧
        get_op (prepared_turns S turn_points for_operation)
          r.turn_index r.operation_index = some o0 ∧
        points_at_kept_turn (prepared_turns S turn_points for_operation)
          o.enriched.travels_to_ip_index = true ∧
        points_at_kept_turn turn_points2 o.enriched.travels_to_ip_index = true ∧
        (o.enriched.next_ip_index = o0.enriched.next_ip_index ∨
          (points_at_kept_turn (prepared_turns S turn_points for_operation)
              o.enriched.next_ip_index = true ∧
            points_at_kept_turn turn_points2 o.enriched.next_ip_index = true))) ∧
      (∀ i j : Nat, (i, j) ∉ all_slots m1 →
        get_op turn_points2 i j =
          get_op (prepared_turns S turn_points for_operation) i j) := by
  obtain ⟨m1, turn_points2, hseq, hrun, hall, _, hst, hframe, hpos⟩ :=
    enrich_end_to_end S hS turn_points for_operation
  obtain ⟨_, _, hfrom⟩ := sequenced_all_slots S hS _ _ _ _ hall
  have hrun2 := hrun
  unfold enrich_intersection_points at hrun2
  simp only [hseq, Option.bind_eq_bind, Option.some_bind] at hrun2
  have htf := enrich_assign_all_frame m1 _ _ hrun2
  refine ⟨m1, turn_points2, hseq, hrun, same_static_length hst, ?_, hframe⟩
  intro e1 he1 r hr
  obtain ⟨e, he, hse⟩ := hfrom e1 he1
  obtain ⟨i, hi⟩ := List.mem_iff_getElem?.mp hr
  have hilt : i < e1.2.length := (List.getElem?_eq_some_iff.mp hi).1
  have hmod : (i + 1) % e1.2.length < e1.2.length := Nat.mod_lt _ (by omega)
  obtain ⟨next, hnext⟩ : ∃ next, e1.2[(i + 1) % e1.2.length]? = some next :=
    ⟨_, List.getElem?_eq_getElem hmod⟩
  obtain ⟨a, b, ha, _, hfin⟩ := hpos e1 he1 i r next hi hnext
  have hnext_mem : next ∈ map_bucket (create_map (prepared_turns S turn_points for_operation)
      for_operation []) e.1 := by
    rw [map_bucket_of_mem _ (create_map_sorted _ _) e he]
    exact sequenced_from_mem S hS _ _ e e1 hse next (List.getElem?_mem hnext)
  obtain ⟨turn, hturn, hsk, _⟩ := mem_create_map_bucket _ _ _ next hnext_mem
  have hd : turn.discarded = false := by
    unfold create_map_skips at hsk
    simp only [Bool.or_eq_false_iff] at hsk
    exact hsk.1
  obtain ⟨turn2, hturn2, hd2⟩ := frame_getElem _ _ htf next.turn_index turn hturn
  have hp1 := points_at_kept_turn_of _ next.turn_index turn hturn hd
  have hp2 := points_at_kept_turn_of _ next.turn_index turn2 hturn2 (by rw [hd2]; exact hd)
  refine ⟨_, a, hfin, ha, hp1, hp2, ?_⟩
  simp only [assigned_operation]
  by_cases hc : (!decide (i + 1 = e1.2.length) &&
      decide (a.seg_id.segment_index = b.seg_id.segment_index)) = true
  · rw [if_pos hc]
    exact Or.inr ⟨hp1, hp2⟩
  · rw [if_neg hc]
    exact Or.inl rfl

/-- C19 witness: the colocated scenario with a side sorter reporting
independence. -/
theorem C19_links_point_at_kept_turns_witness :
    ∃ m1 turn_points2,
      sequenced_map (example_strategies true) colocated_ii
        operation_type.operation_intersection = some m1 ∧
      enrich_intersection_points (example_strategies true) colocated_ii
        operation_type.operation_intersection = some turn_points2 ∧
      (∀ e ∈ m1, ∀ r ∈ e.2, ∃ o : turn_operation,
        get_op turn_points2 r.turn_index r.operation_index = some o ∧
        points_at_kept_turn turn_points2 o.enriched.travels_to_ip_index = true) := by
  obtain ⟨m1, turn_points2, h1, h2, _, h4, _⟩ :=
    C19_links_point_at_kept_turns (example_strategies true) (example_strategies_permutes true)
      colocated_ii operation_type.operation_intersection
  refine ⟨m1, turn_points2, h1, h2, ?_⟩
  intro e he r hr
  obtain ⟨o, _, ho, _, _, hp, _⟩ := h4 e he r hr
  exact ⟨o, ho, hp⟩

/-! ### The first reference and the anchors -/

theorem anchor_after_unmarked (S : Strategies) (turn_points : List turn_info)
    (l : List indexed_turn_operation) :
    ∀ cluster_toi : indexed_turn_operation,
      anchor_after turn_points cluster_toi l = cluster_toi ∨
      ∃ k : Nat, l[k]? = some (anchor_after turn_points cluster_toi l) ∧
        (skip_marks S turn_points cluster_toi l)[k]? =
          some (anchor_after turn_points cluster_toi l) := by
  induction l with
  | nil => intro _; exact Or.inl rfl
  | cons it rest ih =>
    intro cluster_toi
    by_cases hm : ii_match turn_points cluster_toi it = true
    · rw [anchor_after_cons_match _ _ _ _ hm, skip_marks_cons_match _ _ _ _ _ hm]
      rcases ih cluster_toi with h | ⟨k, h1, h2⟩
      · exact Or.inl h
      · refine Or.inr ⟨k + 1, ?_, ?_⟩
        · rw [List.getElem?_cons_succ]; exact h1
        · rw [List.getElem?_cons_succ]; exact h2
    · rw [anchor_after_cons_no_match _ _ _ _ hm, skip_marks_cons_no_match _ _ _ _ _ hm]
      rcases ih it with h | ⟨k, h1, h2⟩
      · refine Or.inr ⟨0, ?_, ?_⟩
        · rw [h]; exact List.getElem?_cons_zero
        · rw [h]; exact List.getElem?_cons_zero
      · refine Or.inr ⟨k + 1, ?_, ?_⟩
        · rw [List.getElem?_cons_succ]; exact h1
        · rw [List.getElem?_cons_succ]; exact h2

/-- C20: every bucket created by `create_map` is non-empty.  With a sort that
permutes its input, `skip_after_ii` returns on the sorted bucket and leaves its
first reference as it is; at every point of the scan the anchor is the first
reference or a reference that the scan left unmarked; and `enrich_sort` returns
a non-empty bucket that starts with the first reference of the sorted one. -/
theorem C20_first_reference_survives (S : Strategies) (hS : sort_permutes S)
    (turn_points : List turn_info) (for_operation : operation_type) :
    ∀ e ∈ create_map turn_points for_operation [], e.2 ≠ [] ∧
      ∃ (cluster_toi : indexed_turn_operation) (rest marks result : List indexed_turn_operation),
        S.sort turn_points for_operation e.2 = cluster_toi :: rest ∧
        skip_after_ii S turn_points (cluster_toi :: rest) = some (cluster_toi :: marks) ∧
        cluster_toi.skip = false ∧
        enrich_sort S e.2 turn_points for_operation = some result ∧
        result ≠ [] ∧ result.head? = some cluster_toi ∧
        ∀ l1 l2 : List indexed_turn_operation, rest = l1 ++ l2 →
          ∃ (anchor : indexed_turn_operation) (m1 m2 : List indexed_turn_operation),
            skip_after_ii_loop S turn_points cluster_toi l1 = some m1 ∧
            skip_after_ii_loop S turn_points anchor l2 = some m2 ∧
            marks = m1 ++ m2 ∧ anchor.skip = false ∧
            (anchor = cluster_toi ∨
              ∃ k : Nat, l1[k]? = some anchor ∧ m1[k]? = some anchor) := by
  intro e he
  have hne := create_map_nonempty turn_points for_operation e he
  refine ⟨hne, ?_⟩
  have hex := create_map_slot_exists turn_points for_operation e he
  have hskip : ∀ r ∈ e.2, r.skip = false := by
    intro r hr
    rw [← map_bucket_of_mem _ (create_map_sorted turn_points for_operation) e he] at hr
    exact (mem_create_map_bucket _ _ _ r hr).choose_spec.2.2.2.1
  have hperm := hS turn_points for_operation e.2
  cases hsort : S.sort turn_points for_operation e.2 with
  | nil =>
    rw [hsort] at hperm
    exact absurd (List.Perm.eq_nil hperm.symm) hne
  | cons cluster_toi rest =>
    rw [hsort] at hperm
    have hex2 : ∀ r ∈ cluster_toi :: rest, slot_exists turn_points r :=
      fun r hr => hex r (hperm.mem_iff.mp hr)
    have hskip2 : ∀ r ∈ cluster_toi :: rest, r.skip = false :=
      fun r hr => hskip r (hperm.mem_iff.mp hr)
    have hc : cluster_toi.skip = false := hskip2 _ (by simp)
    have hres := enrich_sort_eq S hS e.2 turn_points for_operation hex cluster_toi rest hsort
    rw [List.filter_cons_of_pos (by simp [skip_operation, hc])] at hres
    refine ⟨cluster_toi, rest, skip_marks S turn_points cluster_toi rest, _, rfl,
      skip_after_ii_eq S turn_points cluster_toi rest hex2, hc, hres, by simp, rfl, ?_⟩
    intro l1 l2 hsplit
    have hl1 : ∀ r ∈ l1, slot_exists turn_points r :=
      fun r hr => hex2 r (by rw [hsplit]; simp [hr])
    have hl2 : ∀ r ∈ l2, slot_exists turn_points r :=
      fun r hr => hex2 r (by rw [hsplit]; simp [hr])
    have hamem := anchor_after_mem turn_points l1 cluster_toi
    have hamem2 : anchor_after turn_points cluster_toi l1 ∈ cluster_toi :: rest := by
      rw [hsplit]
      simp only [List.mem_cons, List.mem_append] at hamem ⊢
      tauto
    refine ⟨anchor_after turn_points cluster_toi l1, skip_marks S turn_points cluster_toi l1,
      skip_marks S turn_points (anchor_after turn_points cluster_toi l1) l2,
      skip_after_ii_loop_eq S turn_points l1 cluster_toi (hex2 _ (by simp)) hl1,
      skip_after_ii_loop_eq S turn_points l2 _ (hex2 _ hamem2) hl2, ?_, hskip2 _ hamem2,
      anchor_after_unmarked S turn_points l1 cluster_toi⟩
    rw [hsplit, skip_marks_append]

/-- C20 witness: the bucket of ring A in the colocated scenario is non-empty and
stays non-empty through `enrich_sort`, which keeps its first reference. -/
theorem C20_first_reference_survives_witness :
    bucket_colocated ≠ [] ∧
      ∃ (cluster_toi : indexed_turn_operation) (result : List indexed_turn_operation),
        enrich_sort (example_strategies true) bucket_colocated colocated_ii
          operation_type.operation_intersection = some result ∧
        result ≠ [] ∧ result.head? = some cluster_toi := by
  obtain ⟨h1, c, rest, marks, result, _, _, _, h5, h6, h7, _⟩ :=
    C20_first_reference_survives (example_strategies true) (example_strategies_permutes true)
      colocated_ii operation_type.operation_intersection (ring_a, bucket_colocated)
      (by decide)
  exact ⟨h1, c, result, h5, h6, h7⟩

end Enrich
